import Mathlib

/-!
# dupmerge: the duplicate-detection-and-merge engine

A shallow embedding of `src/dupmerge.c` (the ordering comparator
`comparison_sort`, the equality oracle `comparison_equal` with its two lazily
filled hash tiers `get_small_hash` / `get_big_hash`, and the scan loop of
`main`), followed by theorems about it.

Conventions of the embedding.

* C integers are mathematical integers (`Int`).  The two comparators return a C
  `int`, while the quantities they subtract (`off_t`, `dev_t`, `time_t`,
  `nlink_t`) are 64 bits wide, so every returned difference goes through
  `toInt32`, the conversion to a 32-bit two's-complement `int` (keep the low 32
  bits).  A wrap of the 64-bit subtraction itself is absorbed by that
  conversion, because 2^32 divides 2^64.
* A `char *` that may be `NULL` is an `Option String`.
* A 20-byte digest array is the natural number those bytes spell, most
  significant byte first; `memcmp` on two such arrays has the sign of the
  comparison of the two numbers.
* The file table is a `List entry` addressed by index; global counters are the
  record `Stats`; the filesystem the system calls act on is the record `FS`.
* `abort()` and a failed `assert` end the run: functions that can reach one
  return `Except Abort _` or an `Outcome`.
-/

namespace Dupmerge

/-! ## Machine integers -/

/-- Conversion of an integer value to the C type `int` (32 bits, two's
complement): the result is congruent to `x` modulo 2^32 and lies in
`[-2^31, 2^31)`. -/
def toInt32 (x : Int) : Int := (x + 2147483648) % 4294967296 - 2147483648

/-! ## Data model -/

/-- The command line switches read by the core (`Fast_flag`, `Quiet_flag`,
`Fast_threshold`, `No_do`, `Small_first`). -/
structure Config where
  Fast_flag : Bool
  Quiet_flag : Bool
  Fast_threshold : Int
  No_do : Bool
  Small_first : Bool
  deriving DecidableEq, Repr

/-- The fields of `struct stat` the program reads. -/
structure stat where
  st_dev : Int
  st_ino : Int
  st_size : Int
  st_mtime : Int
  st_nlink : Int
  st_blocks : Int
  deriving DecidableEq, Repr

/-- File table entry (`struct entry`).  `pathname = none` is the `NULL`
pointer that marks a retired record. -/
structure entry where
  pathname : Option String
  statbuf : stat
  partialhash : Nat
  filehash : Nat
  partialhash_present : Bool
  filehash_present : Bool
  deriving DecidableEq, Repr

/-- The statistics counters touched by the core. -/
structure Stats where
  Blocks_reclaimed : Int
  Full_hashes_computed : Int
  Block_hashes_computed : Int
  Full_hash_hits : Int
  Block_hash_hits : Int
  Partial_hit_full_fail : Int
  Unlinks : Int
  Unlink_failures : Int
  Map_fails : Int
  deriving DecidableEq, Repr

/-- All counters at their initial value 0. -/
def Stats.zero : Stats := ⟨0, 0, 0, 0, 0, 0, 0, 0, 0⟩

/-- Reasons for which the process ends through `abort()` or a failed `assert`. -/
inductive Abort where
  | cant_open
  | null_pathname
  | cant_lstat
  | assert_size
  | assert_ino
  | assert_dev
  | assert_mtime
  | cant_link
  deriving DecidableEq, Repr

/-! ## The filesystem seen through the system calls -/

/-- An on-disk file object: the attributes `lstat` reports for it and the two
SHA-1 digests its content has (`page`: of the first `PAGESIZE` bytes, or of the
whole file when it is shorter; `whole`: of all bytes). -/
structure Inode where
  st_size : Int
  st_mtime : Int
  st_nlink : Int
  st_blocks : Int
  page : Nat
  whole : Nat
  deriving DecidableEq, Repr

/-- The filesystem: path resolution, directory entries, the file objects, and
which calls the environment makes fail.  `resolve` takes a path as spelled to
the directory entry it leads to, so that two spellings of one entry (`y` and
`./y`) resolve alike; `dirent` gives, for a directory entry, the device and
inode number of the object it names.  The program adds and removes entries of
files only, never of directories, so `resolve` is the same throughout a run. -/
structure FS where
  resolve : String → String
  dirent : String → Option (Int × Int)
  inode : Int × Int → Option Inode
  unlink_fails : String → Bool
  link_fails : String → String → Bool
  mmap_fails : String → Bool

/-- The object the path names: device and inode number, or `none` when the
path names nothing. -/
def FS.dir (fs : FS) (path : String) : Option (Int × Int) := fs.dirent (fs.resolve path)

/-- What `lstat(path, &buf)` stores in `buf`, or `none` when it fails. -/
def lstat (fs : FS) (path : String) : Option stat :=
  match fs.dir path with
  | none => none
  | some id =>
    match fs.inode id with
    | none => none
    | some f => some ⟨id.1, id.2, f.st_size, f.st_mtime, f.st_nlink, f.st_blocks⟩

/-- The file object `open(path, O_RDONLY)` gives access to, or `none` when the
open fails. -/
def openFile (fs : FS) (path : String) : Option Inode :=
  match fs.dir path with
  | none => none
  | some id => fs.inode id

/-- Adjust the link count of the object `id` by `d`. -/
def bumpNlink (fs : FS) (id : Int × Int) (d : Int) : Int × Int → Option Inode :=
  fun k => if k = id then (fs.inode k).map (fun f => { f with st_nlink := f.st_nlink + d })
           else fs.inode k

/-- The call `unlink(path)`: `none` when it fails (filesystem unchanged), else
the filesystem without the directory entry the path leads to (under any
spelling). -/
def unlink (fs : FS) (path : String) : Option FS :=
  if fs.unlink_fails path then none
  else
    match fs.dir path with
    | none => none
    | some id =>
      some { fs with dirent := fun n => if n = fs.resolve path then none else fs.dirent n,
                     inode := bumpNlink fs id (-1) }

/-- The call `link(old, new)`: `none` when it fails (filesystem unchanged),
else the filesystem in which the directory entry `new` leads to names the
object `old` names. -/
def link (fs : FS) (old new : String) : Option FS :=
  if fs.link_fails old new then none
  else
    match fs.dir old, fs.dir new with
    | some id, none =>
      some { fs with dirent := fun n => if n = fs.resolve new then some id else fs.dirent n,
                     inode := bumpNlink fs id 1 }
    | _, _ => none

/-! ## C library functions -/

/-- The function `strrchr(s, c)`: the tail of `s` that starts at the last
occurrence of `c`, or `none` (the `NULL` result) when `c` does not occur. -/
def strrchr : List Char → Char → Option (List Char)
  | [], _ => none
  | x :: xs, c =>
    match strrchr xs c with
    | some r => some r
    | none => if x = c then some (x :: xs) else none

/-- The function `strcmp`: 0 exactly on equal strings, otherwise the difference
of the first two characters that differ. -/
def strcmp : List Char → List Char → Int
  | [], [] => 0
  | [], y :: _ => - (y.toNat : Int)
  | x :: _, [] => (x.toNat : Int)
  | x :: xs, y :: ys => if x = y then strcmp xs ys else (x.toNat : Int) - (y.toNat : Int)

/-- The function `memcmp` on two `HASHSIZE`-byte digests. -/
def memcmp (x y : Nat) : Int := if x < y then -1 else if y < x then 1 else 0

/-! ## `comparison_sort` -/

/-- The comparator handed to `qsort` (lines 442-485).  The pointer test
`a == b` is subsumed: on one and the same record every key test below falls
through to the final `return 0`. -/
def comparison_sort (cfg : Config) (a b : entry) : Int :=
  if b.pathname = none ∧ a.pathname = none then 0
  else if b.pathname = none then -1
  else if a.pathname = none then 1
  else if b.statbuf.st_size ≠ a.statbuf.st_size then
    if cfg.Small_first then toInt32 (a.statbuf.st_size - b.statbuf.st_size)
    else toInt32 (b.statbuf.st_size - a.statbuf.st_size)
  else if b.statbuf.st_dev ≠ a.statbuf.st_dev then
    toInt32 (b.statbuf.st_dev - a.statbuf.st_dev)
  else if a.statbuf.st_mtime ≠ b.statbuf.st_mtime then
    toInt32 (a.statbuf.st_mtime - b.statbuf.st_mtime)
  else if a.statbuf.st_nlink ≠ b.statbuf.st_nlink then
    toInt32 (b.statbuf.st_nlink - a.statbuf.st_nlink)
  else 0

/-! ## The hash cache -/

/-- What `get_small_hash` computes from the file at `path`: open it, map its
first page, take the SHA-1 of that extent.  `none` when the open fails. -/
def sha1_first_page (fs : FS) (path : String) : Option Nat :=
  (openFile fs path).map (fun f => f.page)

/-- What `get_big_hash` computes from the file at `path`: the SHA-1 of its whole
content (mapped at once, or read in chunks when the mapping fails).  `none`
when the open fails. -/
def sha1_whole_file (fs : FS) (path : String) : Option Nat :=
  (openFile fs path).map (fun f => f.whole)

/-- The function `get_small_hash` (lines 568-589).  Its guard reads
`filehash_present`, as in the source.  `open(NULL, ...)` fails like any other
failed open. -/
def get_small_hash (fs : FS) (ep : entry) (c : Stats) : Except Abort (entry × Stats) :=
  if ep.filehash_present = false then
    match ep.pathname.bind (sha1_first_page fs) with
    | none => .error Abort.cant_open
    | some h =>
      .ok ({ ep with partialhash := h, partialhash_present := true },
           { c with Block_hashes_computed := c.Block_hashes_computed + 1 })
  else .ok (ep, c)

/-- The counters after `get_big_hash` has hashed the file at `path`: one more
full hash, and one more `Map_fails` when the mapping failed. -/
def count_big_hash (fs : FS) (path : String) (c : Stats) : Stats :=
  if fs.mmap_fails path = true then
    { c with Full_hashes_computed := c.Full_hashes_computed + 1, Map_fails := c.Map_fails + 1 }
  else { c with Full_hashes_computed := c.Full_hashes_computed + 1 }

/-- The function `get_big_hash` (lines 591-629).  Both the mapped and the
chunked reading give the digest of the whole content. -/
def get_big_hash (fs : FS) (ep : entry) (c : Stats) : Except Abort (entry × Stats) :=
  if ep.filehash_present = false then
    match ep.pathname with
    | none => .error Abort.cant_open
    | some p =>
      match sha1_whole_file fs p with
      | none => .error Abort.cant_open
      | some h => .ok ({ ep with filehash := h, filehash_present := true }, count_big_hash fs p c)
  else .ok (ep, c)

/-- The statement `if(!e->partialhash_present) get_small_hash(e); else
Block_hash_hits++;` (lines 535-543). -/
def small_tier (fs : FS) (e : entry) (c : Stats) : Except Abort (entry × Stats) :=
  if e.partialhash_present = false then get_small_hash fs e c
  else .ok (e, { c with Block_hash_hits := c.Block_hash_hits + 1 })

/-- The statement `if(!e->filehash_present) get_big_hash(e); else
Full_hash_hits++;` (lines 550-558). -/
def big_tier (fs : FS) (e : entry) (c : Stats) : Except Abort (entry × Stats) :=
  if e.filehash_present = false then get_big_hash fs e c
  else .ok (e, { c with Full_hash_hits := c.Full_hash_hits + 1 })

/-! ## `comparison_equal` -/

/-- The part of a path the fast comparison looks at (lines 524-527): from the
last slash on, the slash included, or the whole path when it has none. -/
def fast_name (p : String) : List Char :=
  match strrchr p.data '/' with
  | some r => r
  | none => p.data

/-- The hash cascade of `comparison_equal` (lines 534-565). -/
def hash_cascade (fs : FS) (a b : entry) (c : Stats) :
    Except Abort (Int × entry × entry × Stats) :=
  match small_tier fs a c with
  | .error w => .error w
  | .ok (a1, c1) =>
    match small_tier fs b c1 with
    | .error w => .error w
    | .ok (b1, c2) =>
      let i := memcmp a1.partialhash b1.partialhash
      if i ≠ 0 then .ok (i, a1, b1, c2)
      else
        match big_tier fs a1 c2 with
        | .error w => .error w
        | .ok (a2, c3) =>
          match big_tier fs b1 c3 with
          | .error w => .error w
          | .ok (b2, c4) =>
            let i2 := memcmp a2.filehash b2.filehash
            if i2 ≠ 0 then
              .ok (i2, a2, b2, { c4 with Partial_hit_full_fail := c4.Partial_hit_full_fail + 1 })
            else .ok (0, a2, b2, c4)

/-- The equality oracle `comparison_equal` (lines 491-566): the returned `int`,
the two records as the call leaves them, and the counters.  The pointer test
`a == b` is subsumed by the device-and-inode test that follows it.  Handing a
`NULL` path to `strrchr` is the abort `null_pathname`. -/
def comparison_equal (cfg : Config) (fs : FS) (a b : entry) (c : Stats) :
    Except Abort (Int × entry × entry × Stats) :=
  if a.statbuf.st_dev = b.statbuf.st_dev ∧ a.statbuf.st_ino = b.statbuf.st_ino then
    .ok (0, a, b, c)
  else if b.statbuf.st_size ≠ a.statbuf.st_size then
    .ok (toInt32 (b.statbuf.st_size - a.statbuf.st_size), a, b, c)
  else if b.statbuf.st_dev ≠ a.statbuf.st_dev then
    .ok (toInt32 (b.statbuf.st_dev - a.statbuf.st_dev), a, b, c)
  else if cfg.Fast_flag = true ∧ a.statbuf.st_size > cfg.Fast_threshold then
    match a.pathname, b.pathname with
    | some pa, some pb =>
      if strcmp (fast_name pa) (fast_name pb) = 0
          ∧ a.statbuf.st_mtime = b.statbuf.st_mtime then
        .ok (0, a, b, c)
      else hash_cascade fs a b c
    | _, _ => .error Abort.null_pathname
  else hash_cascade fs a b c

/-! ## The scan loop of `main` -/

/-- What the scan decides, in order: `existing i j` retires `j` as an existing
hard link to the reference `i` (lines 367-373); `oracle i j` is a call
`comparison_equal(&entries[i], &entries[j])`; `ln i j` is the verdict that `j`
is to be unlinked and recreated as a link to `i` (the line the program prints
unless it is quiet). -/
inductive Event where
  | existing (i j : Nat)
  | oracle (i j : Nat)
  | ln (i j : Nat)
  deriving DecidableEq, Repr

/-- The state the scan loop works on: file table, filesystem, counters, and
the decisions taken so far. -/
structure State where
  entries : List entry
  fs : FS
  stats : Stats
  log : List Event

/-- How a run ends: normally, or through `abort()` / a failed `assert` (with
the state reached by then). -/
inductive Outcome where
  | done (s : State)
  | aborted (why : Abort) (s : State)

/-- The state an outcome carries. -/
def Outcome.state : Outcome → State
  | .done s => s
  | .aborted _ s => s

/-- Whether the run ended through an abort, and which. -/
def Outcome.abort : Outcome → Option Abort
  | .done _ => none
  | .aborted w _ => some w

/-- `free(entries[j].pathname); entries[j].pathname = NULL;` -/
def retire (es : List entry) (j : Nat) : List entry :=
  match es[j]? with
  | some e => es.set j { e with pathname := none }
  | none => es

/-- The statement `if(entries[j].statbuf.st_nlink == 1) Blocks_reclaimed +=
entries[j].statbuf.st_blocks;` (lines 380-383). -/
def credit_blocks (ej : entry) (c : Stats) : Stats :=
  if ej.statbuf.st_nlink = 1 then
    { c with Blocks_reclaimed := c.Blocks_reclaimed + ej.statbuf.st_blocks }
  else c

/-- The "last minute paranoid checks" (lines 385-401): both paths are
inspected afresh; the result is the abort the block ends in, or `none` when all
checks pass.  `lstat` of a `NULL` path fails. -/
def last_minute_checks (fs : FS) (ei ej : entry) : Option Abort :=
  match ei.pathname.bind (lstat fs) with
  | none => some Abort.cant_lstat
  | some statbuf_a =>
    match ej.pathname.bind (lstat fs) with
    | none => some Abort.cant_lstat
    | some statbuf_b =>
      if statbuf_a.st_size ≠ statbuf_b.st_size then some Abort.assert_size
      else if statbuf_a.st_ino = statbuf_b.st_ino then some Abort.assert_ino
      else if statbuf_a.st_dev ≠ statbuf_b.st_dev then some Abort.assert_dev
      else if ¬ statbuf_a.st_mtime ≤ statbuf_b.st_mtime then some Abort.assert_mtime
      else none

/-- The call `unlink(entries[j].pathname)`; it fails on a `NULL` path. -/
def unlink_path (fs : FS) (pj : Option String) : Option FS := pj.bind (unlink fs)

/-- The call `link(entries[i].pathname, entries[j].pathname)`; it fails on a
`NULL` path. -/
def link_path (fs : FS) (pi pj : Option String) : Option FS :=
  match pi, pj with
  | some old, some new => link fs old new
  | _, _ => none

/-- The end of the body (lines 412-415): retire `j`, count the unlink. -/
def finish (j : Nat) (s : State) : Outcome :=
  .done { s with entries := retire s.entries j,
                 stats := { s.stats with Unlinks := s.stats.Unlinks + 1 } }

/-- The body executed for a pair judged equal (lines 375-415), on the state
`s` in which the oracle left the two records `ei = entries[i]` and
`ej = entries[j]`. -/
def merge (cfg : Config) (i j : Nat) (ei ej : entry) (s : State) : Outcome :=
  let s2 : State :=
    { s with stats := credit_blocks ej s.stats, log := s.log ++ [Event.ln i j] }
  match last_minute_checks s2.fs ei ej with
  | some w => .aborted w s2
  | none =>
    if cfg.No_do = false then
      match unlink_path s2.fs ej.pathname with
      | none =>
        finish j { s2 with stats := { s2.stats with
          Unlink_failures := s2.stats.Unlink_failures + 1 } }
      | some fs1 =>
        match link_path fs1 ei.pathname ej.pathname with
        | none => .aborted Abort.cant_link { s2 with fs := fs1 }
        | some fs2 => finish j { s2 with fs := fs2 }
    else finish j s2

/-- The body of the inner `for` loop (lines 361-416) for the reference
`ei = entries[i]` and the candidate `ej = entries[j]`. -/
def inner_body (cfg : Config) (i j : Nat) (ei ej : entry) (s : State) : Outcome :=
  if ej.pathname = none then .done s
  else if ei.statbuf.st_dev = ej.statbuf.st_dev ∧ ei.statbuf.st_ino = ej.statbuf.st_ino then
    .done { s with entries := retire s.entries j, log := s.log ++ [Event.existing i j] }
  else
    match comparison_equal cfg s.fs ei ej s.stats with
    | .error w => .aborted w { s with log := s.log ++ [Event.oracle i j] }
    | .ok (v, ei1, ej1, c1) =>
      let s1 : State :=
        { s with entries := (s.entries.set i ei1).set j ej1, stats := c1,
                 log := s.log ++ [Event.oracle i j] }
      if v = 0 then merge cfg i j ei1 ej1 s1 else .done s1

/-- The inner `for` loop (lines 356-417) from position `j` on; `fuel` is
`nfiles - j`, the number of positions left, so that it reaches 0 exactly when
the loop test `j < nfiles` fails. -/
def inner_loop (cfg : Config) (i : Nat) : Nat → Nat → State → Outcome
  | 0, _, s => .done s
  | fuel + 1, j, s =>
    match s.entries[i]?, s.entries[j]? with
    | some ei, some ej =>
      if ei.statbuf.st_size = ej.statbuf.st_size
          ∧ ei.statbuf.st_dev = ej.statbuf.st_dev then
        match inner_body cfg i j ei ej s with
        | .done s1 => inner_loop cfg i fuel (j + 1) s1
        | .aborted w s1 => .aborted w s1
      else .done s
    | _, _ => .done s

/-- The outer `for` loop (lines 347-418) from position `i` on; `fuel` is
`nfiles - 1 - i`. -/
def outer_loop (cfg : Config) : Nat → Nat → State → Outcome
  | 0, _, s => .done s
  | fuel + 1, i, s =>
    match s.entries[i]? with
    | some ei =>
      if ei.pathname = none then outer_loop cfg fuel (i + 1) s
      else
        match inner_loop cfg i (s.entries.length - (i + 1)) (i + 1) s with
        | .done s1 => outer_loop cfg fuel (i + 1) s1
        | .aborted w s1 => .aborted w s1
    | none => .done s

/-- The scan of `main` over the sorted table (lines 347-418). -/
def scan (cfg : Config) (s : State) : Outcome :=
  outer_loop cfg (s.entries.length - 1) 0 s

/-- The state `main` enters the scan with: the sorted table, the filesystem,
all counters 0, nothing decided yet. -/
def start (es : List entry) (fs : FS) : State := ⟨es, fs, Stats.zero, []⟩

/-! ## Reading the result of an oracle call -/

/-- The `int` a call of `comparison_equal` returns (`none` when it aborts). -/
def verdict (r : Except Abort (Int × entry × entry × Stats)) : Option Int :=
  match r with
  | .ok (v, _, _, _) => some v
  | .error _ => none

/-- The counters as a call of `comparison_equal` leaves them. -/
def counters (r : Except Abort (Int × entry × entry × Stats)) : Option Stats :=
  match r with
  | .ok (_, _, _, c) => some c
  | .error _ => none

/-! ## The documented ordering -/

/-- The key priority the comparator is documented to implement: retired
records last; then larger size first (smaller first under `Small_first`); then
by device (larger identifier first); then older modification time first; then
higher link count first. -/
def documented_order (cfg : Config) (a b : entry) : Ordering :=
  match a.pathname, b.pathname with
  | none, none => Ordering.eq
  | some _, none => Ordering.lt
  | none, some _ => Ordering.gt
  | some _, some _ =>
    ((((if cfg.Small_first then compare a.statbuf.st_size b.statbuf.st_size
        else compare b.statbuf.st_size a.statbuf.st_size).then
       (compare b.statbuf.st_dev a.statbuf.st_dev)).then
      (compare a.statbuf.st_mtime b.statbuf.st_mtime)).then
     (compare b.statbuf.st_nlink a.statbuf.st_nlink))

/-- The sign of a C `int` as an `Ordering`. -/
def sign_of (v : Int) : Ordering := compare v 0

/-! ## Concrete inputs used below -/

/-- Default switches: nothing set, threshold 100000. -/
def default_config : Config := ⟨false, false, 100000, false, false⟩

/-- The switches of a run with `-f`. -/
def fast_config : Config := ⟨true, false, 100000, false, false⟩

/-- A fresh record: path and `lstat` data, no hash yet. -/
def fresh (p : String) (dev ino size mtime nlink blocks : Int) : entry :=
  ⟨some p, ⟨dev, ino, size, mtime, nlink, blocks⟩, 0, 0, false, false⟩

/-- A file of 2^32 + 1 bytes. -/
def huge_file : entry := fresh "huge" 1 1 4294967297 0 1 8388616

/-- A file of 1 byte on the same device. -/
def tiny_file : entry := fresh "tiny" 1 2 1 0 1 8

/-- Two files of 200000 bytes named `foo`, one listed as `foo` and one as
`d/foo`, same modification time, different content. -/
def foo_fs : FS where
  resolve := fun p => p
  dirent := fun p => if p = "foo" then some (1, 1) else if p = "d/foo" then some (1, 2) else none
  inode := fun k =>
    if k = (1, 1) then some ⟨200000, 500, 1, 392, 11, 21⟩
    else if k = (1, 2) then some ⟨200000, 500, 1, 392, 12, 22⟩
    else none
  unlink_fails := fun _ => false
  link_fails := fun _ _ => false
  mmap_fails := fun _ => false

/-- The record of `foo`. -/
def foo_plain : entry := fresh "foo" 1 1 200000 500 1 392

/-- The record of `d/foo`. -/
def foo_in_dir : entry := fresh "d/foo" 1 2 200000 500 1 392

/-! ## The digests a record stands for -/

/-- The first-page digest of a record: the memoized one when the record has
one, else the digest of the first page of its file. -/
def page_digest (fs : FS) (e : entry) : Option Nat :=
  if e.partialhash_present = true then some e.partialhash
  else e.pathname.bind (sha1_first_page fs)

/-- The whole-file digest of a record: the memoized one when the record has
one, else the digest of its file. -/
def whole_digest (fs : FS) (e : entry) : Option Nat :=
  if e.filehash_present = true then some e.filehash
  else e.pathname.bind (sha1_whole_file fs)

/-- The fast comparison settles the pair: it is switched on, the size is above
the threshold, and the code finds the two names and the two modification times
equal (lines 520-531). -/
def fast_taken (cfg : Config) (a b : entry) : Prop :=
  cfg.Fast_flag = true ∧ a.statbuf.st_size > cfg.Fast_threshold ∧
    ∃ pa pb, a.pathname = some pa ∧ b.pathname = some pb ∧
      strcmp (fast_name pa) (fast_name pb) = 0 ∧ a.statbuf.st_mtime = b.statbuf.st_mtime

/-! ## Sequences of oracle calls -/

/-- One call `comparison_equal(&entries[i], &entries[j])` on the table: the
two records and the counters are written back.  With `i = j` the two pointers
are equal and the call returns at once.  A position outside the table names no
record and no call is made. -/
def call_equal (cfg : Config) (fs : FS) (t : List entry × Stats) (i j : Nat) :
    Except Abort (List entry × Stats) :=
  match t.1[i]?, t.1[j]? with
  | some a, some b =>
    if i = j then .ok t
    else
      match comparison_equal cfg fs a b t.2 with
      | .ok (_, a1, b1, c1) => .ok ((t.1.set i a1).set j b1, c1)
      | .error w => .error w
  | _, _ => .ok t

/-- A sequence of oracle calls, in order; an abort ends it. -/
def run_calls (cfg : Config) (fs : FS) :
    List (Nat × Nat) → List entry × Stats → Except Abort (List entry × Stats)
  | [], t => .ok t
  | (i, j) :: rest, t =>
    match call_equal cfg fs t i j with
    | .ok t1 => run_calls cfg fs rest t1
    | .error w => .error w

/-- 1 for a set flag, 0 for a clear one. -/
def bit (b : Bool) : Int := if b = true then 1 else 0

/-- The number of records that hold a partial hash. -/
def partial_count (es : List entry) : Int := (es.map (fun e => bit e.partialhash_present)).sum

/-- The number of records that hold a full hash. -/
def full_count (es : List entry) : Int := (es.map (fun e => bit e.filehash_present)).sum

/-- No record holds a full hash without holding a partial hash. -/
def tiers_ordered (es : List entry) : Prop :=
  ∀ e ∈ es, e.filehash_present = true → e.partialhash_present = true

/-- The facts about one record that every completed oracle call preserves or
accounts for: tier order, presence and value of memoized digests. -/
def kept (e e1 : entry) : Prop :=
  e1.pathname = e.pathname ∧ e1.statbuf = e.statbuf
    ∧ (e1.filehash_present = true → e1.partialhash_present = true)
    ∧ (e.partialhash_present = true →
        e1.partialhash_present = true ∧ e1.partialhash = e.partialhash)
    ∧ (e.filehash_present = true → e1.filehash_present = true ∧ e1.filehash = e.filehash)


/-- Table `es1` holds the same records as `es`, each one kept. -/
def table_kept (es es1 : List entry) : Prop :=
  es1.length = es.length ∧
    ∀ (k : Nat) (e : entry), es[k]? = some e → ∃ e1, es1[k]? = some e1 ∧ kept e e1

/-- The table after one oracle call on `foo` and `d/foo`: both partial hashes
are there. -/
def foo_table_hashed : List entry :=
  [{ foo_plain with partialhash := 11, partialhash_present := true },
   { foo_in_dir with partialhash := 12, partialhash_present := true }]

/-! ## What an oracle call leaves alone -/

/-- The oracle changed neither path nor `lstat` data of the record, and none of
the counters of the merge executor. -/
def framed (e e1 : entry) (c c1 : Stats) : Prop :=
  e1.pathname = e.pathname ∧ e1.statbuf = e.statbuf
    ∧ c1.Unlinks = c.Unlinks ∧ c1.Unlink_failures = c.Unlink_failures
    ∧ c1.Blocks_reclaimed = c.Blocks_reclaimed

/-! ## Two identical files, the second in a directory that cannot be written -/

/-- Files `a` (older) and `b`, same size, device and content; `unlink("b")`
fails. -/
def locked_fs : FS where
  resolve := fun p => p
  dirent := fun p => if p = "a" then some (1, 1) else if p = "b" then some (1, 2) else none
  inode := fun k =>
    if k = (1, 1) then some ⟨10, 100, 1, 8, 7, 9⟩
    else if k = (1, 2) then some ⟨10, 200, 1, 8, 7, 9⟩
    else none
  unlink_fails := fun p => p = "b"
  link_fails := fun _ _ => false
  mmap_fails := fun _ => false

/-- The record of `a`. -/
def locked_a : entry := fresh "a" 1 1 10 100 1 8

/-- The record of `b`. -/
def locked_b : entry := fresh "b" 1 2 10 200 1 8

/-- A record with both hashes filled in. -/
def hashed (e : entry) (p w : Nat) : entry :=
  { e with partialhash := p, filehash := w, partialhash_present := true,
           filehash_present := true }

/-! ## Retirement along the decisions of a scan -/

/-- The path column of the table. -/
def paths (es : List entry) : List (Option String) := es.map (fun e => e.pathname)

/-- Record `k` of the table is retired: its path is `NULL`. -/
def retired_at (es : List entry) (k : Nat) : Prop := (paths es)[k]? = some none

/-- The decision involves record `k`, as reference or as candidate. -/
def Event.mentions : Event → Nat → Prop
  | .existing i j, k => k = i ∨ k = j
  | .oracle i j, k => k = i ∨ k = j
  | .ln i j, k => k = i ∨ k = j

/-- The record a decision retires (`oracle` retires none). -/
def Event.retires : Event → Option Nat
  | .existing _ j => some j
  | .oracle _ _ => none
  | .ln _ j => some j

/-- No decision of the list involves a record that is retired by then: one of
the set `R` retired beforehand, or one retired by an earlier decision of the
list. -/
def log_respects (R : Nat → Prop) : List Event → Prop
  | [] => True
  | ev :: l => (∀ k, R k → ¬ ev.mentions k) ∧ log_respects (fun k => R k ∨ ev.retires = some k) l

/-- The decisions `l`, taken between a table `es` and a later table `es1` of a
run that ended with `ab`, respect retirement: none involves a record retired by
then, every record retired in `es` is retired in `es1`, and, unless the run
aborted, so is every record one of the decisions retired. -/
def terminal_step (es es1 : List entry) (l : List Event) (ab : Option Abort) : Prop :=
  log_respects (retired_at es) l
    ∧ (∀ k, retired_at es k → retired_at es1 k)
    ∧ (ab = none → ∀ ev ∈ l, ∀ k, ev.retires = some k → retired_at es1 k)
    ∧ es1.length = es.length

/-! ## A real run beside a dry run -/

/-- What the program can observe of a file object through `lstat` checks and
hashing: size, modification time and the two digests (not the link count). -/
def Inode.core (f : Inode) : Int × Int × Nat × Nat := (f.st_size, f.st_mtime, f.page, f.whole)

/-- The fields of an `lstat` result the last-minute checks read. -/
def stat.key (st : stat) : Int × Int × Int × Int := (st.st_dev, st.st_ino, st.st_size, st.st_mtime)

/-- No directory entry is listed by two active records of the table, under
the same or under different spellings. -/
def paths_distinct (fs : FS) (es : List entry) : Prop :=
  ∀ (i j : Nat) (p q : String),
    (paths es)[i]? = some (some p) → (paths es)[j]? = some (some q) →
    fs.resolve p = fs.resolve q → i = j

/-- Filesystem `fsR` (of the real run) shows the active records of table `es`
what filesystem `fsD` (of the dry run) shows them: the same directory entry
under every active path, and the same file objects up to link counts.  The
environment treats both alike, and paths resolve alike. -/
def fs_agree (fsR fsD : FS) (es : List entry) : Prop :=
  (∀ (k : Nat) (p : String), (paths es)[k]? = some (some p) → fsR.dir p = fsD.dir p)
    ∧ (∀ id, (fsR.inode id).map Inode.core = (fsD.inode id).map Inode.core)
    ∧ fsR.link_fails = fsD.link_fails ∧ fsR.unlink_fails = fsD.unlink_fails
    ∧ fsR.resolve = fsD.resolve

/-- Table `es` is table `es0` with some paths cleared. -/
def path_frame (es0 es : List entry) : Prop :=
  (paths es).length = (paths es0).length
    ∧ ∀ k : Nat, (paths es)[k]? = (paths es0)[k]? ∨ (paths es)[k]? = some none

/-- What the real run has done so far to the directory entries of retired
records, told from its decisions: the retired side of every merge verdict is
retired; its path (as listed in the original table `es0`) now names what the
path of the kept side named at the start (`fs0`), unless the environment makes
unlinking it fail; and the path of a record retired otherwise names what it
named at the start. -/
def relinked (es0 : List entry) (s : State) (fs0 : FS) : Prop :=
  (∀ r k : Nat, Event.ln r k ∈ s.log → retired_at s.entries k)
    ∧ (∀ (r k : Nat) (pk pr : String), Event.ln r k ∈ s.log →
        (paths es0)[k]? = some (some pk) → (paths es0)[r]? = some (some pr) →
        fs0.unlink_fails pk = false → s.fs.dir pk = fs0.dir pr)
    ∧ (∀ (k : Nat) (pk : String), retired_at s.entries k →
        (paths es0)[k]? = some (some pk) → (∀ r : Nat, Event.ln r k ∉ s.log) →
        s.fs.dir pk = fs0.dir pk)

/-- Two results of a hash-tier request agree on the record and on aborting. -/
def agree_tier (r r1 : Except Abort (entry × Stats)) : Prop :=
  match r, r1 with
  | .ok (e, _), .ok (e1, _) => e = e1
  | .error w, .error w1 => w = w1
  | _, _ => False

/-- Two results of an oracle call agree on verdict, records and aborting. -/
def agree_call (r r1 : Except Abort (Int × entry × entry × Stats)) : Prop :=
  match r, r1 with
  | .ok (v, a, b, _), .ok (v1, a1, b1, _) => v = v1 ∧ a = a1 ∧ b = b1
  | .error w, .error w1 => w = w1
  | _, _ => False

/-- The outcome `oR` of a real run beside the outcome `oD` of the dry run on
the same input (original table `es0`, filesystem `fs0`): either the real run
aborted on a `link` the environment made fail, or the two agree on aborting,
table and decisions, and when they did not abort the real filesystem still
agrees with `fs0` on the active records and is relinked as decided. -/
def sim_out (es0 : List entry) (fs0 : FS) (oR oD : Outcome) : Prop :=
  (oR.abort = some Abort.cant_link ∧ ∃ a b, fs0.link_fails a b = true)
    ∨ (oR.abort = oD.abort ∧ oR.state.entries = oD.state.entries
        ∧ oR.state.log = oD.state.log
        ∧ (oR.abort = none →
            fs_agree oR.state.fs fs0 oR.state.entries ∧ path_frame es0 oR.state.entries
              ∧ relinked es0 oR.state fs0))

/-! ## A path listed twice -/

/-- Files `x` (older) and `y`, same size, device and content, different
inodes; no call is made to fail. -/
def twice_fs : FS where
  resolve := fun p => p
  dirent := fun p => if p = "x" then some (1, 1) else if p = "y" then some (1, 2) else none
  inode := fun k =>
    if k = (1, 1) then some ⟨10, 100, 1, 8, 7, 9⟩
    else if k = (1, 2) then some ⟨10, 200, 1, 8, 7, 9⟩
    else none
  unlink_fails := fun _ => false
  link_fails := fun _ _ => false
  mmap_fails := fun _ => false

/-- The sorted table of an input that lists `x` once and `y` twice. -/
def twice_listed : List entry :=
  [fresh "x" 1 1 10 100 1 8, fresh "y" 1 2 10 200 1 8, fresh "y" 1 2 10 200 1 8]

/-! ## Sorted tables with key differences that fit an `int` -/

/-- The table is in an order `qsort` with `comparison_sort` may leave it in:
no record is followed by one the comparator puts strictly before it. -/
def sorted_by (cfg : Config) (es : List entry) : Prop :=
  es.Pairwise (fun a b => comparison_sort cfg a b ≤ 0)

/-- The loop test of the inner loop (lines 358-359): same size, same device. -/
def same_window (a b : entry) : Prop :=
  a.statbuf.st_size = b.statbuf.st_size ∧ a.statbuf.st_dev = b.statbuf.st_dev

/-- The value lies between `INT_MIN` and `INT_MAX`: a 64-bit difference with
this value is returned unchanged as an `int`. -/
def fits_int (x : Int) : Prop := -2147483648 ≤ x ∧ x < 2147483648

/-- The difference `comparison_sort(a, b)` returns is the true difference, as
far as the scan relies on it: that of the sizes; that of the device ids when
the sizes are equal; that of the modification times when sizes and device ids
are equal.  Nothing is asked of the keys themselves, nor of the link counts. -/
def keys_fit (cfg : Config) (a b : entry) : Prop :=
  fits_int (if cfg.Small_first = true then a.statbuf.st_size - b.statbuf.st_size
            else b.statbuf.st_size - a.statbuf.st_size)
    ∧ (a.statbuf.st_size = b.statbuf.st_size →
        fits_int (b.statbuf.st_dev - a.statbuf.st_dev))
    ∧ (same_window a b → fits_int (a.statbuf.st_mtime - b.statbuf.st_mtime))

/-- For every record of the table and every record after it the comparator
returns the true difference of the keys the scan relies on. -/
def differences_fit (cfg : Config) (es : List entry) : Prop :=
  es.Pairwise (keys_fit cfg)

/-- The `lstat` data of the table was taken from this filesystem: every listed
path exists and `lstat` reports for it the device, inode, size and
modification time the record holds. -/
def snapshot_of (fs : FS) (es : List entry) : Prop :=
  ∀ e ∈ es, ∀ p, e.pathname = some p →
    ∃ st, lstat fs p = some st ∧ st.key = e.statbuf.key

/-- The `lstat` column of the table. -/
def stats_col (es : List entry) : List stat := es.map (fun e => e.statbuf)

/-- An outcome satisfies `I` when the run completed and `Q` when it aborted. -/
def Outcome.holds (I : State → Prop) (Q : Abort → State → Prop) : Outcome → Prop
  | .done s => I s
  | .aborted w s => Q w s

/-- Table `es` is table `es0` with some paths cleared and hashes filled in:
same `lstat` column, and each path as in `es0` or cleared. -/
def col_frame (es0 es : List entry) : Prop :=
  path_frame es0 es ∧ stats_col es = stats_col es0

/-- The merge verdicts among the decisions of state `s`, on a table that was
`es0` at the start, were each taken for a reference `r` below `bound` that is
still active and a later candidate `k` in the window of `r`, both active in
`es0`. -/
def verdicts_sound (es0 : List entry) (bound : Nat) (s : State) : Prop :=
  ∀ r k : Nat, Event.ln r k ∈ s.log →
    r < bound ∧ r < k ∧ ¬ retired_at s.entries r
      ∧ ∃ er ek, es0[r]? = some er ∧ es0[k]? = some ek ∧ same_window er ek
          ∧ er.pathname ≠ none ∧ ek.pathname ≠ none

instance (a b : entry) : Decidable (same_window a b) := by
  unfold same_window
  infer_instance

instance (x : Int) : Decidable (fits_int x) := by
  unfold fits_int
  infer_instance

instance (cfg : Config) (a b : entry) : Decidable (keys_fit cfg a b) := by
  unfold keys_fit
  infer_instance

instance (cfg : Config) (es : List entry) : Decidable (differences_fit cfg es) := by
  unfold differences_fit
  infer_instance

instance (cfg : Config) (es : List entry) : Decidable (sorted_by cfg es) := by
  unfold sorted_by
  infer_instance

/-! ## Two files 2^31 seconds apart -/

/-- Files `new` (modified at 2^31, in January 2038) and `old` (modified at 0),
same size, device and content. -/
def epoch_fs : FS where
  resolve := fun p => p
  dirent := fun p => if p = "new" then some (1, 1) else if p = "old" then some (1, 2) else none
  inode := fun k =>
    if k = (1, 1) then some ⟨10, 2147483648, 1, 8, 7, 9⟩
    else if k = (1, 2) then some ⟨10, 0, 1, 8, 7, 9⟩
    else none
  unlink_fails := fun _ => false
  link_fails := fun _ _ => false
  mmap_fails := fun _ => false

/-- The table with `new` before `old`; the comparator, asked about `new` and
`old` in this order, answers `(int)2^31 < 0`: "in order". -/
def epoch_table : List entry :=
  [fresh "new" 1 1 10 2147483648 1 8, fresh "old" 1 2 10 0 1 8]

/-! ## Convergence -/

/-- Two records hold byte-identical files on one device, as far as the program
can tell: same size, same device, same first-page digest, same whole-file
digest (the digests being those of the files at the two paths). -/
def same_content (fs : FS) (a b : entry) : Prop :=
  same_window a b
    ∧ a.pathname.bind (sha1_first_page fs) = b.pathname.bind (sha1_first_page fs)
    ∧ a.pathname.bind (sha1_whole_file fs) = b.pathname.bind (sha1_whole_file fs)

/-- Record `e` of the current table is record `e0` of the original table with
its path possibly cleared and with hashes, where present, that are the digests
of the file `e0` lists; and it holds no full hash without a partial hash. -/
def cache_ok (fs : FS) (e0 e : entry) : Prop :=
  e.statbuf = e0.statbuf ∧ (e.pathname = e0.pathname ∨ e.pathname = none)
    ∧ (e.filehash_present = true → e.partialhash_present = true)
    ∧ (e.partialhash_present = true →
        some e.partialhash = e0.pathname.bind (sha1_first_page fs))
    ∧ (e.filehash_present = true → some e.filehash = e0.pathname.bind (sha1_whole_file fs))

/-- Every record of the original table `es` is in place in the current table,
with a sound cache. -/
def entries_ok (fs : FS) (es ents : List entry) : Prop :=
  ents.length = es.length
    ∧ ∀ (k : Nat) (e0 : entry), es[k]? = some e0 → ∃ e, ents[k]? = some e ∧ cache_ok fs e0 e

/-- The state of a dry run on the original table `es` and filesystem `fs`:
filesystem untouched, every record in place with a sound cache. -/
def table_ok (fs : FS) (es : List entry) (s : State) : Prop :=
  s.fs = fs ∧ entries_ok fs es s.entries

/-- Every retired record was retired under an earlier reference below `bound`
that is still active and holds the same content: by a merge verdict, or
because it is the same on-disk object (and then no merge verdict names it). -/
def justified (fs : FS) (es : List entry) (bound : Nat) (s : State) : Prop :=
  ∀ k : Nat, retired_at s.entries k →
    ∃ r er ek, r < bound ∧ r < k ∧ es[r]? = some er ∧ es[k]? = some ek
      ∧ ¬ retired_at s.entries r ∧ same_content fs er ek
      ∧ (Event.ln r k ∈ s.log
          ∨ ((er.statbuf.st_dev = ek.statbuf.st_dev ∧ er.statbuf.st_ino = ek.statbuf.st_ino)
              ∧ ∀ r1 : Nat, Event.ln r1 k ∉ s.log))

/-- The retired side of every merge verdict is retired. -/
def verdicts_retired (s : State) : Prop :=
  ∀ r k : Nat, Event.ln r k ∈ s.log → retired_at s.entries k

/-- Every active record below `bound` is the only active record of its
content among the records after it. -/
def settled (fs : FS) (es : List entry) (bound : Nat) (s : State) : Prop :=
  ∀ (r k : Nat) (er ek : entry), r < bound → r < k → ¬ retired_at s.entries r →
    es[r]? = some er → es[k]? = some ek → same_content fs er ek → retired_at s.entries k

/-- The invariant of the outer loop of a dry run at position `i`. -/
def outer_inv (fs : FS) (es : List entry) (i : Nat) (s : State) : Prop :=
  table_ok fs es s ∧ justified fs es i s ∧ verdicts_retired s ∧ settled fs es i s

/-- The invariant of the inner loop of a dry run for the active reference `i`
(listing path `p`) at position `j`: as for the outer loop, and every record
between `i` and `j` with the content of `i` is retired. -/
def inner_inv (fs : FS) (es : List entry) (i : Nat) (p : String) (j : Nat) (s : State) : Prop :=
  i < j ∧ table_ok fs es s ∧ (paths s.entries)[i]? = some (some p)
    ∧ justified fs es (i + 1) s ∧ verdicts_retired s ∧ settled fs es i s
    ∧ ∀ (k : Nat) (e0i ek : entry), i < k → k < j → es[i]? = some e0i → es[k]? = some ek →
        same_content fs e0i ek → retired_at s.entries k

/-! ## Three identical files -/

/-- Files `A` (modified at 100), `B` (at 200) and `C` (at 150): same size,
device and content, three inodes; no call is made to fail. -/
def trio_fs : FS where
  resolve := fun p => p
  dirent := fun p =>
    if p = "A" then some (1, 1) else if p = "B" then some (1, 2)
    else if p = "C" then some (1, 3) else none
  inode := fun k =>
    if k = (1, 1) then some ⟨10, 100, 1, 8, 7, 9⟩
    else if k = (1, 2) then some ⟨10, 200, 1, 8, 7, 9⟩
    else if k = (1, 3) then some ⟨10, 150, 1, 8, 7, 9⟩
    else none
  unlink_fails := fun _ => false
  link_fails := fun _ _ => false
  mmap_fails := fun _ => false

/-- The sorted table of `A`, `B`, `C`: oldest first. -/
def trio_table : List entry :=
  [fresh "A" 1 1 10 100 1 8, fresh "C" 1 3 10 150 1 8, fresh "B" 1 2 10 200 1 8]

/-! ## Comparisons that find the partial hashes equal -/

/-- Whether the hash cascade gets past line 546: both first-tier requests
return and `memcmp` of the two partial hashes (line 545) gives 0, so that the
full hashes are asked for next. -/
def partial_hashes_equal (fs : FS) (a b : entry) (c : Stats) : Bool :=
  match small_tier fs a c with
  | .error _ => false
  | .ok (a1, c1) =>
    match small_tier fs b c1 with
    | .error _ => false
    | .ok (b1, _) => decide (memcmp a1.partialhash b1.partialhash = 0)

/-- Whether a call `comparison_equal(a, b)` compares the two partial hashes
and finds them equal: none of the tests of lines 503-531 returns, and the hash
cascade gets past line 546. -/
def partial_hit (cfg : Config) (fs : FS) (a b : entry) (c : Stats) : Bool :=
  if a.statbuf.st_dev = b.statbuf.st_dev ∧ a.statbuf.st_ino = b.statbuf.st_ino then false
  else if b.statbuf.st_size ≠ a.statbuf.st_size then false
  else if b.statbuf.st_dev ≠ a.statbuf.st_dev then false
  else if cfg.Fast_flag = true ∧ a.statbuf.st_size > cfg.Fast_threshold then
    match a.pathname, b.pathname with
    | some pa, some pb =>
      if strcmp (fast_name pa) (fast_name pb) = 0
          ∧ a.statbuf.st_mtime = b.statbuf.st_mtime then false
      else partial_hashes_equal fs a b c
    | _, _ => false
  else partial_hashes_equal fs a b c

/-- Whether the call `comparison_equal(&entries[i], &entries[j])` on the table
compares the two partial hashes and finds them equal. -/
def call_hit (cfg : Config) (fs : FS) (t : List entry × Stats) (i j : Nat) : Bool :=
  match t.1[i]?, t.1[j]? with
  | some a, some b => if i = j then false else partial_hit cfg fs a b t.2
  | _, _ => false

/-- The number of calls of a sequence of oracle calls that compare the two
partial hashes and find them equal. -/
def partial_hits (cfg : Config) (fs : FS) :
    List (Nat × Nat) → List entry × Stats → Int
  | [], _ => 0
  | (i, j) :: rest, t =>
    bit (call_hit cfg fs t i j) +
      match call_equal cfg fs t i j with
      | .ok t1 => partial_hits cfg fs rest t1
      | .error _ => 0

/-- The counter `Full_hashes_computed` after a sequence of oracle calls
(`none` when the sequence aborts). -/
def full_hashes_after (cfg : Config) (fs : FS) (l : List (Nat × Nat))
    (t : List entry × Stats) : Option Int :=
  match run_calls cfg fs l t with
  | .ok t1 => some t1.2.Full_hashes_computed
  | .error _ => none

/-- The number of oracle calls among the decisions of a scan. -/
def oracle_calls (l : List Event) : Nat :=
  (l.filter (fun ev => match ev with
    | Event.oracle _ _ => true
    | _ => false)).length

/-! ## Oracle calls and the window -/

/-- The difference is less than 2^32 in absolute value: unless it is 0, the
`int` it is returned as is not 0. -/
def within_32_bits (d : Int) : Prop := -4294967296 < d ∧ d < 4294967296

instance (d : Int) : Decidable (within_32_bits d) := by
  unfold within_32_bits
  infer_instance

/-- Every oracle call among the decisions of state `s`, on a table that was
`es0` at the start, was made for two records of one window. -/
def oracle_in_window (es0 : List entry) (s : State) : Prop :=
  ∀ i j : Nat, Event.oracle i j ∈ s.log →
    ∃ ei ej, es0[i]? = some ei ∧ es0[j]? = some ej ∧ same_window ei ej

/-! ## One file under two spellings -/

/-- Files `x` (older) and `y`, same size, device and content, different
inodes; the path `./y` leads to the directory entry of `y`.  No call is made
to fail. -/
def alias_fs : FS where
  resolve := fun p => if p = "./y" then "y" else p
  dirent := fun p => if p = "x" then some (1, 1) else if p = "y" then some (1, 2) else none
  inode := fun k =>
    if k = (1, 1) then some ⟨10, 100, 1, 8, 7, 9⟩
    else if k = (1, 2) then some ⟨10, 200, 1, 8, 7, 9⟩
    else none
  unlink_fails := fun _ => false
  link_fails := fun _ _ => false
  mmap_fails := fun _ => false

/-- The sorted table of an input that lists `x`, `y` and `./y`. -/
def alias_listed : List entry :=
  [fresh "x" 1 1 10 100 1 8, fresh "y" 1 2 10 200 1 8, fresh "./y" 1 2 10 200 1 8]

/-! # Theorems -/

/-! ## The comparators on wide keys -/

/-- C4, at a failing input: a file of 2^32 + 1 bytes and a file of 1 byte, both
active.  The documented order puts the larger one strictly first, in both
directions of the size option the documented order is strict, yet
`comparison_sort` returns 0 for the pair: the 64-bit size difference loses its
upper half when it is returned as an `int`. -/
theorem comparison_sort_drops_high_bits :
    comparison_sort default_config huge_file tiny_file = 0
      ∧ documented_order default_config huge_file tiny_file = Ordering.lt
      ∧ sign_of (comparison_sort default_config huge_file tiny_file) ≠
          documented_order default_config huge_file tiny_file := by
  decide

/-- Called on two distinct files on one device whose sizes are 1 and 2^32 + 1,
`comparison_equal` returns 0: the size difference it returns is truncated to
an `int`.  No hash is computed.  No scan makes this call: it calls
`comparison_equal` for records of equal size only. -/
theorem comparison_equal_equates_sizes_apart (cfg : Config) (fs : FS) (c : Stats) :
    tiny_file.statbuf.st_ino ≠ huge_file.statbuf.st_ino
      ∧ tiny_file.statbuf.st_size ≠ huge_file.statbuf.st_size
      ∧ comparison_equal cfg fs tiny_file huge_file c = .ok (0, tiny_file, huge_file, c) := by
  refine ⟨by decide, by decide, ?_⟩
  rfl

/-- C6, at a failing input: `foo` and `d/foo`, same size above the threshold,
same device, same modification time, same basename `foo`, with the fast
comparison switched on.  The code compares `foo` with `/foo` (the slash that
`strrchr` finds is kept), finds them different, and goes on to hash both
files: two first-page hashes are computed and the verdict is "unequal". -/
theorem fast_heuristic_misses_bare_name :
    fast_name "foo" = "foo".data ∧ fast_name "d/foo" = "/foo".data
      ∧ verdict (comparison_equal fast_config foo_fs foo_plain foo_in_dir Stats.zero) = some (-1)
      ∧ (counters (comparison_equal fast_config foo_fs foo_plain foo_in_dir Stats.zero)).map
          (fun c => c.Block_hashes_computed) = some 2 := by
  decide

/-! ## The hash cascade -/

/-- `memcmp` returns 0 exactly on equal digests. -/
theorem memcmp_eq_zero (x y : Nat) : memcmp x y = 0 ↔ x = y := by
  unfold memcmp
  constructor
  · intro h
    split_ifs at h with h1 h2 <;> omega
  · intro h
    subst h
    simp

/-- A first-tier request on a record that has its partial hash is a hit. -/
theorem small_tier_hit (fs : FS) (e : entry) (c : Stats) (h : e.partialhash_present = true) :
    small_tier fs e c = .ok (e, { c with Block_hash_hits := c.Block_hash_hits + 1 }) := by
  simp [small_tier, h]

/-- A first-tier request on a record without any hash computes the partial hash. -/
theorem small_tier_miss (fs : FS) (e : entry) (c : Stats) (p : String) (h : Nat)
    (hpp : e.partialhash_present = false) (hfp : e.filehash_present = false)
    (hp : e.pathname = some p) (hh : sha1_first_page fs p = some h) :
    small_tier fs e c =
      .ok ({ e with partialhash := h, partialhash_present := true },
           { c with Block_hashes_computed := c.Block_hashes_computed + 1 }) := by
  simp [small_tier, get_small_hash, hpp, hfp, hp, hh]

/-- A second-tier request on a record that has its full hash is a hit. -/
theorem big_tier_hit (fs : FS) (e : entry) (c : Stats) (h : e.filehash_present = true) :
    big_tier fs e c = .ok (e, { c with Full_hash_hits := c.Full_hash_hits + 1 }) := by
  simp [big_tier, h]

/-- A second-tier request on a record without full hash computes it. -/
theorem big_tier_miss (fs : FS) (e : entry) (c : Stats) (p : String) (h : Nat)
    (hfp : e.filehash_present = false)
    (hp : e.pathname = some p) (hh : sha1_whole_file fs p = some h) :
    big_tier fs e c =
      .ok ({ e with filehash := h, filehash_present := true }, count_big_hash fs p c) := by
  simp [big_tier, get_big_hash, hfp, hp, hh]

/-- Outcome of the first-tier request on a record whose file can be read. -/
theorem small_tier_ok (fs : FS) (e : entry) (c : Stats) (p : String) (h : Nat)
    (hp : e.pathname = some p) (hh : sha1_first_page fs p = some h)
    (hw : e.filehash_present = true → e.partialhash_present = true) :
    ∃ e1 c1, small_tier fs e c = .ok (e1, c1)
      ∧ e1.pathname = e.pathname ∧ e1.statbuf = e.statbuf
      ∧ e1.filehash = e.filehash ∧ e1.filehash_present = e.filehash_present
      ∧ e1.partialhash_present = true
      ∧ some e1.partialhash = page_digest fs e
      ∧ c1.Full_hashes_computed = c.Full_hashes_computed := by
  cases hpp : e.partialhash_present
  · have hfp : e.filehash_present = false := by
      cases hf : e.filehash_present
      · rfl
      · rw [hw hf] at hpp; exact absurd hpp (by decide)
    refine ⟨_, _, small_tier_miss fs e c p h hpp hfp hp hh, ?_⟩
    simp [page_digest, hpp, hp, hh]
  · refine ⟨_, _, small_tier_hit fs e c hpp, ?_⟩
    simp [page_digest, hpp]

/-- Outcome of the second-tier request on a record whose file can be read. -/
theorem big_tier_ok (fs : FS) (e : entry) (c : Stats) (p : String) (h : Nat)
    (hp : e.pathname = some p) (hh : sha1_whole_file fs p = some h) :
    ∃ e1 c1, big_tier fs e c = .ok (e1, c1)
      ∧ e1.pathname = e.pathname ∧ e1.statbuf = e.statbuf
      ∧ e1.partialhash = e.partialhash ∧ e1.partialhash_present = e.partialhash_present
      ∧ e1.filehash_present = true
      ∧ some e1.filehash = whole_digest fs e := by
  cases hfp : e.filehash_present
  · refine ⟨_, _, big_tier_miss fs e c p h hfp hp hh, ?_⟩
    simp [whole_digest, hfp, hp, hh]
  · refine ⟨_, _, big_tier_hit fs e c hfp, ?_⟩
    simp [whole_digest, hfp]

/-- The whole-file digest of a record depends on its path and full-hash fields only. -/
theorem whole_digest_congr (fs : FS) (e e1 : entry) (h1 : e1.pathname = e.pathname)
    (h2 : e1.filehash = e.filehash) (h3 : e1.filehash_present = e.filehash_present) :
    whole_digest fs e1 = whole_digest fs e := by
  unfold whole_digest
  rw [h1, h2, h3]

/-- The hash cascade on two readable files: it returns, and its verdict compares
the first-page digests and then the whole-file digests. -/
theorem hash_cascade_spec (fs : FS) (a b : entry) (c : Stats) (pa pb : String)
    (ha hb ga gb : Nat)
    (hpa : a.pathname = some pa) (hpb : b.pathname = some pb)
    (hha : sha1_first_page fs pa = some ha) (hhb : sha1_first_page fs pb = some hb)
    (hga : sha1_whole_file fs pa = some ga) (hgb : sha1_whole_file fs pb = some gb)
    (hwa : a.filehash_present = true → a.partialhash_present = true)
    (hwb : b.filehash_present = true → b.partialhash_present = true) :
    ∃ v a1 b1 c1, hash_cascade fs a b c = .ok (v, a1, b1, c1)
      ∧ (v = 0 ↔ page_digest fs a = page_digest fs b ∧ whole_digest fs a = whole_digest fs b)
      ∧ (page_digest fs a ≠ page_digest fs b →
          v ≠ 0 ∧ c1.Full_hashes_computed = c.Full_hashes_computed) := by
  obtain ⟨a1, c1, e1, a1p, -, a1f, a1fp, -, a1d, a1c⟩ := small_tier_ok fs a c pa ha hpa hha hwa
  obtain ⟨b1, c2, e2, b1p, -, b1f, b1fp, -, b1d, b1c⟩ := small_tier_ok fs b c1 pb hb hpb hhb hwb
  obtain ⟨a2, c3, e3, -, -, -, -, -, a2d⟩ := big_tier_ok fs a1 c2 pa ga (a1p.trans hpa) hga
  obtain ⟨b2, c4, e4, -, -, -, -, -, b2d⟩ := big_tier_ok fs b1 c3 pb gb (b1p.trans hpb) hgb
  rw [whole_digest_congr fs a a1 a1p a1f a1fp] at a2d
  rw [whole_digest_congr fs b b1 b1p b1f b1fp] at b2d
  unfold hash_cascade
  rw [e1]; dsimp only
  rw [e2]; dsimp only
  by_cases hm : memcmp a1.partialhash b1.partialhash = 0
  · have hpe : a1.partialhash = b1.partialhash := (memcmp_eq_zero _ _).1 hm
    have hpd : page_digest fs a = page_digest fs b := by rw [← a1d, ← b1d, hpe]
    rw [if_neg (by simpa using hm), e3]; dsimp only
    rw [e4]; dsimp only
    by_cases hm2 : memcmp a2.filehash b2.filehash = 0
    · have hwe : a2.filehash = b2.filehash := (memcmp_eq_zero _ _).1 hm2
      rw [if_neg (by simpa using hm2)]
      refine ⟨_, _, _, _, rfl, ?_, fun h => absurd hpd h⟩
      simp [hpd, ← a2d, ← b2d, hwe]
    · rw [if_pos hm2]
      refine ⟨_, _, _, _, rfl, ?_, fun h => absurd hpd h⟩
      have : a2.filehash ≠ b2.filehash := fun h => hm2 ((memcmp_eq_zero _ _).2 h)
      simp [hm2, ← a2d, ← b2d, this]
  · have hpe : a1.partialhash ≠ b1.partialhash := fun h => hm ((memcmp_eq_zero _ _).2 h)
    have hpd : page_digest fs a ≠ page_digest fs b := by
      rw [← a1d, ← b1d]; simpa using hpe
    rw [if_pos hm]
    refine ⟨_, _, _, _, rfl, ?_, fun _ => ⟨hm, by rw [b1c, a1c]⟩⟩
    simp [hm, hpd]

/-- A full hash computation counts once in `Full_hashes_computed`. -/
theorem count_big_hash_full (fs : FS) (p : String) (c : Stats) :
    (count_big_hash fs p c).Full_hashes_computed = c.Full_hashes_computed + 1 := by
  unfold count_big_hash
  split <;> rfl

/-- A full hash computation leaves `Block_hashes_computed` alone. -/
theorem count_big_hash_block (fs : FS) (p : String) (c : Stats) :
    (count_big_hash fs p c).Block_hashes_computed = c.Block_hashes_computed := by
  unfold count_big_hash
  split <;> rfl

/-- What a completed first-tier request did. -/
theorem small_tier_inv (fs : FS) (e e1 : entry) (c c1 : Stats)
    (h : small_tier fs e c = .ok (e1, c1))
    (hw : e.filehash_present = true → e.partialhash_present = true) :
    e1.pathname = e.pathname ∧ e1.statbuf = e.statbuf
      ∧ e1.filehash = e.filehash ∧ e1.filehash_present = e.filehash_present
      ∧ e1.partialhash_present = true
      ∧ (e.partialhash_present = true → e1.partialhash = e.partialhash)
      ∧ c1.Block_hashes_computed + bit e.partialhash_present = c.Block_hashes_computed + 1
      ∧ c1.Full_hashes_computed = c.Full_hashes_computed := by
  cases hpp : e.partialhash_present
  · have hfp : e.filehash_present = false := by
      cases hf : e.filehash_present
      · rfl
      · rw [hw hf] at hpp; exact absurd hpp (by decide)
    simp only [small_tier, get_small_hash, hpp, hfp, if_true] at h
    split at h
    · exact absurd h (by simp)
    · simp only [Except.ok.injEq, Prod.mk.injEq] at h
      obtain ⟨rfl, rfl⟩ := h
      simp [bit, hfp]
  · rw [small_tier_hit fs e c hpp] at h
    simp only [Except.ok.injEq, Prod.mk.injEq] at h
    obtain ⟨rfl, rfl⟩ := h
    simp [bit, hpp]

/-- What a completed second-tier request did. -/
theorem big_tier_inv (fs : FS) (e e1 : entry) (c c1 : Stats)
    (h : big_tier fs e c = .ok (e1, c1)) :
    e1.pathname = e.pathname ∧ e1.statbuf = e.statbuf
      ∧ e1.partialhash = e.partialhash ∧ e1.partialhash_present = e.partialhash_present
      ∧ e1.filehash_present = true
      ∧ (e.filehash_present = true → e1.filehash = e.filehash)
      ∧ c1.Full_hashes_computed + bit e.filehash_present = c.Full_hashes_computed + 1
      ∧ c1.Block_hashes_computed = c.Block_hashes_computed := by
  cases hfp : e.filehash_present
  · simp only [big_tier, get_big_hash, hfp, if_true] at h
    split at h
    · exact absurd h (by simp)
    · split at h
      · exact absurd h (by simp)
      · simp only [Except.ok.injEq, Prod.mk.injEq] at h
        obtain ⟨rfl, rfl⟩ := h
        simp [bit, count_big_hash_full, count_big_hash_block]
  · rw [big_tier_hit fs e c hfp] at h
    simp only [Except.ok.injEq, Prod.mk.injEq] at h
    obtain ⟨rfl, rfl⟩ := h
    simp [bit, hfp]

/-- A record with ordered tiers is kept by doing nothing. -/
theorem kept_refl (e : entry) (hw : e.filehash_present = true → e.partialhash_present = true) :
    kept e e := ⟨rfl, rfl, hw, fun h => ⟨h, rfl⟩, fun h => ⟨h, rfl⟩⟩

/-- What a completed hash cascade did to the two records and the counters. -/
theorem hash_cascade_inv (fs : FS) (a b a1 b1 : entry) (c c1 : Stats) (v : Int)
    (h : hash_cascade fs a b c = .ok (v, a1, b1, c1))
    (hwa : a.filehash_present = true → a.partialhash_present = true)
    (hwb : b.filehash_present = true → b.partialhash_present = true) :
    kept a a1 ∧ kept b b1
      ∧ c1.Block_hashes_computed + bit a.partialhash_present + bit b.partialhash_present
          = c.Block_hashes_computed + bit a1.partialhash_present + bit b1.partialhash_present
      ∧ c1.Full_hashes_computed + bit a.filehash_present + bit b.filehash_present
          = c.Full_hashes_computed + bit a1.filehash_present + bit b1.filehash_present := by
  unfold hash_cascade at h
  split at h
  · exact absurd h (by simp)
  · rename_i a2 c2 e2
    have ia := small_tier_inv fs a a2 c c2 e2 hwa
    split at h
    · exact absurd h (by simp)
    · rename_i b2 c3 e3
      have ib := small_tier_inv fs b b2 c2 c3 e3 hwb
      dsimp only at h
      split at h
      · simp only [Except.ok.injEq, Prod.mk.injEq] at h
        obtain ⟨-, rfl, rfl, rfl⟩ := h
        obtain ⟨ap, as, af, afp, app, apv, acb, acf⟩ := ia
        obtain ⟨bp, bs, bf, bfp, bpp, bpv, bcb, bcf⟩ := ib
        refine ⟨⟨ap, as, fun _ => app, fun h => ⟨app, apv h⟩, fun h => ⟨afp.trans h, af⟩⟩,
          ⟨bp, bs, fun _ => bpp, fun h => ⟨bpp, bpv h⟩, fun h => ⟨bfp.trans h, bf⟩⟩, ?_, ?_⟩
        · rw [app, bpp]
          have : bit true = 1 := rfl
          omega
        · rw [afp, bfp]; omega
      · split at h
        · exact absurd h (by simp)
        · rename_i a3 c4 e4
          have ja := big_tier_inv fs a2 a3 c3 c4 e4
          split at h
          · exact absurd h (by simp)
          · rename_i b3 c5 e5
            have jb := big_tier_inv fs b2 b3 c4 c5 e5
            obtain ⟨ap, as, af, afp, app, apv, acb, acf⟩ := ia
            obtain ⟨bp, bs, bf, bfp, bpp, bpv, bcb, bcf⟩ := ib
            obtain ⟨ap2, as2, af2, afp2, app2, apv2, acb2, acf2⟩ := ja
            obtain ⟨bp2, bs2, bf2, bfp2, bpp2, bpv2, bcb2, bcf2⟩ := jb
            have key : kept a a3 ∧ kept b b3
                ∧ c5.Block_hashes_computed + bit a.partialhash_present + bit b.partialhash_present
                    = c.Block_hashes_computed + bit a3.partialhash_present
                      + bit b3.partialhash_present
                ∧ c5.Full_hashes_computed + bit a.filehash_present + bit b.filehash_present
                    = c.Full_hashes_computed + bit a3.filehash_present
                      + bit b3.filehash_present := by
              refine ⟨⟨ap2.trans ap, as2.trans as, fun _ => afp2.trans app,
                  fun h => ⟨afp2.trans app, af2.trans (apv h)⟩,
                  fun h => ⟨app2, (apv2 (afp.trans h)).trans af⟩⟩,
                ⟨bp2.trans bp, bs2.trans bs, fun _ => bfp2.trans bpp,
                  fun h => ⟨bfp2.trans bpp, bf2.trans (bpv h)⟩,
                  fun h => ⟨bpp2, (bpv2 (bfp.trans h)).trans bf⟩⟩, ?_, ?_⟩
              · rw [afp2, bfp2, app, bpp]
                have : bit true = 1 := rfl
                omega
              · rw [app2, bpp2]
                rw [afp] at acb2
                rw [bfp] at bcb2
                have : bit true = 1 := rfl
                omega
            split at h
            · simp only [Except.ok.injEq, Prod.mk.injEq] at h
              obtain ⟨-, rfl, rfl, rfl⟩ := h
              exact key
            · simp only [Except.ok.injEq, Prod.mk.injEq] at h
              obtain ⟨-, rfl, rfl, rfl⟩ := h
              exact key

/-- Being kept is transitive. -/
theorem kept_trans (e e1 e2 : entry) (h1 : kept e e1) (h2 : kept e1 e2) : kept e e2 := by
  obtain ⟨p1, s1, w1, a1, b1⟩ := h1
  obtain ⟨p2, s2, w2, a2, b2⟩ := h2
  refine ⟨p2.trans p1, s2.trans s1, w2, fun h => ?_, fun h => ?_⟩
  · exact ⟨(a2 (a1 h).1).1, ((a2 (a1 h).1).2).trans (a1 h).2⟩
  · exact ⟨(b2 (b1 h).1).1, ((b2 (b1 h).1).2).trans (b1 h).2⟩

/-- What a completed oracle call did to the two records and the counters. -/
theorem comparison_equal_inv (cfg : Config) (fs : FS) (a b a1 b1 : entry) (c c1 : Stats)
    (v : Int) (h : comparison_equal cfg fs a b c = .ok (v, a1, b1, c1))
    (hwa : a.filehash_present = true → a.partialhash_present = true)
    (hwb : b.filehash_present = true → b.partialhash_present = true) :
    kept a a1 ∧ kept b b1
      ∧ c1.Block_hashes_computed + bit a.partialhash_present + bit b.partialhash_present
          = c.Block_hashes_computed + bit a1.partialhash_present + bit b1.partialhash_present
      ∧ c1.Full_hashes_computed + bit a.filehash_present + bit b.filehash_present
          = c.Full_hashes_computed + bit a1.filehash_present + bit b1.filehash_present := by
  have same : ∀ w : Int, (Except.ok (w, a, b, c) : Except Abort _) = .ok (v, a1, b1, c1) →
      kept a a1 ∧ kept b b1
      ∧ c1.Block_hashes_computed + bit a.partialhash_present + bit b.partialhash_present
          = c.Block_hashes_computed + bit a1.partialhash_present + bit b1.partialhash_present
      ∧ c1.Full_hashes_computed + bit a.filehash_present + bit b.filehash_present
          = c.Full_hashes_computed + bit a1.filehash_present + bit b1.filehash_present := by
    intro w hw
    simp only [Except.ok.injEq, Prod.mk.injEq] at hw
    obtain ⟨-, rfl, rfl, rfl⟩ := hw
    exact ⟨kept_refl a hwa, kept_refl b hwb, rfl, rfl⟩
  unfold comparison_equal at h
  split at h
  · exact same _ h
  · split at h
    · exact same _ h
    · split at h
      · exact same _ h
      · split at h
        · split at h
          · split at h
            · exact same _ h
            · exact hash_cascade_inv fs a b a1 b1 c c1 v h hwa hwb
          · exact absurd h (by simp)
        · exact hash_cascade_inv fs a b a1 b1 c c1 v h hwa hwb

/-- Replacing the record at position `i` changes a sum over the table by the
difference of the two summands. -/
theorem sum_map_set (f : entry → Int) (es : List entry) (i : Nat) (a a1 : entry)
    (h : es[i]? = some a) :
    ((es.set i a1).map f).sum + f a = (es.map f).sum + f a1 := by
  induction es generalizing i with
  | nil => simp at h
  | cons x xs ih =>
    cases i with
    | zero =>
      simp only [List.getElem?_cons_zero, Option.some.injEq] at h
      subst h
      simp only [List.set_cons_zero, List.map_cons, List.sum_cons]
      omega
    | succ n =>
      simp only [List.getElem?_cons_succ] at h
      have := ih n h
      simp only [List.set_cons_succ, List.map_cons, List.sum_cons]
      omega

/-- A sum of flags over a table is between 0 and the number of records. -/
theorem sum_bits_le (f : entry → Bool) (es : List entry) :
    0 ≤ (es.map (fun e => bit (f e))).sum ∧ (es.map (fun e => bit (f e))).sum ≤ es.length := by
  induction es with
  | nil => simp
  | cons x xs ih =>
    simp only [List.map_cons, List.sum_cons, List.length_cons, Nat.cast_add, Nat.cast_one]
    have : bit (f x) = 0 ∨ bit (f x) = 1 := by
      unfold bit
      split <;> simp
    omega

/-- Reading a table after one record has been replaced. -/
theorem getElem?_set_some (es : List entry) (i k : Nat) (a b : entry) (h : es[i]? = some a) :
    (es.set i b)[k]? = if i = k then some b else es[k]? := by
  rw [List.getElem?_set]
  have hi : i < es.length := by
    rcases List.getElem?_eq_some.1 h with ⟨hi, -⟩
    exact hi
  simp [hi]

/-- What a completed oracle call did to the table and the counters. -/
theorem call_equal_inv (cfg : Config) (fs : FS) (es es1 : List entry) (c c1 : Stats)
    (i j : Nat) (h : call_equal cfg fs (es, c) i j = .ok (es1, c1))
    (hw : tiers_ordered es) :
    table_kept es es1
      ∧ c1.Block_hashes_computed + partial_count es = c.Block_hashes_computed + partial_count es1
      ∧ c1.Full_hashes_computed + full_count es = c.Full_hashes_computed + full_count es1 := by
  have idle : ∀ (k : Nat) (e : entry), es[k]? = some e → ∃ e1, es[k]? = some e1 ∧ kept e e1 := by
    intro k e hk
    exact ⟨e, hk, kept_refl e (hw e (List.getElem?_mem hk))⟩
  unfold call_equal at h
  split at h
  · rename_i a b hi hj
    dsimp only at hi hj
    split at h
    · simp only [Except.ok.injEq, Prod.mk.injEq] at h
      obtain ⟨rfl, rfl⟩ := h
      exact ⟨⟨rfl, idle⟩, rfl, rfl⟩
    · rename_i hne
      split at h
      · rename_i v a1 b1 c2 hce
        simp only [Except.ok.injEq, Prod.mk.injEq] at h
        obtain ⟨rfl, rfl⟩ := h
        dsimp only at hce
        obtain ⟨ka, kb, hb, hf⟩ := comparison_equal_inv cfg fs a b a1 b1 c c2 v hce
          (hw a (List.getElem?_mem hi)) (hw b (List.getElem?_mem hj))
        have hj1 : (es.set i a1)[j]? = some b := by
          rw [getElem?_set_some es i j a a1 hi, if_neg hne]
          exact hj
        refine ⟨⟨by simp, ?_⟩, ?_, ?_⟩
        · intro k e hk
          rw [getElem?_set_some _ j k b b1 hj1, getElem?_set_some es i k a a1 hi]
          by_cases hjk : j = k
          · subst hjk
            rw [if_pos rfl]
            rw [hj] at hk
            simp only [Option.some.injEq] at hk
            subst hk
            exact ⟨b1, rfl, kb⟩
          · rw [if_neg hjk]
            by_cases hik : i = k
            · subst hik
              rw [if_pos rfl]
              rw [hi] at hk
              simp only [Option.some.injEq] at hk
              subst hk
              exact ⟨a1, rfl, ka⟩
            · rw [if_neg hik]
              exact idle k e hk
        · have s1 := sum_map_set (fun e => bit e.partialhash_present) es i a a1 hi
          have s2 := sum_map_set (fun e => bit e.partialhash_present) (es.set i a1) j b b1 hj1
          unfold partial_count
          dsimp only at s1 s2
          omega
        · have s1 := sum_map_set (fun e => bit e.filehash_present) es i a a1 hi
          have s2 := sum_map_set (fun e => bit e.filehash_present) (es.set i a1) j b b1 hj1
          unfold full_count
          dsimp only at s1 s2
          omega
      · exact absurd h (by simp)
  · simp only [Except.ok.injEq, Prod.mk.injEq] at h
    obtain ⟨rfl, rfl⟩ := h
    exact ⟨⟨rfl, idle⟩, rfl, rfl⟩

/-- A kept table has ordered tiers. -/
theorem table_kept_ordered (es es1 : List entry) (h : table_kept es es1) : tiers_ordered es1 := by
  intro e1 he1
  obtain ⟨k, hk, hk1⟩ := List.getElem_of_mem he1
  have hk0 : k < es.length := h.1 ▸ hk
  obtain ⟨e2, h2, kk⟩ := h.2 k es[k] (List.getElem?_eq_getElem hk0)
  rw [List.getElem?_eq_getElem hk] at h2
  simp only [Option.some.injEq] at h2
  rw [← hk1, h2]
  exact kk.2.2.1

/-- Kept tables compose. -/
theorem table_kept_trans (es es1 es2 : List entry) (h1 : table_kept es es1)
    (h2 : table_kept es1 es2) : table_kept es es2 := by
  refine ⟨h2.1.trans h1.1, fun k e hk => ?_⟩
  obtain ⟨e1, hk1, k1⟩ := h1.2 k e hk
  obtain ⟨e2, hk2, k2⟩ := h2.2 k e1 hk1
  exact ⟨e2, hk2, kept_trans e e1 e2 k1 k2⟩

/-- What a completed sequence of oracle calls did to the table and the counters. -/
theorem run_calls_inv (cfg : Config) (fs : FS) (l : List (Nat × Nat)) (es es1 : List entry)
    (c c1 : Stats) (h : run_calls cfg fs l (es, c) = .ok (es1, c1)) (hw : tiers_ordered es) :
    table_kept es es1
      ∧ c1.Block_hashes_computed + partial_count es = c.Block_hashes_computed + partial_count es1
      ∧ c1.Full_hashes_computed + full_count es = c.Full_hashes_computed + full_count es1 := by
  induction l generalizing es c with
  | nil =>
    simp only [run_calls, Except.ok.injEq, Prod.mk.injEq] at h
    obtain ⟨rfl, rfl⟩ := h
    exact ⟨⟨rfl, fun k e hk => ⟨e, hk, kept_refl e (hw e (List.getElem?_mem hk))⟩⟩, rfl, rfl⟩
  | cons ij rest ih =>
    obtain ⟨i, j⟩ := ij
    simp only [run_calls] at h
    split at h
    · rename_i t1 ht
      obtain ⟨es2, c2⟩ := t1
      obtain ⟨k1, b1, f1⟩ := call_equal_inv cfg fs es es2 c c2 i j ht hw
      obtain ⟨k2, b2, f2⟩ := ih es2 c2 h (table_kept_ordered es es2 k1)
      exact ⟨table_kept_trans es es2 es1 k1 k2, by omega, by omega⟩
    · exact absurd h (by simp)

/-- A table without any hash has both counts 0 and ordered tiers. -/
theorem fresh_counts (es : List entry)
    (fresh : ∀ e ∈ es, e.partialhash_present = false ∧ e.filehash_present = false) :
    partial_count es = 0 ∧ full_count es = 0 ∧ tiers_ordered es := by
  refine ⟨?_, ?_, ?_⟩
  · unfold partial_count
    induction es with
    | nil => rfl
    | cons x xs ih =>
      have hx := (fresh x (List.mem_cons_self x xs)).1
      have := ih (fun e he => fresh e (List.mem_cons_of_mem x he))
      simp only [List.map_cons, List.sum_cons, hx, bit]
      simpa using this
  · unfold full_count
    induction es with
    | nil => rfl
    | cons x xs ih =>
      have hx := (fresh x (List.mem_cons_self x xs)).2
      have := ih (fun e he => fresh e (List.mem_cons_of_mem x he))
      simp only [List.map_cons, List.sum_cons, hx, bit]
      simpa using this
  · intro e he h
    rw [(fresh e he).2] at h
    exact absurd h (by decide)

/-- C8: let any sequence of oracle calls `l1` run to completion from a table
`es` in which no record holds a hash, giving table `es1` and counters `c1`, and
let any further sequence `l2` run to completion from there, giving `es2`.
Then `Block_hashes_computed` has risen by exactly the number of records that
now hold a partial hash, and `Full_hashes_computed` by the number that hold a
full hash (at most one computation per record and tier, so at most the number
of records); no record holds a full hash without a partial hash; and for every
record that holds a tier in `es1`, a request for that tier returns the record
unchanged with only the hit counter incremented by one, and the record still
holds the same digest in `es2`. -/
theorem memoization (cfg : Config) (fs : FS) (es es1 es2 : List entry) (c c1 c2 : Stats)
    (l1 l2 : List (Nat × Nat))
    (fresh : ∀ e ∈ es, e.partialhash_present = false ∧ e.filehash_present = false)
    (h1 : run_calls cfg fs l1 (es, c) = .ok (es1, c1))
    (h2 : run_calls cfg fs l2 (es1, c1) = .ok (es2, c2)) :
    c1.Block_hashes_computed = c.Block_hashes_computed + partial_count es1
      ∧ c1.Full_hashes_computed = c.Full_hashes_computed + full_count es1
      ∧ partial_count es1 ≤ es.length ∧ full_count es1 ≤ es.length
      ∧ tiers_ordered es1
      ∧ (∀ (k : Nat) (e1 : entry), es1[k]? = some e1 → e1.partialhash_present = true →
          (∀ st : Stats, small_tier fs e1 st =
              .ok (e1, { st with Block_hash_hits := st.Block_hash_hits + 1 }))
          ∧ ∃ e2, es2[k]? = some e2 ∧ e2.partialhash_present = true
              ∧ e2.partialhash = e1.partialhash)
      ∧ (∀ (k : Nat) (e1 : entry), es1[k]? = some e1 → e1.filehash_present = true →
          (∀ st : Stats, big_tier fs e1 st =
              .ok (e1, { st with Full_hash_hits := st.Full_hash_hits + 1 }))
          ∧ ∃ e2, es2[k]? = some e2 ∧ e2.filehash_present = true
              ∧ e2.filehash = e1.filehash) := by
  obtain ⟨p0, f0, w0⟩ := fresh_counts es fresh
  obtain ⟨k1, b1, g1⟩ := run_calls_inv cfg fs l1 es es1 c c1 h1 w0
  have w1 := table_kept_ordered es es1 k1
  obtain ⟨k2, -, -⟩ := run_calls_inv cfg fs l2 es1 es2 c1 c2 h2 w1
  have lp := (sum_bits_le (fun e => e.partialhash_present) es1).2
  have lf := (sum_bits_le (fun e => e.filehash_present) es1).2
  rw [k1.1] at lp lf
  refine ⟨by omega, by omega, lp, lf, w1, ?_, ?_⟩
  · intro k e1 hk hp
    refine ⟨fun st => small_tier_hit fs e1 st hp, ?_⟩
    obtain ⟨e2, hk2, kk⟩ := k2.2 k e1 hk
    exact ⟨e2, hk2, (kk.2.2.2.1 hp).1, (kk.2.2.2.1 hp).2⟩
  · intro k e1 hk hp
    refine ⟨fun st => big_tier_hit fs e1 st hp, ?_⟩
    obtain ⟨e2, hk2, kk⟩ := k2.2 k e1 hk
    exact ⟨e2, hk2, (kk.2.2.2.2 hp).1, (kk.2.2.2.2 hp).2⟩

/-- C8 on the table of `foo` and `d/foo`: one oracle call, then the same call
again. -/
theorem memoization_witness :
    (⟨0, 0, 2, 0, 0, 0, 0, 0, 0⟩ : Stats).Block_hashes_computed
        = Stats.zero.Block_hashes_computed + partial_count foo_table_hashed
      ∧ (⟨0, 0, 2, 0, 0, 0, 0, 0, 0⟩ : Stats).Full_hashes_computed
        = Stats.zero.Full_hashes_computed + full_count foo_table_hashed
      ∧ partial_count foo_table_hashed ≤ [foo_plain, foo_in_dir].length
      ∧ full_count foo_table_hashed ≤ [foo_plain, foo_in_dir].length
      ∧ tiers_ordered foo_table_hashed
      ∧ (∀ (k : Nat) (e1 : entry), foo_table_hashed[k]? = some e1 →
          e1.partialhash_present = true →
          (∀ st : Stats, small_tier foo_fs e1 st =
              .ok (e1, { st with Block_hash_hits := st.Block_hash_hits + 1 }))
          ∧ ∃ e2, foo_table_hashed[k]? = some e2 ∧ e2.partialhash_present = true
              ∧ e2.partialhash = e1.partialhash)
      ∧ (∀ (k : Nat) (e1 : entry), foo_table_hashed[k]? = some e1 →
          e1.filehash_present = true →
          (∀ st : Stats, big_tier foo_fs e1 st =
              .ok (e1, { st with Full_hash_hits := st.Full_hash_hits + 1 }))
          ∧ ∃ e2, foo_table_hashed[k]? = some e2 ∧ e2.filehash_present = true
              ∧ e2.filehash = e1.filehash) :=
  memoization default_config foo_fs [foo_plain, foo_in_dir] foo_table_hashed foo_table_hashed
    Stats.zero ⟨0, 0, 2, 0, 0, 0, 0, 0, 0⟩ ⟨0, 0, 2, 0, 2, 0, 0, 0, 0⟩ [(0, 1)] [(0, 1)]
    (by decide) rfl rfl

/-! ## The frame of the oracle -/

/-- A first-tier request changes only the partial hash fields and hash counters. -/
theorem small_tier_frame (fs : FS) (e e1 : entry) (c c1 : Stats)
    (h : small_tier fs e c = .ok (e1, c1)) : framed e e1 c c1 := by
  cases hpp : e.partialhash_present
  · cases hfp : e.filehash_present
    · simp only [small_tier, get_small_hash, hpp, hfp, if_true] at h
      split at h
      · exact absurd h (by simp)
      · simp only [Except.ok.injEq, Prod.mk.injEq] at h
        obtain ⟨rfl, rfl⟩ := h
        exact ⟨rfl, rfl, rfl, rfl, rfl⟩
    · simp [small_tier, get_small_hash, hpp, hfp] at h
      obtain ⟨rfl, rfl⟩ := h
      exact ⟨rfl, rfl, rfl, rfl, rfl⟩
  · rw [small_tier_hit fs e c hpp] at h
    simp only [Except.ok.injEq, Prod.mk.injEq] at h
    obtain ⟨rfl, rfl⟩ := h
    exact ⟨rfl, rfl, rfl, rfl, rfl⟩

/-- A second-tier request changes only the full hash fields and hash counters. -/
theorem big_tier_frame (fs : FS) (e e1 : entry) (c c1 : Stats)
    (h : big_tier fs e c = .ok (e1, c1)) : framed e e1 c c1 := by
  cases hfp : e.filehash_present
  · simp only [big_tier, get_big_hash, hfp, if_true] at h
    split at h
    · exact absurd h (by simp)
    · split at h
      · exact absurd h (by simp)
      · simp only [Except.ok.injEq, Prod.mk.injEq] at h
        obtain ⟨rfl, rfl⟩ := h
        refine ⟨rfl, rfl, ?_, ?_, ?_⟩ <;> (unfold count_big_hash; split <;> rfl)
  · rw [big_tier_hit fs e c hfp] at h
    simp only [Except.ok.injEq, Prod.mk.injEq] at h
    obtain ⟨rfl, rfl⟩ := h
    exact ⟨rfl, rfl, rfl, rfl, rfl⟩

/-- The hash cascade leaves paths, `lstat` data and merge counters alone. -/
theorem hash_cascade_frame (fs : FS) (a b a1 b1 : entry) (c c1 : Stats) (v : Int)
    (h : hash_cascade fs a b c = .ok (v, a1, b1, c1)) :
    framed a a1 c c1 ∧ framed b b1 c c1 := by
  unfold hash_cascade at h
  split at h
  · exact absurd h (by simp)
  · rename_i a2 c2 e2
    have fa := small_tier_frame fs a a2 c c2 e2
    split at h
    · exact absurd h (by simp)
    · rename_i b2 c3 e3
      have fb := small_tier_frame fs b b2 c2 c3 e3
      have fa3 : framed a a2 c c3 :=
        ⟨fa.1, fa.2.1, fb.2.2.1.trans fa.2.2.1, fb.2.2.2.1.trans fa.2.2.2.1,
          fb.2.2.2.2.trans fa.2.2.2.2⟩
      have fb3 : framed b b2 c c3 :=
        ⟨fb.1, fb.2.1, fa3.2.2.1, fa3.2.2.2.1, fa3.2.2.2.2⟩
      dsimp only at h
      split at h
      · simp only [Except.ok.injEq, Prod.mk.injEq] at h
        obtain ⟨-, rfl, rfl, rfl⟩ := h
        exact ⟨fa3, fb3⟩
      · split at h
        · exact absurd h (by simp)
        · rename_i a3 c4 e4
          have ga := big_tier_frame fs a2 a3 c3 c4 e4
          split at h
          · exact absurd h (by simp)
          · rename_i b3 c5 e5
            have gb := big_tier_frame fs b2 b3 c4 c5 e5
            have key : framed a a3 c c5 ∧ framed b b3 c c5 := by
              obtain ⟨a1, a2, a3, a4, a5⟩ := fa3
              obtain ⟨b1, b2, b3, b4, b5⟩ := fb3
              obtain ⟨x1, x2, x3, x4, x5⟩ := ga
              obtain ⟨y1, y2, y3, y4, y5⟩ := gb
              exact ⟨⟨x1.trans a1, x2.trans a2, by omega, by omega, by omega⟩,
                ⟨y1.trans b1, y2.trans b2, by omega, by omega, by omega⟩⟩
            split at h
            · simp only [Except.ok.injEq, Prod.mk.injEq] at h
              obtain ⟨-, rfl, rfl, rfl⟩ := h
              exact key
            · simp only [Except.ok.injEq, Prod.mk.injEq] at h
              obtain ⟨-, rfl, rfl, rfl⟩ := h
              exact key

/-- The oracle leaves paths, `lstat` data and merge counters alone. -/
theorem comparison_equal_frame (cfg : Config) (fs : FS) (a b a1 b1 : entry) (c c1 : Stats)
    (v : Int) (h : comparison_equal cfg fs a b c = .ok (v, a1, b1, c1)) :
    framed a a1 c c1 ∧ framed b b1 c c1 := by
  have same : ∀ w : Int, (Except.ok (w, a, b, c) : Except Abort _) = .ok (v, a1, b1, c1) →
      framed a a1 c c1 ∧ framed b b1 c c1 := by
    intro w hw
    simp only [Except.ok.injEq, Prod.mk.injEq] at hw
    obtain ⟨-, rfl, rfl, rfl⟩ := hw
    exact ⟨⟨rfl, rfl, rfl, rfl, rfl⟩, ⟨rfl, rfl, rfl, rfl, rfl⟩⟩
  unfold comparison_equal at h
  split at h
  · exact same _ h
  · split at h
    · exact same _ h
    · split at h
      · exact same _ h
      · split at h
        · split at h
          · split at h
            · exact same _ h
            · exact hash_cascade_frame fs a b a1 b1 c c1 v h
          · exact absurd h (by simp)
        · exact hash_cascade_frame fs a b a1 b1 c c1 v h

/-! ## A failed unlink -/

/-- C9: in a run without `-n`, let the scan be at the pair `(i, j)` of two
active records inside one window that are not already linked, let the oracle
judge them equal, let the last-minute checks pass, and let `unlink` of `j`'s
path fail.  Then the loop body completes (no abort); the filesystem is exactly
as before (no link, no other change); `Unlink_failures` and `Unlinks` have
each risen by one; `j` is retired; no record other than `i` and `j` changed;
and the inner loop goes on with position `j + 1`. -/
theorem unlink_failure_reported (cfg : Config) (i j fuel : Nat) (s : State)
    (ei ej ei1 ej1 : entry) (c1 : Stats) (pi pj : String) (sa sb : stat)
    (hNo : cfg.No_do = false)
    (hi : s.entries[i]? = some ei) (hj : s.entries[j]? = some ej) (hij : i ≠ j)
    (hwin : ei.statbuf.st_size = ej.statbuf.st_size
      ∧ ei.statbuf.st_dev = ej.statbuf.st_dev)
    (hpi : ei.pathname = some pi) (hpj : ej.pathname = some pj)
    (hdiff : ¬ (ei.statbuf.st_dev = ej.statbuf.st_dev
      ∧ ei.statbuf.st_ino = ej.statbuf.st_ino))
    (horacle : comparison_equal cfg s.fs ei ej s.stats = .ok (0, ei1, ej1, c1))
    (hsa : lstat s.fs pi = some sa) (hsb : lstat s.fs pj = some sb)
    (hsize : sa.st_size = sb.st_size) (hino : sa.st_ino ≠ sb.st_ino)
    (hdev : sa.st_dev = sb.st_dev) (hmt : sa.st_mtime ≤ sb.st_mtime)
    (hfail : unlink s.fs pj = none) :
    ∃ s1, inner_body cfg i j ei ej s = .done s1
      ∧ s1.fs = s.fs
      ∧ s1.stats.Unlink_failures = s.stats.Unlink_failures + 1
      ∧ s1.stats.Unlinks = s.stats.Unlinks + 1
      ∧ s1.entries[j]? = some { ej1 with pathname := none }
      ∧ (∀ k : Nat, k ≠ i → k ≠ j → s1.entries[k]? = s.entries[k]?)
      ∧ inner_loop cfg i (fuel + 1) j s = inner_loop cfg i fuel (j + 1) s1 := by
  obtain ⟨⟨fp, -, fu, ff, -⟩, ⟨gp, -, -, -, -⟩⟩ :=
    comparison_equal_frame cfg s.fs ei ej ei1 ej1 s.stats c1 0 horacle
  have hj1 : (s.entries.set i ei1)[j]? = some ej := by
    rw [getElem?_set_some s.entries i j ei ei1 hi, if_neg hij]; exact hj
  have hj2 : ((s.entries.set i ei1).set j ej1)[j]? = some ej1 := by
    rw [getElem?_set_some _ j j ej ej1 hj1, if_pos rfl]
  have hchk : last_minute_checks s.fs ei1 ej1 = none := by
    simp [last_minute_checks, fp, gp, hpi, hpj, hsa, hsb, hsize, hino, hdev, hmt]
  have body : inner_body cfg i j ei ej s =
      .done { entries := retire ((s.entries.set i ei1).set j ej1) j,
              fs := s.fs,
              stats := { credit_blocks ej1 c1 with
                Unlink_failures := (credit_blocks ej1 c1).Unlink_failures + 1,
                Unlinks := (credit_blocks ej1 c1).Unlinks + 1 },
              log := s.log ++ [Event.oracle i j] ++ [Event.ln i j] } := by
    unfold inner_body
    rw [if_neg (by simp [hpj]), if_neg hdiff, horacle]
    dsimp only
    rw [if_pos rfl]
    unfold merge
    dsimp only
    rw [hchk]
    dsimp only
    rw [if_pos hNo, gp, hpj]
    have hu : unlink_path s.fs (some pj) = none := hfail
    rw [hu]
    rfl
  refine ⟨_, body, rfl, ?_, ?_, ?_, ?_, ?_⟩
  · show (credit_blocks ej1 c1).Unlink_failures + 1 = s.stats.Unlink_failures + 1
    rw [← ff]
    unfold credit_blocks
    split <;> rfl
  · show (credit_blocks ej1 c1).Unlinks + 1 = s.stats.Unlinks + 1
    rw [← fu]
    unfold credit_blocks
    split <;> rfl
  · show (retire ((s.entries.set i ei1).set j ej1) j)[j]? = _
    unfold retire
    rw [hj2]
    dsimp only
    rw [getElem?_set_some _ j j ej1 _ hj2, if_pos rfl]
  · intro k hki hkj
    show (retire ((s.entries.set i ei1).set j ej1) j)[k]? = _
    unfold retire
    rw [hj2]
    dsimp only
    rw [getElem?_set_some _ j k ej1 _ hj2, if_neg (Ne.symm hkj),
      getElem?_set_some _ j k ej ej1 hj1, if_neg (Ne.symm hkj),
      getElem?_set_some _ i k ei ei1 hi, if_neg (Ne.symm hki)]
  · show inner_loop cfg i (fuel + 1) j s = _
    rw [inner_loop, hi, hj]
    dsimp only
    rw [if_pos hwin, body]

/-- C9 on `a` and `b` with `unlink("b")` failing, at the start of the scan. -/
theorem unlink_failure_reported_witness :
    ∃ s1, inner_body default_config 0 1 locked_a locked_b (start [locked_a, locked_b] locked_fs)
          = .done s1
      ∧ s1.fs = (start [locked_a, locked_b] locked_fs).fs
      ∧ s1.stats.Unlink_failures
          = (start [locked_a, locked_b] locked_fs).stats.Unlink_failures + 1
      ∧ s1.stats.Unlinks = (start [locked_a, locked_b] locked_fs).stats.Unlinks + 1
      ∧ s1.entries[1]? = some { hashed locked_b 7 9 with pathname := none }
      ∧ (∀ k : Nat, k ≠ 0 → k ≠ 1 →
          s1.entries[k]? = (start [locked_a, locked_b] locked_fs).entries[k]?)
      ∧ inner_loop default_config 0 (0 + 1) 1 (start [locked_a, locked_b] locked_fs)
          = inner_loop default_config 0 0 (1 + 1) s1 :=
  unlink_failure_reported default_config 0 1 0 (start [locked_a, locked_b] locked_fs)
    locked_a locked_b (hashed locked_a 7 9) (hashed locked_b 7 9)
    ⟨0, 2, 2, 0, 0, 0, 0, 0, 0⟩ "a" "b" ⟨1, 1, 10, 100, 1, 8⟩ ⟨1, 2, 10, 200, 1, 8⟩
    rfl rfl rfl (by decide) (by decide) rfl rfl (by decide) rfl rfl rfl
    (by decide) (by decide) (by decide) (by decide) rfl

/-! ## The path column -/

/-- Writing back a record with the same path leaves the path column alone. -/
theorem paths_set_same (es : List entry) (i : Nat) (a a1 : entry) (h : es[i]? = some a)
    (hp : a1.pathname = a.pathname) : paths (es.set i a1) = paths es := by
  induction es generalizing i with
  | nil => rfl
  | cons x xs ih =>
    cases i with
    | zero =>
      simp only [List.getElem?_cons_zero, Option.some.injEq] at h
      subst h
      simp [paths, hp]
    | succ n =>
      simp only [List.getElem?_cons_succ] at h
      have := ih n h
      simp only [paths, List.set_cons_succ, List.map_cons] at this ⊢
      rw [this]

/-- Retiring a record clears its cell of the path column. -/
theorem paths_retire (es : List entry) (j : Nat) : paths (retire es j) = (paths es).set j none := by
  unfold retire
  split
  · simp [paths, List.map_set]
  · rename_i hn
    rw [List.getElem?_eq_none_iff] at hn
    rw [List.set_eq_of_length_le]
    simpa [paths] using hn

/-- The path column has one cell per record. -/
theorem paths_length (es : List entry) : (paths es).length = es.length := by
  simp [paths]

/-- Reading the path column. -/
theorem paths_getElem? (es : List entry) (k : Nat) (e : entry) (h : es[k]? = some e) :
    (paths es)[k]? = some e.pathname := by
  simp [paths, h]

/-- What the merge step leaves behind: the verdict is logged, and either the
run aborted with the table as it was, or `j` is retired. -/
theorem merge_shape (cfg : Config) (i j : Nat) (ei ej : entry) (s : State) :
    (merge cfg i j ei ej s).state.log = s.log ++ [Event.ln i j]
      ∧ (((merge cfg i j ei ej s).state.entries = s.entries
            ∧ (merge cfg i j ei ej s).abort ≠ none)
          ∨ ((merge cfg i j ei ej s).state.entries = retire s.entries j
            ∧ (merge cfg i j ei ej s).abort = none)) := by
  unfold merge
  dsimp only
  split
  · exact ⟨rfl, Or.inl ⟨rfl, by simp [Outcome.abort]⟩⟩
  · split
    · split
      · exact ⟨rfl, Or.inr ⟨rfl, rfl⟩⟩
      · split
        · exact ⟨rfl, Or.inl ⟨rfl, by simp [Outcome.abort]⟩⟩
        · exact ⟨rfl, Or.inr ⟨rfl, rfl⟩⟩
    · exact ⟨rfl, Or.inr ⟨rfl, rfl⟩⟩

/-- The four ways the loop body can go for an active reference `i` and a
candidate `j`, read off the decisions it logs and what it does to the path
column. -/
theorem inner_body_shape (cfg : Config) (i j : Nat) (ei ej : entry) (s : State)
    (hi : s.entries[i]? = some ei) (hj : s.entries[j]? = some ej) (hij : i ≠ j) :
    ((inner_body cfg i j ei ej s).state.log = s.log
        ∧ paths (inner_body cfg i j ei ej s).state.entries = paths s.entries
        ∧ (inner_body cfg i j ei ej s).abort = none)
    ∨ (ej.pathname ≠ none
        ∧ (inner_body cfg i j ei ej s).state.log = s.log ++ [Event.existing i j]
        ∧ paths (inner_body cfg i j ei ej s).state.entries = (paths s.entries).set j none
        ∧ (inner_body cfg i j ei ej s).abort = none)
    ∨ (ej.pathname ≠ none
        ∧ (inner_body cfg i j ei ej s).state.log = s.log ++ [Event.oracle i j]
        ∧ paths (inner_body cfg i j ei ej s).state.entries = paths s.entries)
    ∨ (ej.pathname ≠ none
        ∧ (inner_body cfg i j ei ej s).state.log = s.log ++ [Event.oracle i j, Event.ln i j]
        ∧ ((paths (inner_body cfg i j ei ej s).state.entries = paths s.entries
              ∧ (inner_body cfg i j ei ej s).abort ≠ none)
          ∨ (paths (inner_body cfg i j ei ej s).state.entries = (paths s.entries).set j none
              ∧ (inner_body cfg i j ei ej s).abort = none))) := by
  unfold inner_body
  split
  · exact Or.inl ⟨rfl, rfl, rfl⟩
  · rename_i hact
    split
    · exact Or.inr (Or.inl ⟨hact, rfl, paths_retire s.entries j, rfl⟩)
    · split
      · exact Or.inr (Or.inr (Or.inl ⟨hact, rfl, rfl⟩))
      · rename_i v ei1 ej1 c1 hce
        obtain ⟨⟨fp, -⟩, ⟨gp, -⟩⟩ := comparison_equal_frame cfg s.fs ei ej ei1 ej1 s.stats c1 v hce
        have hj1 : (s.entries.set i ei1)[j]? = some ej := by
          rw [getElem?_set_some s.entries i j ei ei1 hi, if_neg hij]; exact hj
        have hp : paths ((s.entries.set i ei1).set j ej1) = paths s.entries := by
          rw [paths_set_same _ j ej ej1 hj1 gp, paths_set_same _ i ei ei1 hi fp]
        dsimp only
        split
        · obtain ⟨hl, hs⟩ := merge_shape cfg i j ei1 ej1
            { s with entries := (s.entries.set i ei1).set j ej1, stats := c1,
                     log := s.log ++ [Event.oracle i j] }
          refine Or.inr (Or.inr (Or.inr ⟨hact, ?_, ?_⟩))
          · rw [hl]; simp
          · rcases hs with ⟨he, ha⟩ | ⟨he, ha⟩
            · exact Or.inl ⟨by rw [he]; exact hp, ha⟩
            · exact Or.inr ⟨by rw [he, paths_retire]; exact congrArg (fun l => l.set j none) hp, ha⟩
        · exact Or.inr (Or.inr (Or.inl ⟨hact, rfl, hp⟩))

/-! ## Retirement is terminal -/

/-- Fewer retired records beforehand, same conclusion. -/
theorem log_respects_mono (R R1 : Nat → Prop) (l : List Event) (h : ∀ k, R1 k → R k)
    (hl : log_respects R l) : log_respects R1 l := by
  induction l generalizing R R1 with
  | nil => trivial
  | cons ev l ih =>
    obtain ⟨h1, h2⟩ := hl
    refine ⟨fun k hk => h1 k (h k hk), ih _ _ (fun k hk => ?_) h2⟩
    rcases hk with hk | hk
    · exact Or.inl (h k hk)
    · exact Or.inr hk

/-- Decisions taken one stretch after the other. -/
theorem log_respects_append (R : Nat → Prop) (l1 l2 : List Event) (h1 : log_respects R l1)
    (h2 : log_respects (fun k => R k ∨ ∃ ev ∈ l1, ev.retires = some k) l2) :
    log_respects R (l1 ++ l2) := by
  induction l1 generalizing R with
  | nil =>
    exact log_respects_mono _ _ l2 (fun k hk => Or.inl hk) h2
  | cons ev l ih =>
    obtain ⟨a1, a2⟩ := h1
    refine ⟨a1, ih _ a2 (log_respects_mono _ _ l2 (fun k hk => ?_) h2)⟩
    rcases hk with (hk | hk) | ⟨ev1, hev1, hk⟩
    · exact Or.inl hk
    · exact Or.inr ⟨ev, List.mem_cons_self ev l, hk⟩
    · exact Or.inr ⟨ev1, List.mem_cons_of_mem ev hev1, hk⟩

/-- Two stretches of a run, one after the other. -/
theorem terminal_step_trans (es es1 es2 : List entry) (l1 l2 : List Event) (ab : Option Abort)
    (h1 : terminal_step es es1 l1 none) (h2 : terminal_step es1 es2 l2 ab) :
    terminal_step es es2 (l1 ++ l2) ab := by
  obtain ⟨a1, a2, a3, a4⟩ := h1
  obtain ⟨b1, b2, b3, b4⟩ := h2
  refine ⟨log_respects_append _ l1 l2 a1 (log_respects_mono _ _ l2 (fun k hk => ?_) b1),
    fun k hk => b2 k (a2 k hk), fun hab ev hev k hk => ?_, b4.trans a4⟩
  · rcases hk with hk | ⟨ev, hev, hk⟩
    · exact a2 k hk
    · exact a3 rfl ev hev k hk
  · rcases List.mem_append.1 hev with hev | hev
    · exact b2 k (a3 rfl ev hev k hk)
    · exact b3 hab ev hev k hk

/-- A stretch without decisions and without change to the path column. -/
theorem terminal_step_idle (es es1 : List entry) (ab : Option Abort)
    (h : paths es1 = paths es) : terminal_step es es1 [] ab := by
  refine ⟨trivial, fun k hk => ?_, fun _ ev hev => absurd hev (List.not_mem_nil ev), ?_⟩
  · unfold retired_at at hk ⊢
    rw [h]; exact hk
  · rw [← paths_length es1, h, paths_length]

/-- Clearing cell `j` keeps every cleared cell cleared. -/
theorem retired_set_none (ps : List (Option String)) (j k : Nat) (h : ps[k]? = some none) :
    (ps.set j none)[k]? = some none := by
  rw [List.getElem?_set]
  by_cases hjk : j = k
  · subst hjk
    have : j < ps.length := by
      rcases List.getElem?_eq_some.1 h with ⟨hlt, -⟩
      exact hlt
    simp [this]
  · simp [hjk, h]

/-- The loop body for an active reference `i` and a candidate `j` other than
`i` respects retirement and leaves `i` active. -/
theorem inner_body_terminal (cfg : Config) (i j : Nat) (ei ej : entry) (s : State)
    (hi : s.entries[i]? = some ei) (hj : s.entries[j]? = some ej) (hij : i ≠ j)
    (hact : ei.pathname ≠ none) :
    ∃ l, (inner_body cfg i j ei ej s).state.log = s.log ++ l
      ∧ terminal_step s.entries (inner_body cfg i j ei ej s).state.entries l
          (inner_body cfg i j ei ej s).abort
      ∧ (paths (inner_body cfg i j ei ej s).state.entries)[i]? = (paths s.entries)[i]? := by
  have hRi : ¬ retired_at s.entries i := by
    unfold retired_at
    rw [paths_getElem? s.entries i ei hi]
    simpa using hact
  have hjlt : j < (paths s.entries).length := by
    rw [paths_length]
    rcases List.getElem?_eq_some.1 hj with ⟨hlt, -⟩
    exact hlt
  have hset : ((paths s.entries).set j none)[i]? = (paths s.entries)[i]? := by
    rw [List.getElem?_set_ne (Ne.symm hij)]
  have hsetj : ((paths s.entries).set j none)[j]? = some none := by
    rw [List.getElem?_set_self hjlt]
  have hlen : ∀ es1 : List entry, paths es1 = (paths s.entries).set j none →
      es1.length = s.entries.length := by
    intro es1 h
    rw [← paths_length es1, h, List.length_set, paths_length]
  have hlen0 : ∀ es1 : List entry, paths es1 = paths s.entries →
      es1.length = s.entries.length := by
    intro es1 h
    rw [← paths_length es1, h, paths_length]
  have hfree : ej.pathname ≠ none → ∀ k, retired_at s.entries k → ¬ (k = i ∨ k = j) := by
    intro hej k hk hkk
    rcases hkk with rfl | rfl
    · exact hRi hk
    · unfold retired_at at hk
      rw [paths_getElem? s.entries k ej hj] at hk
      simp only [Option.some.injEq] at hk
      exact hej hk
  rcases inner_body_shape cfg i j ei ej s hi hj hij with
    ⟨hl, hp, ha⟩ | ⟨hej, hl, hp, ha⟩ | ⟨hej, hl, hp⟩ | ⟨hej, hl, hp⟩
  · exact ⟨[], by simpa using hl, terminal_step_idle _ _ _ hp, by rw [hp]⟩
  · refine ⟨[Event.existing i j], hl, ⟨⟨hfree hej, trivial⟩, fun k hk => ?_, fun _ ev hev k hk => ?_,
      hlen _ hp⟩, by rw [hp, hset]⟩
    · unfold retired_at at hk ⊢
      rw [hp]; exact retired_set_none _ j k hk
    · simp only [List.mem_singleton] at hev
      subst hev
      simp only [Event.retires, Option.some.injEq] at hk
      subst hk
      unfold retired_at
      rw [hp]; exact hsetj
  · refine ⟨[Event.oracle i j], hl, ⟨⟨hfree hej, trivial⟩, fun k hk => ?_, fun _ ev hev k hk => ?_,
      hlen0 _ hp⟩, by rw [hp]⟩
    · unfold retired_at at hk ⊢
      rw [hp]; exact hk
    · simp only [List.mem_singleton] at hev
      subst hev
      simp [Event.retires] at hk
  · refine ⟨[Event.oracle i j, Event.ln i j], hl, ?_, ?_⟩
    · have hlr : log_respects (retired_at s.entries) [Event.oracle i j, Event.ln i j] := by
        refine ⟨hfree hej, fun k hk => ?_, trivial⟩
        rcases hk with hk | hk
        · exact hfree hej k hk
        · simp [Event.retires] at hk
      rcases hp with ⟨hp, ha⟩ | ⟨hp, ha⟩
      · refine ⟨hlr, fun k hk => ?_, fun hab => absurd hab ha, hlen0 _ hp⟩
        unfold retired_at at hk ⊢
        rw [hp]; exact hk
      · refine ⟨hlr, fun k hk => ?_, fun _ ev hev k hk => ?_, hlen _ hp⟩
        · unfold retired_at at hk ⊢
          rw [hp]; exact retired_set_none _ j k hk
        · simp only [List.mem_cons, List.mem_singleton, List.not_mem_nil, or_false] at hev
          rcases hev with rfl | rfl
          · simp [Event.retires] at hk
          · simp only [Event.retires, Option.some.injEq] at hk
            subst hk
            unfold retired_at
            rw [hp]; exact hsetj
    · rcases hp with ⟨hp, -⟩ | ⟨hp, -⟩
      · rw [hp]
      · rw [hp, hset]

/-- An outcome is its state and its way of ending. -/
theorem outcome_cases (o : Outcome) :
    (o = .done o.state ∧ o.abort = none) ∨ ∃ w, o = .aborted w o.state ∧ o.abort = some w := by
  cases o with
  | done s => exact Or.inl ⟨rfl, rfl⟩
  | aborted w s => exact Or.inr ⟨w, rfl, rfl⟩

/-- The inner loop for an active reference `i`, from a position beyond `i`,
respects retirement and leaves `i` active. -/
theorem inner_loop_terminal (cfg : Config) (i fuel j : Nat) (s : State) (hij : i < j)
    (p : String) (hact : (paths s.entries)[i]? = some (some p)) :
    ∃ l, (inner_loop cfg i fuel j s).state.log = s.log ++ l
      ∧ terminal_step s.entries (inner_loop cfg i fuel j s).state.entries l
          (inner_loop cfg i fuel j s).abort
      ∧ (paths (inner_loop cfg i fuel j s).state.entries)[i]? = some (some p) := by
  induction fuel generalizing j s with
  | zero =>
    exact ⟨[], by simp [inner_loop, Outcome.state], terminal_step_idle _ _ _ rfl, hact⟩
  | succ fuel ih =>
    have idle : ∃ l, (Outcome.done s).state.log = s.log ++ l
        ∧ terminal_step s.entries (Outcome.done s).state.entries l (Outcome.done s).abort
        ∧ (paths (Outcome.done s).state.entries)[i]? = some (some p) :=
      ⟨[], by simp [Outcome.state], terminal_step_idle _ _ _ rfl, hact⟩
    rw [inner_loop]
    split
    · rename_i ei ej hi hj
      split
      · have hei : ei.pathname ≠ none := by
          rw [paths_getElem? s.entries i ei hi] at hact
          simp only [Option.some.injEq] at hact
          rw [hact]; simp
        obtain ⟨l1, hl1, ht1, hp1⟩ :=
          inner_body_terminal cfg i j ei ej s hi hj (Nat.ne_of_lt hij) hei
        rcases outcome_cases (inner_body cfg i j ei ej s) with ⟨hd, ha⟩ | ⟨w, hd, ha⟩
        · rw [hd]
          dsimp only
          rw [ha] at ht1
          obtain ⟨l2, hl2, ht2, hp2⟩ := ih (j + 1) (inner_body cfg i j ei ej s).state
            (Nat.lt_succ_of_lt hij) (hp1.trans hact)
          refine ⟨l1 ++ l2, ?_, terminal_step_trans _ _ _ l1 l2 _ ht1 ht2, hp2⟩
          rw [hl2, hl1, List.append_assoc]
        · rw [hd]
          dsimp only
          refine ⟨l1, hl1, ?_, hp1.trans hact⟩
          rw [ha] at ht1
          exact ht1
      · exact idle
    · exact idle

/-- The outer loop, from any position and any state, respects retirement. -/
theorem outer_loop_terminal (cfg : Config) (fuel i : Nat) (s : State) :
    ∃ l, (outer_loop cfg fuel i s).state.log = s.log ++ l
      ∧ terminal_step s.entries (outer_loop cfg fuel i s).state.entries l
          (outer_loop cfg fuel i s).abort := by
  induction fuel generalizing i s with
  | zero => exact ⟨[], by simp [outer_loop, Outcome.state], terminal_step_idle _ _ _ rfl⟩
  | succ fuel ih =>
    rw [outer_loop]
    split
    · rename_i ei hi
      split
      · exact ih (i + 1) s
      · rename_i hei
        obtain ⟨p, hp⟩ := Option.ne_none_iff_exists'.1 hei
        have hact : (paths s.entries)[i]? = some (some p) := by
          rw [paths_getElem? s.entries i ei hi, hp]
        obtain ⟨l1, hl1, ht1, -⟩ :=
          inner_loop_terminal cfg i (s.entries.length - (i + 1)) (i + 1) s (Nat.lt_succ_self i)
            p hact
        rcases outcome_cases (inner_loop cfg i (s.entries.length - (i + 1)) (i + 1) s) with
          ⟨hd, ha⟩ | ⟨w, hd, ha⟩
        · rw [hd]
          dsimp only
          rw [ha] at ht1
          obtain ⟨l2, hl2, ht2⟩ :=
            ih (i + 1) (inner_loop cfg i (s.entries.length - (i + 1)) (i + 1) s).state
          refine ⟨l1 ++ l2, ?_, terminal_step_trans _ _ _ l1 l2 _ ht1 ht2⟩
          rw [hl2, hl1, List.append_assoc]
        · rw [hd]
          dsimp only
          refine ⟨l1, hl1, ?_⟩
          rw [ha] at ht1
          exact ht1
    · exact ⟨[], by simp [Outcome.state], terminal_step_idle _ _ _ rfl⟩

/-- Among decisions that respect retirement, none involves a record retired
beforehand. -/
theorem log_respects_not_mentioned (R : Nat → Prop) (l : List Event) (h : log_respects R l)
    (k : Nat) (hk : R k) : ∀ ev ∈ l, ¬ ev.mentions k := by
  induction l generalizing R with
  | nil => intro ev hev; exact absurd hev (List.not_mem_nil ev)
  | cons e l ih =>
    intro ev hev
    rcases List.mem_cons.1 hev with rfl | hev
    · exact h.1 k hk
    · exact ih _ h.2 (Or.inl hk) ev hev

/-- A decision involves the record it retires. -/
theorem mentions_of_retires (ev : Event) (k : Nat) (h : ev.retires = some k) : ev.mentions k := by
  cases ev <;> simp_all [Event.retires, Event.mentions]

/-- Among decisions that respect retirement, each record is retired at most
once. -/
theorem log_respects_once (R : Nat → Prop) (l : List Event) (h : log_respects R l) (j : Nat) :
    (l.filter (fun ev => decide (ev.retires = some j))).length ≤ 1 := by
  induction l generalizing R with
  | nil => simp
  | cons e l ih =>
    by_cases he : e.retires = some j
    · have hnone : l.filter (fun ev => decide (ev.retires = some j)) = [] := by
        rw [List.filter_eq_nil_iff]
        intro ev hev hd
        have := log_respects_not_mentioned _ l h.2 j (Or.inr he) ev hev
        exact this (mentions_of_retires ev j (of_decide_eq_true hd))
      simp [List.filter_cons, he, hnone]
    · have := ih _ h.2
      simpa [List.filter_cons, he] using this

/-- C10: run the outer loop of the scan from any position `i` and any state
`s` (the whole scan is `outer_loop cfg (nfiles - 1) 0`), and let `l` be the
decisions it takes, in order.  No decision of `l` (oracle call, existing-link
retirement, or merge verdict) involves, as reference or as candidate, a record
that is retired by then, be it retired in `s` or by an earlier decision of
`l`; every record retired in `s` is still retired in the state the run ends
in; unless the run aborted, every record a decision retired is retired there
too; and no record is the retired side of more than one decision. -/
theorem retirement_terminal (cfg : Config) (fuel i : Nat) (s : State) :
    ∃ l, (outer_loop cfg fuel i s).state.log = s.log ++ l
      ∧ log_respects (retired_at s.entries) l
      ∧ (∀ k, retired_at s.entries k → retired_at (outer_loop cfg fuel i s).state.entries k)
      ∧ ((outer_loop cfg fuel i s).abort = none →
          ∀ ev ∈ l, ∀ k, ev.retires = some k →
            retired_at (outer_loop cfg fuel i s).state.entries k)
      ∧ (∀ j, (l.filter (fun ev => decide (ev.retires = some j))).length ≤ 1) := by
  obtain ⟨l, hl, h1, h2, h3, -⟩ := outer_loop_terminal cfg fuel i s
  exact ⟨l, hl, h1, h2, h3, log_respects_once _ l h1⟩

/-! ## Dry run and real run -/

/-- Agreeing filesystems hash the first page of an agreed path alike. -/
theorem sha1_first_page_agree (fsR fsD : FS) (p : String) (hd : fsR.dir p = fsD.dir p)
    (hi : ∀ id, (fsR.inode id).map Inode.core = (fsD.inode id).map Inode.core) :
    sha1_first_page fsR p = sha1_first_page fsD p := by
  unfold sha1_first_page openFile
  rw [hd]
  cases fsD.dir p with
  | none => rfl
  | some id =>
    have := hi id
    dsimp only
    cases h1 : fsR.inode id <;> cases h2 : fsD.inode id <;> simp_all [Inode.core]

/-- Agreeing filesystems hash the content of an agreed path alike. -/
theorem sha1_whole_file_agree (fsR fsD : FS) (p : String) (hd : fsR.dir p = fsD.dir p)
    (hi : ∀ id, (fsR.inode id).map Inode.core = (fsD.inode id).map Inode.core) :
    sha1_whole_file fsR p = sha1_whole_file fsD p := by
  unfold sha1_whole_file openFile
  rw [hd]
  cases fsD.dir p with
  | none => rfl
  | some id =>
    have := hi id
    dsimp only
    cases h1 : fsR.inode id <;> cases h2 : fsD.inode id <;> simp_all [Inode.core]

/-- Agreeing filesystems answer `lstat` of an agreed path alike, up to link
count and block count. -/
theorem lstat_agree (fsR fsD : FS) (p : String) (hd : fsR.dir p = fsD.dir p)
    (hi : ∀ id, (fsR.inode id).map Inode.core = (fsD.inode id).map Inode.core) :
    (lstat fsR p).map stat.key = (lstat fsD p).map stat.key := by
  unfold lstat
  rw [hd]
  cases fsD.dir p with
  | none => rfl
  | some id =>
    have := hi id
    dsimp only
    cases h1 : fsR.inode id <;> cases h2 : fsD.inode id <;> simp_all [Inode.core, stat.key]

/-- The first-tier request reads the filesystem only through the first-page
digest of the record's path, and its effect on the record does not depend on
the counters. -/
theorem small_tier_agree (fsR fsD : FS) (e : entry) (c c1 : Stats)
    (h : ∀ p, e.pathname = some p → sha1_first_page fsR p = sha1_first_page fsD p) :
    agree_tier (small_tier fsR e c) (small_tier fsD e c1) := by
  unfold small_tier get_small_hash
  cases e.partialhash_present <;> cases e.filehash_present <;> simp only [if_true, if_false, agree_tier]
  all_goals try trivial
  cases hp : e.pathname with
  | none => simp [agree_tier]
  | some p =>
    simp only [Option.some_bind]
    rw [h p hp]
    cases sha1_first_page fsD p <;> simp [agree_tier]

/-- The second-tier request reads the filesystem only through the whole-file
digest of the record's path, and its effect on the record does not depend on
the counters. -/
theorem big_tier_agree (fsR fsD : FS) (e : entry) (c c1 : Stats)
    (h : ∀ p, e.pathname = some p → sha1_whole_file fsR p = sha1_whole_file fsD p) :
    agree_tier (big_tier fsR e c) (big_tier fsD e c1) := by
  unfold big_tier get_big_hash
  cases e.filehash_present <;> simp only [if_true, if_false, agree_tier]
  all_goals try trivial
  cases hp : e.pathname with
  | none => simp [agree_tier]
  | some p =>
    dsimp only
    rw [h p hp]
    cases sha1_whole_file fsD p <;> simp [agree_tier]

/-- Agreeing tier results are two aborts of one kind or two records alike. -/
theorem agree_tier_cases (r r1 : Except Abort (entry × Stats)) (h : agree_tier r r1) :
    (∃ w, r = .error w ∧ r1 = .error w) ∨ ∃ e c c1, r = .ok (e, c) ∧ r1 = .ok (e, c1) := by
  cases r with
  | error w =>
    cases r1 with
    | error w1 => exact Or.inl ⟨w, rfl, by simp [agree_tier] at h; rw [h]⟩
    | ok x => simp [agree_tier] at h
  | ok x =>
    cases r1 with
    | error w1 => simp [agree_tier] at h
    | ok x1 =>
      obtain ⟨e, c⟩ := x
      obtain ⟨e1, c1⟩ := x1
      simp only [agree_tier] at h
      subst h
      exact Or.inr ⟨e, c, c1, rfl, rfl⟩

/-- The hash cascade reads the filesystem only through the digests of the two
paths; verdict and records do not depend on the counters. -/
theorem hash_cascade_agree (fsR fsD : FS) (a b : entry) (c c1 : Stats)
    (ha1 : ∀ p, a.pathname = some p → sha1_first_page fsR p = sha1_first_page fsD p)
    (ha2 : ∀ p, a.pathname = some p → sha1_whole_file fsR p = sha1_whole_file fsD p)
    (hb1 : ∀ p, b.pathname = some p → sha1_first_page fsR p = sha1_first_page fsD p)
    (hb2 : ∀ p, b.pathname = some p → sha1_whole_file fsR p = sha1_whole_file fsD p) :
    agree_call (hash_cascade fsR a b c) (hash_cascade fsD a b c1) := by
  unfold hash_cascade
  rcases agree_tier_cases _ _ (small_tier_agree fsR fsD a c c1 ha1) with
    ⟨w, e1, e2⟩ | ⟨a1, x, x1, e1, e2⟩
  · rw [e1, e2]; simp [agree_call]
  · rw [e1, e2]
    dsimp only
    rcases agree_tier_cases _ _ (small_tier_agree fsR fsD b x x1 hb1) with
      ⟨w, f1, f2⟩ | ⟨b1, y, y1, f1, f2⟩
    · rw [f1, f2]; simp [agree_call]
    · rw [f1, f2]
      dsimp only
      have pa : a1.pathname = a.pathname := (small_tier_frame fsR a a1 c x e1).1
      have pb : b1.pathname = b.pathname := (small_tier_frame fsR b b1 x y f1).1
      split
      · simp [agree_call]
      · rcases agree_tier_cases _ _
            (big_tier_agree fsR fsD a1 y y1 (fun p hp => ha2 p (pa ▸ hp))) with
          ⟨w, g1, g2⟩ | ⟨a2, z, z1, g1, g2⟩
        · rw [g1, g2]; simp [agree_call]
        · rw [g1, g2]
          dsimp only
          rcases agree_tier_cases _ _
              (big_tier_agree fsR fsD b1 z z1 (fun p hp => hb2 p (pb ▸ hp))) with
            ⟨w, k1, k2⟩ | ⟨b2, u, u1, k1, k2⟩
          · rw [k1, k2]; simp [agree_call]
          · rw [k1, k2]
            dsimp only
            split <;> simp [agree_call]

/-- The oracle reads the filesystem only through the digests of the two paths,
and the switches only through `Fast_flag` and `Fast_threshold`; verdict and
records do not depend on the counters. -/
theorem comparison_equal_agree (cfg cfg1 : Config) (fsR fsD : FS) (a b : entry) (c c1 : Stats)
    (hf : cfg1.Fast_flag = cfg.Fast_flag) (ht : cfg1.Fast_threshold = cfg.Fast_threshold)
    (ha1 : ∀ p, a.pathname = some p → sha1_first_page fsR p = sha1_first_page fsD p)
    (ha2 : ∀ p, a.pathname = some p → sha1_whole_file fsR p = sha1_whole_file fsD p)
    (hb1 : ∀ p, b.pathname = some p → sha1_first_page fsR p = sha1_first_page fsD p)
    (hb2 : ∀ p, b.pathname = some p → sha1_whole_file fsR p = sha1_whole_file fsD p) :
    agree_call (comparison_equal cfg fsR a b c) (comparison_equal cfg1 fsD a b c1) := by
  have hc := hash_cascade_agree fsR fsD a b c c1 ha1 ha2 hb1 hb2
  unfold comparison_equal
  rw [hf, ht]
  split
  · simp [agree_call]
  · split
    · simp [agree_call]
    · split
      · simp [agree_call]
      · split
        · split
          · split
            · simp [agree_call]
            · exact hc
          · simp [agree_call]
        · exact hc

/-- Agreeing oracle results are two aborts of one kind, or the same verdict
with the same records. -/
theorem agree_call_cases (r r1 : Except Abort (Int × entry × entry × Stats))
    (h : agree_call r r1) :
    (∃ w, r = .error w ∧ r1 = .error w)
      ∨ ∃ v a b c c1, r = .ok (v, a, b, c) ∧ r1 = .ok (v, a, b, c1) := by
  cases r with
  | error w =>
    cases r1 with
    | error w1 => exact Or.inl ⟨w, rfl, by simp [agree_call] at h; rw [h]⟩
    | ok x => simp [agree_call] at h
  | ok x =>
    cases r1 with
    | error w1 => simp [agree_call] at h
    | ok x1 =>
      obtain ⟨v, a, b, c⟩ := x
      obtain ⟨v1, a1, b1, c1⟩ := x1
      simp only [agree_call] at h
      obtain ⟨rfl, rfl, rfl⟩ := h
      exact Or.inr ⟨v, a, b, c, c1, rfl, rfl⟩

/-- The last-minute checks read the filesystem only through `lstat` of the two
paths, and of its answers only device, inode, size and modification time. -/
theorem last_minute_checks_agree (fsR fsD : FS) (ei ej : entry)
    (hi : ∀ p, ei.pathname = some p → (lstat fsR p).map stat.key = (lstat fsD p).map stat.key)
    (hj : ∀ p, ej.pathname = some p → (lstat fsR p).map stat.key = (lstat fsD p).map stat.key) :
    last_minute_checks fsR ei ej = last_minute_checks fsD ei ej := by
  unfold last_minute_checks
  cases hpi : ei.pathname with
  | none => rfl
  | some pi =>
    have h1 := hi pi hpi
    simp only [Option.some_bind]
    cases ha : lstat fsR pi with
    | none =>
      cases hb : lstat fsD pi with
      | none => rfl
      | some b => rw [ha, hb] at h1; simp at h1
    | some a =>
      cases hb : lstat fsD pi with
      | none => rw [ha, hb] at h1; simp at h1
      | some b =>
        rw [ha, hb] at h1
        simp only [Option.map_some', Option.some.injEq, stat.key, Prod.mk.injEq] at h1
        obtain ⟨a1, a2, a3, a4⟩ := h1
        dsimp only
        cases hpj : ej.pathname with
        | none => rfl
        | some pj =>
          have h2 := hj pj hpj
          simp only [Option.some_bind]
          cases hc : lstat fsR pj with
          | none =>
            cases hd : lstat fsD pj with
            | none => rfl
            | some d => rw [hc, hd] at h2; simp at h2
          | some c =>
            cases hd : lstat fsD pj with
            | none => rw [hc, hd] at h2; simp at h2
            | some d =>
              rw [hc, hd] at h2
              simp only [Option.map_some', Option.some.injEq, stat.key, Prod.mk.injEq] at h2
              obtain ⟨b1, b2, b3, b4⟩ := h2
              dsimp only
              rw [a2, a3, a4, b1, b2, b3, b4, a1]

/-- When the last-minute checks pass, both records have a path and both paths
have a directory entry. -/
theorem last_minute_checks_pass (fs : FS) (ei ej : entry)
    (h : last_minute_checks fs ei ej = none) :
    ∃ pi pj idi idj, ei.pathname = some pi ∧ ej.pathname = some pj
      ∧ fs.dir pi = some idi ∧ fs.dir pj = some idj := by
  unfold last_minute_checks at h
  cases hpi : ei.pathname with
  | none => rw [hpi] at h; simp at h
  | some pi =>
    cases hpj : ej.pathname with
    | none =>
      rw [hpi, hpj] at h
      simp only [Option.some_bind, Option.none_bind] at h
      split at h <;> simp at h
    | some pj =>
      rw [hpi, hpj] at h
      simp only [Option.some_bind] at h
      have dir_of : ∀ p, lstat fs p ≠ none → ∃ id, fs.dir p = some id := by
        intro p hp
        unfold lstat at hp
        cases hd : fs.dir p with
        | none => rw [hd] at hp; exact absurd rfl hp
        | some id => exact ⟨id, rfl⟩
      cases ha : lstat fs pi with
      | none => rw [ha] at h; simp at h
      | some a =>
        cases hb : lstat fs pj with
        | none => rw [ha, hb] at h; simp at h
        | some b =>
          obtain ⟨idi, hidi⟩ := dir_of pi (by rw [ha]; simp)
          obtain ⟨idj, hidj⟩ := dir_of pj (by rw [hb]; simp)
          exact ⟨pi, pj, idi, idj, rfl, rfl, hidi, hidj⟩

/-- Changing a link count changes nothing the program observes of an object. -/
theorem bumpNlink_core (fs : FS) (id k : Int × Int) (d : Int) :
    (bumpNlink fs id d k).map Inode.core = (fs.inode k).map Inode.core := by
  unfold bumpNlink
  split
  · cases fs.inode k <;> simp [Inode.core]
  · rfl

/-- What a successful `unlink` does. -/
theorem unlink_some (fs fs1 : FS) (p : String) (h : unlink fs p = some fs1) :
    (∀ q, fs1.dir q = if fs.resolve q = fs.resolve p then none else fs.dir q)
      ∧ (∀ id, (fs1.inode id).map Inode.core = (fs.inode id).map Inode.core)
      ∧ fs1.link_fails = fs.link_fails ∧ fs1.unlink_fails = fs.unlink_fails
      ∧ fs1.resolve = fs.resolve := by
  unfold unlink at h
  split at h
  · simp at h
  · split at h
    · simp at h
    · simp only [Option.some.injEq] at h
      subst h
      exact ⟨fun q => rfl, fun id => bumpNlink_core fs _ id (-1), rfl, rfl, rfl⟩

/-- The call `link(old, new)` succeeds when `old` exists, `new` does not, and the
environment does not make it fail; and what it does then. -/
theorem link_some (fs : FS) (old new : String) (id : Int × Int) (ho : fs.dir old = some id)
    (hn : fs.dir new = none) (hf : fs.link_fails old new = false) :
    ∃ fs2, link fs old new = some fs2
      ∧ (∀ q, fs2.dir q = if fs.resolve q = fs.resolve new then some id else fs.dir q)
      ∧ (∀ k, (fs2.inode k).map Inode.core = (fs.inode k).map Inode.core)
      ∧ fs2.link_fails = fs.link_fails ∧ fs2.unlink_fails = fs.unlink_fails
      ∧ fs2.resolve = fs.resolve := by
  unfold link
  rw [hf, ho, hn]
  exact ⟨_, rfl, fun q => rfl, fun k => bumpNlink_core fs _ k 1, rfl, rfl, rfl⟩

/-- A failed `unlink` of an existing path is the environment's doing. -/
theorem unlink_none (fs : FS) (p : String) (id : Int × Int) (hd : fs.dir p = some id)
    (h : unlink fs p = none) : fs.unlink_fails p = true := by
  unfold unlink at h
  split at h
  · assumption
  · rw [hd] at h
    simp at h

/-- An active cell of a path column with cell `j` cleared is an active cell of
the column, other than `j`. -/
theorem active_of_set_none (ps : List (Option String)) (j k : Nat) (p : String)
    (h : (ps.set j none)[k]? = some (some p)) : ps[k]? = some (some p) ∧ k ≠ j := by
  rw [List.getElem?_set] at h
  by_cases hjk : j = k
  · subst hjk
    rw [if_pos rfl] at h
    split at h <;> simp at h
  · rw [if_neg hjk] at h
    exact ⟨h, fun e => hjk e.symm⟩

/-- A cleared cell of a path column with cell `j` cleared was cleared before,
or is cell `j`. -/
theorem retired_of_set_none (ps : List (Option String)) (j k : Nat)
    (h : (ps.set j none)[k]? = some none) : ps[k]? = some none ∨ k = j := by
  by_cases hjk : j = k
  · exact Or.inr hjk.symm
  · rw [List.getElem?_set_ne hjk] at h
    exact Or.inl h

/-- An active record of a framed table has the path the original table lists. -/
theorem path_frame_active (es0 es : List entry) (h : path_frame es0 es) (k : Nat) (p : String)
    (hk : (paths es)[k]? = some (some p)) : (paths es0)[k]? = some (some p) := by
  rcases h.2 k with h1 | h1
  · rw [← h1]; exact hk
  · rw [hk] at h1
    simp at h1

/-- Retiring a record keeps the table framed. -/
theorem path_frame_set_none (es0 es es1 : List entry) (j : Nat)
    (hp : paths es1 = (paths es).set j none) (h : path_frame es0 es) : path_frame es0 es1 := by
  refine ⟨by rw [hp, List.length_set]; exact h.1, fun k => ?_⟩
  rw [hp]
  by_cases hjk : j = k
  · subst hjk
    by_cases hlt : j < (paths es).length
    · exact Or.inr (List.getElem?_set_self hlt)
    · left
      rw [List.getElem?_eq_none (by simpa using hlt),
        List.getElem?_eq_none (by rw [← h.1]; simpa using hlt)]
  · rw [List.getElem?_set_ne hjk]
    exact h.2 k

/-- Framing concerns the path column only. -/
theorem path_frame_of_paths (es0 es es1 : List entry) (hp : paths es1 = paths es)
    (h : path_frame es0 es) : path_frame es0 es1 := by
  unfold path_frame
  rw [hp]
  exact h

/-- The active records of a framed table list distinct paths when the original
table does. -/
theorem paths_distinct_frame (fs : FS) (es0 es : List entry) (h : path_frame es0 es)
    (hd : paths_distinct fs es0) : paths_distinct fs es := by
  intro a b p q ha hb
  exact hd a b p q (path_frame_active es0 es h a p ha) (path_frame_active es0 es h b q hb)

/-- Retiring a record keeps the filesystems in agreement. -/
theorem fs_agree_set_none (fsR fsD : FS) (es es1 : List entry) (j : Nat)
    (hp : paths es1 = (paths es).set j none) (h : fs_agree fsR fsD es) :
    fs_agree fsR fsD es1 := by
  refine ⟨fun k p hk => ?_, h.2.1, h.2.2.1, h.2.2.2⟩
  rw [hp] at hk
  exact h.1 k p (active_of_set_none _ j k p hk).1

/-- Agreement of filesystems concerns the path column only. -/
theorem fs_agree_of_paths (fsR fsD : FS) (es es1 : List entry) (h : paths es1 = paths es)
    (ha : fs_agree fsR fsD es) : fs_agree fsR fsD es1 := by
  refine ⟨fun k p hk => ?_, ha.2.1, ha.2.2.1, ha.2.2.2⟩
  rw [h] at hk
  exact ha.1 k p hk

/-- The record of what was relinked concerns the path column, the merge
verdicts among the decisions, and the filesystem only. -/
theorem relinked_congr (es0 : List entry) (fs0 : FS) (s s1 : State)
    (hp : paths s1.entries = paths s.entries) (hf : s1.fs = s.fs)
    (hl : ∀ r k : Nat, Event.ln r k ∈ s1.log ↔ Event.ln r k ∈ s.log)
    (h : relinked es0 s fs0) : relinked es0 s1 fs0 := by
  obtain ⟨h1, h2, h3⟩ := h
  refine ⟨fun r k hk => ?_, fun r k pk pr hk => ?_, fun k pk hk hpk hno => ?_⟩
  · unfold retired_at
    rw [hp]
    exact h1 r k ((hl r k).1 hk)
  · rw [hf]
    exact h2 r k pk pr ((hl r k).1 hk)
  · rw [hf]
    refine h3 k pk ?_ hpk (fun r hr => hno r ((hl r k).2 hr))
    unfold retired_at at hk
    rw [hp] at hk
    exact hk

/-- One retirement, of the active record `j` under the active reference `i`,
as existing link (path untouched) or after a merge verdict (path relinked to
what `i` names, unless the unlink failed). -/
theorem relinked_step (es0 : List entry) (fs0 : FS) (s s1 : State) (i j : Nat) (pi pj : String)
    (ev : Event)
    (hrl : relinked es0 s fs0) (hfs : fs_agree s.fs fs0 s.entries)
    (hpf : path_frame es0 s.entries) (hdist : paths_distinct fs0 es0)
    (hai : (paths s.entries)[i]? = some (some pi))
    (haj : (paths s.entries)[j]? = some (some pj))
    (hent : paths s1.entries = (paths s.entries).set j none)
    (hdir : ∀ q, fs0.resolve q ≠ fs0.resolve pj → s1.fs.dir q = s.fs.dir q)
    (hlog : s1.log = s.log ++ [ev])
    (hev : (ev = Event.existing i j ∧ s1.fs.dir pj = s.fs.dir pj)
      ∨ (ev = Event.ln i j ∧ (fs0.unlink_fails pj = false → s1.fs.dir pj = s.fs.dir pi))) :
    relinked es0 s1 fs0 := by
  obtain ⟨h1, h2, h3⟩ := hrl
  have hjlt : j < (paths s.entries).length := by
    rcases List.getElem?_eq_some.1 haj with ⟨hlt, -⟩
    exact hlt
  have hj0 := path_frame_active es0 s.entries hpf j pj haj
  have hi0 := path_frame_active es0 s.entries hpf i pi hai
  have hret : ∀ k, retired_at s.entries k → retired_at s1.entries k := by
    intro k hk
    unfold retired_at at hk ⊢
    rw [hent]
    exact retired_set_none _ j k hk
  have hretj : retired_at s1.entries j := by
    unfold retired_at
    rw [hent]
    exact List.getElem?_set_self hjlt
  have hactj : ¬ retired_at s.entries j := by
    unfold retired_at
    rw [haj]
    simp
  have hne : ∀ k pk, k ≠ j → (paths es0)[k]? = some (some pk) →
      fs0.resolve pk ≠ fs0.resolve pj := by
    intro k pk hk hpk e
    exact hk (hdist k j pk pj hpk hj0 e)
  have hmem : ∀ r k, Event.ln r k ∈ s1.log →
      Event.ln r k ∈ s.log ∨ (ev = Event.ln i j ∧ r = i ∧ k = j) := by
    intro r k hk
    rw [hlog] at hk
    rcases List.mem_append.1 hk with hk | hk
    · exact Or.inl hk
    · simp only [List.mem_singleton] at hk
      rcases hev with ⟨e, -⟩ | ⟨e, -⟩
      · rw [e] at hk
        cases hk
      · rw [e] at hk
        simp only [Event.ln.injEq] at hk
        exact Or.inr ⟨e, hk.1, hk.2⟩
  refine ⟨fun r k hk => ?_, fun r k pk pr hk hpk hpr hu => ?_, fun k pk hk hpk hno => ?_⟩
  · rcases hmem r k hk with hk | ⟨-, -, ek⟩
    · exact hret k (h1 r k hk)
    · rw [ek]
      exact hretj
  · rcases hmem r k hk with hk | ⟨e, er, ek⟩
    · have hkj : k ≠ j := fun e => hactj (e ▸ h1 r k hk)
      rw [hdir pk (hne k pk hkj hpk)]
      exact h2 r k pk pr hk hpk hpr hu
    · rw [ek, hj0] at hpk
      rw [er, hi0] at hpr
      simp only [Option.some.injEq] at hpk hpr
      rw [← hpk] at hu ⊢
      rw [← hpr]
      rcases hev with ⟨e1, -⟩ | ⟨-, hd⟩
      · rw [e1] at e
        cases e
      · rw [hd hu]
        exact hfs.1 i pi hai
  · by_cases hkj : k = j
    · rw [hkj, hj0] at hpk
      simp only [Option.some.injEq] at hpk
      rw [← hpk]
      rcases hev with ⟨-, hd⟩ | ⟨e, -⟩
      · rw [hd]
        exact hfs.1 j pj haj
      · exfalso
        apply hno i
        rw [hlog, e, hkj]
        simp
    · have hk0 : retired_at s.entries k := by
        unfold retired_at at hk ⊢
        rw [hent] at hk
        rcases retired_of_set_none _ j k hk with h | h
        · exact h
        · exact absurd h hkj
      rw [hdir pk (hne k pk hkj hpk)]
      refine h3 k pk hk0 hpk (fun r hr => hno r ?_)
      rw [hlog]
      exact List.mem_append_left _ hr

/-- The merge step of a real run beside that of a dry run, from agreeing
states. -/
theorem merge_sim (cfg : Config) (es0 : List entry) (fs0 : FS) (i j : Nat) (ei ej : entry)
    (sR sD : State) (hdist : paths_distinct fs0 es0)
    (hent : sR.entries = sD.entries) (hlog : sR.log = sD.log) (hD : sD.fs = fs0)
    (hfs : fs_agree sR.fs fs0 sR.entries) (hpf : path_frame es0 sR.entries)
    (hrl : relinked es0 sR fs0)
    (hi : (paths sR.entries)[i]? = some ei.pathname)
    (hj : (paths sR.entries)[j]? = some ej.pathname) (hij : i ≠ j) :
    sim_out es0 fs0 (merge { cfg with No_do := false } i j ei ej sR)
      (merge { cfg with No_do := true } i j ei ej sD) := by
  have hchk : last_minute_checks sR.fs ei ej = last_minute_checks sD.fs ei ej := by
    rw [hD]
    apply last_minute_checks_agree
    · intro p hp
      exact lstat_agree _ _ p (hfs.1 i p (by rw [hi, hp])) hfs.2.1
    · intro p hp
      exact lstat_agree _ _ p (hfs.1 j p (by rw [hj, hp])) hfs.2.1
  cases hc : last_minute_checks sD.fs ei ej with
  | some w =>
    have hR : merge { cfg with No_do := false } i j ei ej sR =
        .aborted w { sR with stats := credit_blocks ej sR.stats,
                             log := sR.log ++ [Event.ln i j] } := by
      unfold merge
      dsimp only
      rw [hchk, hc]
    have hDm : merge { cfg with No_do := true } i j ei ej sD =
        .aborted w { sD with stats := credit_blocks ej sD.stats,
                             log := sD.log ++ [Event.ln i j] } := by
      unfold merge
      dsimp only
      rw [hc]
    rw [hR, hDm]
    refine Or.inr ⟨rfl, hent, ?_, fun h => ?_⟩
    · show sR.log ++ _ = sD.log ++ _
      rw [hlog]
    · simp [Outcome.abort] at h
  | none =>
    have hDm : merge { cfg with No_do := true } i j ei ej sD =
        finish j { sD with stats := credit_blocks ej sD.stats,
                           log := sD.log ++ [Event.ln i j] } := by
      unfold merge
      dsimp only
      rw [hc]
      rfl
    obtain ⟨pi, pj, idi, idj, hpi, hpj, hdi, hdj⟩ :=
      last_minute_checks_pass sR.fs ei ej (hchk.trans hc)
    have hai : (paths sR.entries)[i]? = some (some pi) := by rw [hi, hpi]
    have haj : (paths sR.entries)[j]? = some (some pj) := by rw [hj, hpj]
    have hres : sR.fs.resolve = fs0.resolve := hfs.2.2.2.2
    have hne : sR.fs.resolve pi ≠ sR.fs.resolve pj := by
      intro e
      rw [hres] at e
      exact hij (paths_distinct_frame fs0 es0 sR.entries hpf hdist i j pi pj hai haj e)
    have hent1 : retire sR.entries j = retire sD.entries j := by rw [hent]
    have hlog1 : sR.log ++ [Event.ln i j] = sD.log ++ [Event.ln i j] := by rw [hlog]
    cases hu : unlink sR.fs pj with
    | none =>
      have hR : merge { cfg with No_do := false } i j ei ej sR =
          finish j ⟨sR.entries, sR.fs,
            { credit_blocks ej sR.stats with
                Unlink_failures := (credit_blocks ej sR.stats).Unlink_failures + 1 },
            sR.log ++ [Event.ln i j]⟩ := by
        unfold merge
        dsimp only
        rw [hchk, hc]
        dsimp only
        rw [if_pos rfl, hpj]
        have : unlink_path sR.fs (some pj) = none := hu
        rw [this]
      have huf : fs0.unlink_fails pj = true := by
        rw [← hfs.2.2.2.1]
        exact unlink_none sR.fs pj idj hdj hu
      rw [hR, hDm]
      refine Or.inr ⟨rfl, hent1, hlog1, fun _ =>
        ⟨fs_agree_set_none _ _ _ _ j (paths_retire _ j) hfs,
          path_frame_set_none es0 _ _ j (paths_retire _ j) hpf, ?_⟩⟩
      refine relinked_step es0 fs0 sR _ i j pi pj (Event.ln i j) hrl hfs hpf hdist hai haj
        (paths_retire _ j) (fun q _ => rfl) rfl (Or.inr ⟨rfl, fun h => ?_⟩)
      rw [huf] at h
      exact absurd h (by decide)
    | some fs1 =>
      obtain ⟨u1, u2, u3, u4, u5⟩ := unlink_some sR.fs fs1 pj hu
      have ho : fs1.dir pi = some idi := by rw [u1 pi, if_neg hne]; exact hdi
      have hn : fs1.dir pj = none := by rw [u1 pj, if_pos rfl]
      cases hlf : fs1.link_fails pi pj with
      | true =>
        have hl : link fs1 pi pj = none := by
          unfold link
          rw [hlf]
          rfl
        have hR : merge { cfg with No_do := false } i j ei ej sR =
            .aborted Abort.cant_link ⟨sR.entries, fs1, credit_blocks ej sR.stats,
              sR.log ++ [Event.ln i j]⟩ := by
          unfold merge
          dsimp only
          rw [hchk, hc]
          dsimp only
          rw [if_pos rfl, hpj, hpi]
          have h1 : unlink_path sR.fs (some pj) = some fs1 := hu
          rw [h1]
          dsimp only
          have h2 : link_path fs1 (some pi) (some pj) = none := hl
          rw [h2]
        rw [hR]
        refine Or.inl ⟨rfl, pi, pj, ?_⟩
        rw [← hfs.2.2.1, ← u3]
        exact hlf
      | false =>
        obtain ⟨fs2, hl, l1, l2, l3, l4, l5⟩ := link_some fs1 pi pj idi ho hn hlf
        have hR : merge { cfg with No_do := false } i j ei ej sR =
            finish j ⟨sR.entries, fs2, credit_blocks ej sR.stats,
              sR.log ++ [Event.ln i j]⟩ := by
          unfold merge
          dsimp only
          rw [hchk, hc]
          dsimp only
          rw [if_pos rfl, hpj, hpi]
          have h1 : unlink_path sR.fs (some pj) = some fs1 := hu
          rw [h1]
          dsimp only
          have h2 : link_path fs1 (some pi) (some pj) = some fs2 := hl
          rw [h2]
        have hdir : ∀ q, fs0.resolve q ≠ fs0.resolve pj → fs2.dir q = sR.fs.dir q := by
          intro q hq
          rw [← hres] at hq
          rw [l1 q, u5, if_neg hq, u1 q, if_neg hq]
        rw [hR, hDm]
        refine Or.inr ⟨rfl, hent1, hlog1, fun _ => ⟨⟨fun k p hk => ?_, fun id => ?_, ?_, ?_, ?_⟩,
          path_frame_set_none es0 _ _ j (paths_retire _ j) hpf, ?_⟩⟩
        · have hk1 : (paths (retire sR.entries j))[k]? = some (some p) := hk
          rw [paths_retire] at hk1
          obtain ⟨hk2, hkj⟩ := active_of_set_none _ j k p hk1
          have hpne : fs0.resolve p ≠ fs0.resolve pj := by
            intro e
            exact hkj (paths_distinct_frame fs0 es0 sR.entries hpf hdist k j p pj hk2 haj e)
          show fs2.dir p = fs0.dir p
          rw [hdir p hpne]
          exact hfs.1 k p hk2
        · show (fs2.inode id).map Inode.core = (fs0.inode id).map Inode.core
          rw [l2 id, u2 id]
          exact hfs.2.1 id
        · show fs2.link_fails = fs0.link_fails
          rw [l3, u3]
          exact hfs.2.2.1
        · show fs2.unlink_fails = fs0.unlink_fails
          rw [l4, u4]
          exact hfs.2.2.2.1
        · show fs2.resolve = fs0.resolve
          rw [l5, u5]
          exact hres
        · refine relinked_step es0 fs0 sR _ i j pi pj (Event.ln i j) hrl hfs hpf hdist hai haj
            (paths_retire _ j) hdir rfl (Or.inr ⟨rfl, fun _ => ?_⟩)
          show fs2.dir pj = sR.fs.dir pi
          rw [l1 pj, if_pos rfl, hdi]

/-- In a dry run the merge step leaves the filesystem alone. -/
theorem merge_dry_fs (cfg : Config) (i j : Nat) (ei ej : entry) (s : State)
    (h : cfg.No_do = true) : (merge cfg i j ei ej s).state.fs = s.fs := by
  unfold merge
  dsimp only
  split
  · rfl
  · rw [if_neg (by simp [h])]
    rfl

/-- In a dry run the loop body leaves the filesystem alone. -/
theorem inner_body_dry_fs (cfg : Config) (i j : Nat) (ei ej : entry) (s : State)
    (h : cfg.No_do = true) : (inner_body cfg i j ei ej s).state.fs = s.fs := by
  unfold inner_body
  split
  · rfl
  · split
    · rfl
    · split
      · rfl
      · dsimp only
        split
        · rw [merge_dry_fs cfg i j _ _ _ h]
        · rfl

/-- In a dry run the inner loop leaves the filesystem alone. -/
theorem inner_loop_dry_fs (cfg : Config) (i fuel j : Nat) (s : State) (h : cfg.No_do = true) :
    (inner_loop cfg i fuel j s).state.fs = s.fs := by
  induction fuel generalizing j s with
  | zero => rfl
  | succ fuel ih =>
    rw [inner_loop]
    split
    · rename_i ei ej _ _
      split
      · have hb := inner_body_dry_fs cfg i j ei ej s h
        rcases outcome_cases (inner_body cfg i j ei ej s) with ⟨hd, -⟩ | ⟨w, hd, -⟩
        · rw [hd]
          dsimp only
          rw [ih, hb]
        · rw [hd]
          exact hb
      · rfl
    · rfl

/-- In a dry run the outer loop leaves the filesystem alone. -/
theorem outer_loop_dry_fs (cfg : Config) (fuel i : Nat) (s : State) (h : cfg.No_do = true) :
    (outer_loop cfg fuel i s).state.fs = s.fs := by
  induction fuel generalizing i s with
  | zero => rfl
  | succ fuel ih =>
    rw [outer_loop]
    split
    · split
      · exact ih (i + 1) s
      · have hb := inner_loop_dry_fs cfg i (s.entries.length - (i + 1)) (i + 1) s h
        rcases outcome_cases (inner_loop cfg i (s.entries.length - (i + 1)) (i + 1) s) with
          ⟨hd, -⟩ | ⟨w, hd, -⟩
        · rw [hd]
          dsimp only
          rw [ih, hb]
        · rw [hd]
          exact hb
    · rfl

/-- A table whose active records list pairwise different directory entries. -/
theorem paths_distinct_of_nodup (fs : FS) (es : List entry)
    (h : (((paths es).filterMap id).map fs.resolve).Nodup) : paths_distinct fs es := by
  induction es with
  | nil =>
    intro i j p q hi
    simp [paths] at hi
  | cons x xs ih =>
    have hcons : (paths (x :: xs)).filterMap id
        = (match x.pathname with
            | some q => q :: (paths xs).filterMap id
            | none => (paths xs).filterMap id) := by
      cases hx : x.pathname <;> simp [paths, hx]
    rw [hcons] at h
    have htail : (((paths xs).filterMap id).map fs.resolve).Nodup := by
      cases hx : x.pathname with
      | none =>
        rw [hx] at h
        exact h
      | some q =>
        rw [hx] at h
        exact (List.nodup_cons.1 h).2
    have hhead : ∀ (n : Nat) (p q : String), x.pathname = some p →
        (paths xs)[n]? = some (some q) → fs.resolve p = fs.resolve q → False := by
      intro n p q hx hn e
      rw [hx] at h
      have hmem : fs.resolve p ∈ ((paths xs).filterMap id).map fs.resolve := by
        rw [List.mem_map]
        refine ⟨q, ?_, e.symm⟩
        rw [List.mem_filterMap]
        exact ⟨some q, List.getElem?_mem hn, rfl⟩
      exact (List.nodup_cons.1 h).1 hmem
    intro i j p q hi hj e
    cases i with
    | zero =>
      cases j with
      | zero => rfl
      | succ b =>
        simp only [paths, List.map_cons, List.getElem?_cons_zero, List.getElem?_cons_succ,
          Option.some.injEq] at hi hj
        exact absurd (hhead b p q hi hj e) id
    | succ a =>
      cases j with
      | zero =>
        simp only [paths, List.map_cons, List.getElem?_cons_zero, List.getElem?_cons_succ,
          Option.some.injEq] at hi hj
        exact absurd (hhead a q p hj hi e.symm) id
      | succ b =>
        simp only [paths, List.map_cons, List.getElem?_cons_succ] at hi hj
        rw [ih htail a b p q hi hj e]


/-- Agreeing states are agreeing outcomes of runs that end there. -/
theorem sim_out_done (es0 : List entry) (fs0 : FS) (sR sD : State)
    (hent : sR.entries = sD.entries) (hlog : sR.log = sD.log)
    (hfs : fs_agree sR.fs fs0 sR.entries) (hpf : path_frame es0 sR.entries)
    (hrl : relinked es0 sR fs0) : sim_out es0 fs0 (.done sR) (.done sD) :=
  Or.inr ⟨rfl, hent, hlog, fun _ => ⟨hfs, hpf, hrl⟩⟩

/-- Two runs aborted alike with the same table and decisions agree. -/
theorem sim_out_aborted (es0 : List entry) (fs0 : FS) (w : Abort) (sR sD : State)
    (hent : sR.entries = sD.entries) (hlog : sR.log = sD.log) :
    sim_out es0 fs0 (.aborted w sR) (.aborted w sD) :=
  Or.inr ⟨rfl, hent, hlog, fun h => by simp [Outcome.abort] at h⟩

/-- From agreeing outcomes: the real run aborted on a failed `link`, or both
aborted alike, or both completed in agreeing states. -/
theorem sim_out_cases (es0 : List entry) (fs0 : FS) (oR oD : Outcome)
    (h : sim_out es0 fs0 oR oD) :
    (∃ sR, oR = .aborted Abort.cant_link sR ∧ ∃ a b, fs0.link_fails a b = true)
      ∨ (∃ w sR sD, oR = .aborted w sR ∧ oD = .aborted w sD
          ∧ sR.entries = sD.entries ∧ sR.log = sD.log)
      ∨ ∃ sR sD, oR = .done sR ∧ oD = .done sD ∧ sR.entries = sD.entries ∧ sR.log = sD.log
          ∧ fs_agree sR.fs fs0 sR.entries ∧ path_frame es0 sR.entries
          ∧ relinked es0 sR fs0 := by
  rcases h with ⟨ha, hl⟩ | ⟨ha, he, hl, hr⟩
  · cases oR with
    | done sR => simp [Outcome.abort] at ha
    | aborted w sR =>
      simp only [Outcome.abort, Option.some.injEq] at ha
      subst ha
      exact Or.inl ⟨sR, rfl, hl⟩
  · cases oR with
    | done sR =>
      cases oD with
      | done sD =>
        exact Or.inr (Or.inr ⟨sR, sD, rfl, rfl, he, hl, (hr rfl).1, (hr rfl).2.1, (hr rfl).2.2⟩)
      | aborted w sD => simp [Outcome.abort] at ha
    | aborted w sR =>
      cases oD with
      | done sD => simp [Outcome.abort] at ha
      | aborted w1 sD =>
        simp only [Outcome.abort, Option.some.injEq] at ha
        subst ha
        exact Or.inr (Or.inl ⟨w, sR, sD, rfl, rfl, he, hl⟩)

/-- The loop body of a real run beside that of a dry run, from agreeing
states, for an active reference. -/
theorem inner_body_sim (cfg : Config) (es0 : List entry) (fs0 : FS) (i j : Nat) (ei ej : entry)
    (sR sD : State) (hdist : paths_distinct fs0 es0)
    (hent : sR.entries = sD.entries) (hlog : sR.log = sD.log) (hD : sD.fs = fs0)
    (hfs : fs_agree sR.fs fs0 sR.entries) (hpf : path_frame es0 sR.entries)
    (hrl : relinked es0 sR fs0)
    (hi : sR.entries[i]? = some ei) (hj : sR.entries[j]? = some ej) (hij : i ≠ j)
    (pi : String) (hact : ei.pathname = some pi) :
    sim_out es0 fs0 (inner_body { cfg with No_do := false } i j ei ej sR)
      (inner_body { cfg with No_do := true } i j ei ej sD) := by
  have hpi := paths_getElem? sR.entries i ei hi
  have hpj := paths_getElem? sR.entries j ej hj
  have hlog1 : ∀ ev : Event, sR.log ++ [ev] = sD.log ++ [ev] := fun ev => by rw [hlog]
  unfold inner_body
  split
  · exact sim_out_done es0 fs0 sR sD hent hlog hfs hpf hrl
  · rename_i hej
    obtain ⟨pj, hpj1⟩ := Option.ne_none_iff_exists'.1 hej
    split
    · refine Or.inr ⟨rfl, ?_, hlog1 _, fun _ =>
        ⟨fs_agree_set_none _ _ _ _ j (paths_retire _ j) hfs,
          path_frame_set_none es0 _ _ j (paths_retire _ j) hpf, ?_⟩⟩
      · show retire sR.entries j = retire sD.entries j
        rw [hent]
      · exact relinked_step es0 fs0 sR _ i j pi pj (Event.existing i j) hrl hfs hpf hdist
          (by rw [hpi, hact]) (by rw [hpj, hpj1]) (paths_retire _ j) (fun q _ => rfl) rfl
          (Or.inl ⟨rfl, rfl⟩)
    · have hag := comparison_equal_agree { cfg with No_do := false } { cfg with No_do := true }
        sR.fs sD.fs ei ej sR.stats sD.stats rfl rfl
        (fun p hp => sha1_first_page_agree _ _ p (hD ▸ hfs.1 i p (by rw [hpi, hp])) (hD ▸ hfs.2.1))
        (fun p hp => sha1_whole_file_agree _ _ p (hD ▸ hfs.1 i p (by rw [hpi, hp])) (hD ▸ hfs.2.1))
        (fun p hp => sha1_first_page_agree _ _ p (hD ▸ hfs.1 j p (by rw [hpj, hp])) (hD ▸ hfs.2.1))
        (fun p hp => sha1_whole_file_agree _ _ p (hD ▸ hfs.1 j p (by rw [hpj, hp])) (hD ▸ hfs.2.1))
      rcases agree_call_cases _ _ hag with ⟨w, e1, e2⟩ | ⟨v, a1, b1, c, c1, e1, e2⟩
      · rw [e1, e2]
        exact sim_out_aborted es0 fs0 w _ _ hent (hlog1 _)
      · rw [e1, e2]
        dsimp only
        obtain ⟨⟨fp, -⟩, ⟨gp, -⟩⟩ :=
          comparison_equal_frame _ sR.fs ei ej a1 b1 sR.stats c v e1
        have hj1 : (sR.entries.set i a1)[j]? = some ej := by
          rw [getElem?_set_some sR.entries i j ei a1 hi, if_neg hij]; exact hj
        have hp : paths ((sR.entries.set i a1).set j b1) = paths sR.entries := by
          rw [paths_set_same _ j ej b1 hj1 gp, paths_set_same _ i ei a1 hi fp]
        have hent1 : (sR.entries.set i a1).set j b1 = (sD.entries.set i a1).set j b1 := by
          rw [hent]
        have hrl1 : relinked es0
            ⟨(sR.entries.set i a1).set j b1, sR.fs, c, sR.log ++ [Event.oracle i j]⟩ fs0 := by
          refine relinked_congr es0 fs0 sR _ hp rfl (fun r k => ?_) hrl
          simp
        split
        · exact merge_sim cfg es0 fs0 i j a1 b1 _ _ hdist hent1 (hlog1 _) hD
            (fs_agree_of_paths _ _ _ _ hp hfs) (path_frame_of_paths es0 _ _ hp hpf) hrl1
            (by show (paths ((sR.entries.set i a1).set j b1))[i]? = _; rw [hp, hpi, fp])
            (by show (paths ((sR.entries.set i a1).set j b1))[j]? = _; rw [hp, hpj, gp]) hij
        · exact sim_out_done es0 fs0 _ _ hent1 (hlog1 _) (fs_agree_of_paths _ _ _ _ hp hfs)
            (path_frame_of_paths es0 _ _ hp hpf) hrl1

/-- The inner loop of a real run beside that of a dry run. -/
theorem inner_loop_sim (cfg : Config) (es0 : List entry) (fs0 : FS) (i fuel j : Nat)
    (sR sD : State) (hdist : paths_distinct fs0 es0) (hij : i < j)
    (hent : sR.entries = sD.entries) (hlog : sR.log = sD.log) (hD : sD.fs = fs0)
    (hfs : fs_agree sR.fs fs0 sR.entries) (hpf : path_frame es0 sR.entries)
    (hrl : relinked es0 sR fs0)
    (p : String) (hact : (paths sR.entries)[i]? = some (some p)) :
    sim_out es0 fs0 (inner_loop { cfg with No_do := false } i fuel j sR)
      (inner_loop { cfg with No_do := true } i fuel j sD) := by
  induction fuel generalizing j sR sD with
  | zero => exact sim_out_done es0 fs0 sR sD hent hlog hfs hpf hrl
  | succ fuel ih =>
    rw [inner_loop, inner_loop, ← hent]
    cases hi : sR.entries[i]? with
    | none => exact sim_out_done es0 fs0 sR sD hent hlog hfs hpf hrl
    | some ei =>
      cases hj : sR.entries[j]? with
      | none => exact sim_out_done es0 fs0 sR sD hent hlog hfs hpf hrl
      | some ej =>
        dsimp only
        have hei : ei.pathname = some p := by
          rw [paths_getElem? sR.entries i ei hi] at hact
          simpa using hact
        split
        · have hkeep := (inner_body_terminal { cfg with No_do := false } i j ei ej sR hi hj
            (Nat.ne_of_lt hij) (by rw [hei]; simp)).choose_spec.2.2
          have hdry := inner_body_dry_fs { cfg with No_do := true } i j ei ej sD rfl
          rcases sim_out_cases es0 fs0 _ _
              (inner_body_sim cfg es0 fs0 i j ei ej sR sD hdist hent hlog hD hfs hpf hrl hi hj
                (Nat.ne_of_lt hij) p hei) with
            ⟨s1, e1, hl⟩ | ⟨w, s1, s2, e1, e2, he, hl⟩ | ⟨s1, s2, e1, e2, he, hl, hf, hp1, hr1⟩
          · rw [e1]
            exact Or.inl ⟨rfl, hl⟩
          · rw [e1, e2]
            exact sim_out_aborted es0 fs0 w s1 s2 he hl
          · rw [e1] at hkeep
            rw [e2] at hdry
            rw [e1, e2]
            exact ih (j + 1) s1 s2 (Nat.lt_succ_of_lt hij) he hl (hdry.trans hD) hf hp1 hr1
              (hkeep.trans hact)
        · exact sim_out_done es0 fs0 sR sD hent hlog hfs hpf hrl

/-- The outer loop of a real run beside that of a dry run. -/
theorem outer_loop_sim (cfg : Config) (es0 : List entry) (fs0 : FS) (fuel i : Nat)
    (sR sD : State) (hdist : paths_distinct fs0 es0)
    (hent : sR.entries = sD.entries) (hlog : sR.log = sD.log) (hD : sD.fs = fs0)
    (hfs : fs_agree sR.fs fs0 sR.entries) (hpf : path_frame es0 sR.entries)
    (hrl : relinked es0 sR fs0) :
    sim_out es0 fs0 (outer_loop { cfg with No_do := false } fuel i sR)
      (outer_loop { cfg with No_do := true } fuel i sD) := by
  induction fuel generalizing i sR sD with
  | zero => exact sim_out_done es0 fs0 sR sD hent hlog hfs hpf hrl
  | succ fuel ih =>
    rw [outer_loop, outer_loop, ← hent]
    cases hi : sR.entries[i]? with
    | none => exact sim_out_done es0 fs0 sR sD hent hlog hfs hpf hrl
    | some ei =>
      dsimp only
      split
      · exact ih (i + 1) sR sD hent hlog hD hfs hpf hrl
      · rename_i hei
        obtain ⟨p, hp⟩ := Option.ne_none_iff_exists'.1 hei
        have hdry := inner_loop_dry_fs { cfg with No_do := true } i
          (sR.entries.length - (i + 1)) (i + 1) sD rfl
        rcases sim_out_cases es0 fs0 _ _
            (inner_loop_sim cfg es0 fs0 i (sR.entries.length - (i + 1)) (i + 1) sR sD hdist
              (Nat.lt_succ_self i) hent hlog hD hfs hpf hrl p
              (by rw [paths_getElem? sR.entries i ei hi, hp])) with
          ⟨s1, e1, hl⟩ | ⟨w, s1, s2, e1, e2, he, hl⟩ | ⟨s1, s2, e1, e2, he, hl, hf, hp1, hr1⟩
        · rw [e1]
          exact Or.inl ⟨rfl, hl⟩
        · rw [e1, e2]
          exact sim_out_aborted es0 fs0 w s1 s2 he hl
        · rw [e2] at hdry
          rw [e1, e2]
          exact ih (i + 1) s1 s2 he hl (hdry.trans hD) hf hp1 hr1

/-- The whole scan of a real run beside that of the dry run on the same
input. -/
theorem scan_sim (cfg : Config) (es : List entry) (fs : FS) (hdist : paths_distinct fs es) :
    sim_out es fs (scan { cfg with No_do := false } (start es fs))
      (scan { cfg with No_do := true } (start es fs)) := by
  refine outer_loop_sim cfg es fs (es.length - 1) 0 (start es fs) (start es fs) hdist rfl rfl rfl
    ⟨fun _ _ _ => rfl, fun _ => rfl, rfl, rfl, rfl⟩ ⟨rfl, fun _ => Or.inl rfl⟩ ⟨?_, ?_, ?_⟩
  · intro r k hk
    simp [start] at hk
  · intro r k pk pr hk
    simp [start] at hk
  · intro k pk hk hpk
    unfold retired_at at hk
    have : (paths (start es fs).entries)[k]? = (paths es)[k]? := rfl
    rw [this, hpk] at hk
    simp at hk

/-- C3, as stated, fails on an input that lists a path twice: with `x` and `y`
identical and `y` listed twice, both runs decide to link the first `y` and then
the second `y` to `x`; the run without `-n` has by then replaced `y` by a link
to `x`, so its last-minute check `st_ino != st_ino` fails and it aborts with
the second `y` still active, while the dry run completes and retires both. -/
theorem dry_run_diverges_on_repeated_path :
    (scan { default_config with No_do := false } (start twice_listed twice_fs)).abort
        = some Abort.assert_ino
      ∧ (scan { default_config with No_do := true } (start twice_listed twice_fs)).abort = none
      ∧ (scan { default_config with No_do := false } (start twice_listed twice_fs)).state.log
        = [Event.oracle 0 1, Event.ln 0 1, Event.oracle 0 2, Event.ln 0 2]
      ∧ paths (scan { default_config with No_do := false }
            (start twice_listed twice_fs)).state.entries = [some "x", none, some "y"]
      ∧ paths (scan { default_config with No_do := true }
            (start twice_listed twice_fs)).state.entries = [some "x", none, none] := by
  decide


/-- C3, amended: for every table in which no directory entry is listed by two
active records, under the same or under different spellings, every filesystem
on which the environment makes no `link` call fail, and every setting of the
other switches, the run without `-n` and the run with `-n` take the same
decisions in the same order, end with the same table (hence the same retired
records), and abort alike or not at all; and the dry run leaves the filesystem
exactly as it was. -/
theorem dry_run_equivalence (cfg : Config) (es : List entry) (fs : FS)
    (hdist : (((paths es).filterMap id).map fs.resolve).Nodup)
    (hlink : ∀ a b, fs.link_fails a b = false) :
    (scan { cfg with No_do := false } (start es fs)).state.log
        = (scan { cfg with No_do := true } (start es fs)).state.log
      ∧ (scan { cfg with No_do := false } (start es fs)).state.entries
        = (scan { cfg with No_do := true } (start es fs)).state.entries
      ∧ (scan { cfg with No_do := false } (start es fs)).abort
        = (scan { cfg with No_do := true } (start es fs)).abort
      ∧ (scan { cfg with No_do := true } (start es fs)).state.fs = fs := by
  rcases scan_sim cfg es fs (paths_distinct_of_nodup fs es hdist) with ⟨-, a, b, hl⟩ | h
  · rw [hlink a b] at hl
    exact absurd hl (by decide)
  · exact ⟨h.2.2.1, h.2.1, h.1, outer_loop_dry_fs _ _ _ _ rfl⟩

/-- C3, amended, on the three identical files `A`, `C`, `B`: both runs decide
to link `C` and then `B` to `A`; the run without `-n` does so (in the end `B`
and `C` name the inode of `A`), the dry run leaves the filesystem as it was. -/
theorem dry_run_equivalence_witness :
    (((paths trio_table).filterMap id).map trio_fs.resolve).Nodup
      ∧ (scan { default_config with No_do := false } (start trio_table trio_fs)).state.log
          = [Event.oracle 0 1, Event.ln 0 1, Event.oracle 0 2, Event.ln 0 2]
      ∧ ((scan { default_config with No_do := false } (start trio_table trio_fs)).state.fs.dir "C"
            = some (1, 1)
          ∧ (scan { default_config with No_do := false }
              (start trio_table trio_fs)).state.fs.dir "B" = some (1, 1))
      ∧ (scan { default_config with No_do := false } (start trio_table trio_fs)).state.log
          = (scan { default_config with No_do := true } (start trio_table trio_fs)).state.log
      ∧ (scan { default_config with No_do := false } (start trio_table trio_fs)).state.entries
          = (scan { default_config with No_do := true }
              (start trio_table trio_fs)).state.entries
      ∧ (scan { default_config with No_do := false } (start trio_table trio_fs)).abort
          = (scan { default_config with No_do := true } (start trio_table trio_fs)).abort
      ∧ (scan { default_config with No_do := true } (start trio_table trio_fs)).state.fs
          = trio_fs :=
  ⟨by decide, by decide, ⟨by decide, by decide⟩,
    dry_run_equivalence default_config trio_table trio_fs (by decide) (fun _ _ => rfl)⟩

/-! ## Loop rules -/

/-- Invariant rule for the inner loop: a property `J j` of the state at
position `j` that every pass through the body carries to `j + 1` holds, with
the position where the loop stopped, when the loop completes. -/
theorem inner_loop_rule (cfg : Config) (i : Nat) (J : Nat → State → Prop)
    (Q : Abort → State → Prop)
    (hstep : ∀ (j : Nat) (s : State) (ei ej : entry), J j s → s.entries[i]? = some ei →
      s.entries[j]? = some ej → same_window ei ej →
      (inner_body cfg i j ei ej s).holds (J (j + 1)) Q)
    (fuel j : Nat) (s : State) (h : J j s) :
    (inner_loop cfg i fuel j s).holds
      (fun s1 => ∃ j1, J j1 s1 ∧ j ≤ j1 ∧
        (j1 = j + fuel ∨ ∀ ei ej, s1.entries[i]? = some ei → s1.entries[j1]? = some ej →
          ¬ same_window ei ej)) Q := by
  induction fuel generalizing j s with
  | zero => exact ⟨j, h, Nat.le_refl j, Or.inl rfl⟩
  | succ fuel ih =>
    rw [inner_loop]
    cases hi : s.entries[i]? with
    | none => exact ⟨j, h, Nat.le_refl j, Or.inr (fun ei ej h1 => by simp [hi] at h1)⟩
    | some ei =>
      cases hj : s.entries[j]? with
      | none => exact ⟨j, h, Nat.le_refl j, Or.inr (fun ei ej _ h2 => by simp [hj] at h2)⟩
      | some ej =>
        dsimp only
        split
        · rename_i hw
          have hb := hstep j s ei ej h hi hj hw
          cases hout : inner_body cfg i j ei ej s with
          | done s1 =>
            rw [hout] at hb
            dsimp only
            have := ih (j + 1) s1 hb
            cases hl : inner_loop cfg i fuel (j + 1) s1 with
            | done s2 =>
              rw [hl] at this
              obtain ⟨j1, h1, h2, h3⟩ := this
              refine ⟨j1, h1, by omega, ?_⟩
              rcases h3 with h3 | h3
              · exact Or.inl (by omega)
              · exact Or.inr h3
            | aborted w s2 =>
              rw [hl] at this
              exact this
          | aborted w s1 =>
            rw [hout] at hb
            exact hb
        · rename_i hw
          refine ⟨j, h, Nat.le_refl j, Or.inr (fun ei1 ej1 h1 h2 => ?_)⟩
          rw [hi] at h1
          rw [hj] at h2
          simp only [Option.some.injEq] at h1 h2
          rw [← h1, ← h2]
          exact hw

/-- Invariant rule for the outer loop. -/
theorem outer_loop_rule (cfg : Config) (I : Nat → State → Prop) (Q : Abort → State → Prop)
    (hskip : ∀ (i : Nat) (s : State) (ei : entry), I i s → s.entries[i]? = some ei →
      ei.pathname = none → I (i + 1) s)
    (hinner : ∀ (i : Nat) (s : State) (ei : entry), I i s → s.entries[i]? = some ei →
      ei.pathname ≠ none →
      (inner_loop cfg i (s.entries.length - (i + 1)) (i + 1) s).holds (I (i + 1)) Q)
    (fuel i : Nat) (s : State) (h : I i s) :
    (outer_loop cfg fuel i s).holds
      (fun s1 => ∃ i1, I i1 s1 ∧ i ≤ i1 ∧ (i1 = i + fuel ∨ s1.entries[i1]? = none)) Q := by
  induction fuel generalizing i s with
  | zero => exact ⟨i, h, Nat.le_refl i, Or.inl rfl⟩
  | succ fuel ih =>
    rw [outer_loop]
    cases hi : s.entries[i]? with
    | none => exact ⟨i, h, Nat.le_refl i, Or.inr hi⟩
    | some ei =>
      dsimp only
      have finish_up : ∀ s1, I (i + 1) s1 →
          (outer_loop cfg fuel (i + 1) s1).holds
            (fun s1 => ∃ i1, I i1 s1 ∧ i ≤ i1 ∧ (i1 = i + (fuel + 1) ∨ s1.entries[i1]? = none))
            Q := by
        intro s1 h1
        have := ih (i + 1) s1 h1
        cases hl : outer_loop cfg fuel (i + 1) s1 with
        | done s2 =>
          rw [hl] at this
          obtain ⟨i1, a1, a2, a3⟩ := this
          refine ⟨i1, a1, by omega, ?_⟩
          rcases a3 with a3 | a3
          · exact Or.inl (by omega)
          · exact Or.inr a3
        | aborted w s2 =>
          rw [hl] at this
          exact this
      split
      · rename_i hn
        exact finish_up s (hskip i s ei h hi hn)
      · rename_i hn
        have hb := hinner i s ei h hi hn
        cases hout : inner_loop cfg i (s.entries.length - (i + 1)) (i + 1) s with
        | done s1 =>
          rw [hout] at hb
          exact finish_up s1 hb
        | aborted w s1 =>
          rw [hout] at hb
          exact hb

/-! ## The comparator on key differences that fit an `int` -/

/-- A value that fits an `int` is converted unchanged. -/
theorem toInt32_exact (x : Int) (h1 : -2147483648 ≤ x) (h2 : x < 2147483648) :
    toInt32 x = x := by
  unfold toInt32
  omega

/-- On two active records for which the comparator returns the true
difference, "not after" in the comparator is "not after" in the documented
order of sizes, device ids and modification times. -/
theorem comparison_sort_le (cfg : Config) (a b : entry) (ha : a.pathname ≠ none)
    (hb : b.pathname ≠ none) (hf : keys_fit cfg a b)
    (h : comparison_sort cfg a b ≤ 0) :
    (if cfg.Small_first = true then a.statbuf.st_size ≤ b.statbuf.st_size
        else b.statbuf.st_size ≤ a.statbuf.st_size)
      ∧ (a.statbuf.st_size = b.statbuf.st_size → b.statbuf.st_dev ≤ a.statbuf.st_dev)
      ∧ (same_window a b → a.statbuf.st_mtime ≤ b.statbuf.st_mtime) := by
  obtain ⟨f1, f2, f3⟩ := hf
  unfold fits_int at f1 f2 f3
  unfold comparison_sort at h
  rw [if_neg (fun hh => hb hh.1), if_neg hb, if_neg ha] at h
  unfold same_window at f3 ⊢
  by_cases hs : b.statbuf.st_size = a.statbuf.st_size
  · rw [if_neg (fun hh => hh hs)] at h
    have f2 := f2 hs.symm
    by_cases hd : b.statbuf.st_dev = a.statbuf.st_dev
    · rw [if_neg (fun hh => hh hd)] at h
      have f3 := f3 ⟨hs.symm, hd.symm⟩
      by_cases hm : a.statbuf.st_mtime = b.statbuf.st_mtime
      · refine ⟨by split <;> omega, fun _ => by omega, fun _ => by omega⟩
      · rw [if_pos hm, toInt32_exact _ f3.1 f3.2] at h
        refine ⟨by split <;> omega, fun _ => by omega, fun _ => by omega⟩
    · rw [if_pos hd, toInt32_exact _ f2.1 f2.2] at h
      refine ⟨by split <;> omega, fun _ => by omega, fun hh => ?_⟩
      exact absurd hh.2.symm hd
  · rw [if_pos hs] at h
    refine ⟨?_, fun hh => absurd hh.symm hs, fun hh => absurd hh.1.symm hs⟩
    split
    · rename_i hsf
      rw [if_pos hsf] at h f1
      rw [toInt32_exact _ f1.1 f1.2] at h
      omega
    · rename_i hsf
      rw [if_neg hsf] at h f1
      rw [toInt32_exact _ f1.1 f1.2] at h
      omega

/-- On two active records of one window with equal modification times and a
difference of link counts that fits an `int`, "not after" in the comparator
means: at least as many links. -/
theorem comparison_sort_links (cfg : Config) (a b : entry) (ha : a.pathname ≠ none)
    (hb : b.pathname ≠ none) (hw : same_window a b)
    (hm : a.statbuf.st_mtime = b.statbuf.st_mtime)
    (hf : fits_int (b.statbuf.st_nlink - a.statbuf.st_nlink))
    (h : comparison_sort cfg a b ≤ 0) : b.statbuf.st_nlink ≤ a.statbuf.st_nlink := by
  unfold fits_int at hf
  unfold comparison_sort at h
  rw [if_neg (fun hh => hb hh.1), if_neg hb, if_neg ha,
    if_neg (fun hh => hh hw.1.symm), if_neg (fun hh => hh hw.2.symm),
    if_neg (fun hh => hh hm)] at h
  by_cases hn : a.statbuf.st_nlink = b.statbuf.st_nlink
  · omega
  · rw [if_pos hn, toInt32_exact _ hf.1 hf.2] at h
    omega

/-- A relation that holds pairwise in a list holds between a record and any
later one. -/
theorem pairwise_rel (R : entry → entry → Prop) (es : List entry) (h : es.Pairwise R)
    (i j : Nat) (a b : entry) (hi : es[i]? = some a) (hj : es[j]? = some b) (hij : i < j) :
    R a b := by
  obtain ⟨hi1, hi2⟩ := List.getElem?_eq_some.1 hi
  obtain ⟨hj1, hj2⟩ := List.getElem?_eq_some.1 hj
  have := (List.pairwise_iff_getElem.1 h) i j hi1 hj1 hij
  rw [hi2, hj2] at this
  exact this

/-- In a sorted table an earlier record is not put after a later one. -/
theorem sorted_rel (cfg : Config) (es : List entry) (hs : sorted_by cfg es) (i j : Nat)
    (a b : entry) (hi : es[i]? = some a) (hj : es[j]? = some b) (hij : i < j) :
    comparison_sort cfg a b ≤ 0 := by
  obtain ⟨hi1, hi2⟩ := List.getElem?_eq_some.1 hi
  obtain ⟨hj1, hj2⟩ := List.getElem?_eq_some.1 hj
  have := (List.pairwise_iff_getElem.1 hs) i j hi1 hj1 hij
  rw [hi2, hj2] at this
  exact this

/-- Windows are contiguous in a sorted table of active records whose key
differences fit: a record between two records of one window is in that
window. -/
theorem window_contiguous (cfg : Config) (es : List entry) (hs : sorted_by cfg es)
    (hr : differences_fit cfg es) (i m k : Nat) (a b c : entry)
    (hi : es[i]? = some a) (hm : es[m]? = some b) (hk : es[k]? = some c)
    (him : i < m) (hmk : m ≤ k)
    (ha : a.pathname ≠ none) (hb : b.pathname ≠ none) (hc : c.pathname ≠ none)
    (hw : same_window a c) : same_window a b := by
  rcases Nat.eq_or_lt_of_le hmk with e | hlt
  · subst e
    rw [hm] at hk
    simp only [Option.some.injEq] at hk
    rw [hk]
    exact hw
  · obtain ⟨x1, x2, -⟩ := comparison_sort_le cfg a b ha hb
      (pairwise_rel _ es hr i m a b hi hm him) (sorted_rel cfg es hs i m a b hi hm him)
    obtain ⟨y1, y2, -⟩ := comparison_sort_le cfg b c hb hc
      (pairwise_rel _ es hr m k b c hm hk hlt) (sorted_rel cfg es hs m k b c hm hk hlt)
    obtain ⟨w1, w2⟩ := hw
    have hsz : a.statbuf.st_size = b.statbuf.st_size := by
      split at x1
      · rename_i h
        rw [if_pos h] at y1
        omega
      · rename_i h
        rw [if_neg h] at y1
        omega
    have hd1 := x2 hsz
    have hd2 := y2 (by omega)
    exact ⟨hsz, by omega⟩

/-- Writing back a record with the same `lstat` data leaves the `lstat` column
alone. -/
theorem stats_col_set_same (es : List entry) (i : Nat) (a a1 : entry) (h : es[i]? = some a)
    (hp : a1.statbuf = a.statbuf) : stats_col (es.set i a1) = stats_col es := by
  induction es generalizing i with
  | nil => rfl
  | cons x xs ih =>
    cases i with
    | zero =>
      simp only [List.getElem?_cons_zero, Option.some.injEq] at h
      subst h
      simp [stats_col, hp]
    | succ n =>
      simp only [List.getElem?_cons_succ] at h
      have := ih n h
      simp only [stats_col, List.set_cons_succ, List.map_cons] at this ⊢
      rw [this]

/-- Retiring a record leaves the `lstat` column alone. -/
theorem stats_col_retire (es : List entry) (j : Nat) : stats_col (retire es j) = stats_col es := by
  unfold retire
  split
  · rename_i e he
    exact stats_col_set_same es j e _ he rfl
  · rfl

/-- Reading the `lstat` column. -/
theorem stats_col_getElem? (es : List entry) (k : Nat) (e : entry) (h : es[k]? = some e) :
    (stats_col es)[k]? = some e.statbuf := by
  simp [stats_col, h]

/-- A record of a framed table has the `lstat` data of the record of the
original table at its position. -/
theorem col_frame_get (es0 es : List entry) (h : col_frame es0 es) (k : Nat) (e : entry)
    (hk : es[k]? = some e) :
    ∃ e0, es0[k]? = some e0 ∧ e0.statbuf = e.statbuf
      ∧ (e.pathname ≠ none → e0.pathname = e.pathname) := by
  have h1 := stats_col_getElem? es k e hk
  rw [h.2] at h1
  simp only [stats_col, List.getElem?_map, Option.map_eq_some'] at h1
  obtain ⟨e0, h0, hs⟩ := h1
  refine ⟨e0, h0, hs, fun hact => ?_⟩
  obtain ⟨p, hp⟩ := Option.ne_none_iff_exists'.1 hact
  have := path_frame_active es0 es h.1 k p (by rw [paths_getElem? es k e hk, hp])
  rw [paths_getElem? es0 k e0 h0] at this
  simp only [Option.some.injEq] at this
  rw [this, hp]

/-- The loop body leaves the `lstat` column alone. -/
theorem inner_body_stats_col (cfg : Config) (i j : Nat) (ei ej : entry) (s : State)
    (hi : s.entries[i]? = some ei) (hj : s.entries[j]? = some ej) (hij : i ≠ j) :
    stats_col (inner_body cfg i j ei ej s).state.entries = stats_col s.entries := by
  unfold inner_body
  split
  · rfl
  · split
    · exact stats_col_retire s.entries j
    · split
      · rfl
      · rename_i v ei1 ej1 c1 hce
        obtain ⟨⟨-, fs, -⟩, ⟨-, gs, -⟩⟩ :=
          comparison_equal_frame cfg s.fs ei ej ei1 ej1 s.stats c1 v hce
        have hj1 : (s.entries.set i ei1)[j]? = some ej := by
          rw [getElem?_set_some s.entries i j ei ei1 hi, if_neg hij]; exact hj
        have hp : stats_col ((s.entries.set i ei1).set j ej1) = stats_col s.entries := by
          rw [stats_col_set_same _ j ej ej1 hj1 gs, stats_col_set_same _ i ei ei1 hi fs]
        dsimp only
        split
        · rcases (merge_shape cfg i j ei1 ej1
            { s with entries := (s.entries.set i ei1).set j ej1, stats := c1,
                     log := s.log ++ [Event.oracle i j] }).2 with ⟨he, -⟩ | ⟨he, -⟩
          · rw [he]; exact hp
          · rw [he, stats_col_retire]; exact hp
        · exact hp

/-- The loop body keeps the table framed. -/
theorem inner_body_col_frame (cfg : Config) (es0 : List entry) (i j : Nat) (ei ej : entry)
    (s : State) (hi : s.entries[i]? = some ei) (hj : s.entries[j]? = some ej) (hij : i ≠ j)
    (h : col_frame es0 s.entries) :
    col_frame es0 (inner_body cfg i j ei ej s).state.entries := by
  refine ⟨?_, (inner_body_stats_col cfg i j ei ej s hi hj hij).trans h.2⟩
  rcases inner_body_shape cfg i j ei ej s hi hj hij with
    ⟨-, hp, -⟩ | ⟨-, -, hp, -⟩ | ⟨-, -, hp⟩ | ⟨-, -, ⟨hp, -⟩ | ⟨hp, -⟩⟩
  · exact path_frame_of_paths es0 _ _ hp h.1
  · exact path_frame_set_none es0 _ _ j hp h.1
  · exact path_frame_of_paths es0 _ _ hp h.1
  · exact path_frame_of_paths es0 _ _ hp h.1
  · exact path_frame_set_none es0 _ _ j hp h.1

/-- The loop body clears at most cell `j` of the path column, and the only
merge verdict it can add is that for the pair at hand, with `j` active. -/
theorem inner_body_summary (cfg : Config) (i j : Nat) (ei ej : entry) (s : State)
    (hi : s.entries[i]? = some ei) (hj : s.entries[j]? = some ej) (hij : i ≠ j) :
    (paths (inner_body cfg i j ei ej s).state.entries = paths s.entries
        ∨ paths (inner_body cfg i j ei ej s).state.entries = (paths s.entries).set j none)
      ∧ (∀ r k : Nat, Event.ln r k ∈ (inner_body cfg i j ei ej s).state.log →
          Event.ln r k ∈ s.log ∨ (r = i ∧ k = j ∧ ej.pathname ≠ none))
      ∧ (∀ ev, ev ∈ s.log → ev ∈ (inner_body cfg i j ei ej s).state.log) := by
  rcases inner_body_shape cfg i j ei ej s hi hj hij with
    ⟨hl, hp, -⟩ | ⟨-, hl, hp, -⟩ | ⟨-, hl, hp⟩ | ⟨hej, hl, hp⟩
  · rw [hl]
    exact ⟨Or.inl hp, fun r k h => Or.inl h, fun ev h => h⟩
  · rw [hl]
    refine ⟨Or.inr hp, fun r k h => Or.inl ?_, fun ev h => List.mem_append_left _ h⟩
    simpa using h
  · rw [hl]
    refine ⟨Or.inl hp, fun r k h => Or.inl ?_, fun ev h => List.mem_append_left _ h⟩
    simpa using h
  · rw [hl]
    refine ⟨?_, fun r k h => ?_, fun ev h => List.mem_append_left _ h⟩
    · rcases hp with ⟨hp, -⟩ | ⟨hp, -⟩
      · exact Or.inl hp
      · exact Or.inr hp
    · simp only [List.mem_append, List.mem_cons, List.mem_singleton, Event.ln.injEq,
        List.not_mem_nil, or_false, false_or, reduceCtorEq] at h
      rcases h with h | ⟨h1, h2⟩
      · exact Or.inl h
      · exact Or.inr ⟨h1, h2, hej⟩

/-- The loop body keeps the merge verdicts sound. -/
theorem inner_body_verdicts (cfg : Config) (es0 : List entry) (i j : Nat) (ei ej : entry)
    (s : State) (p : String)
    (hi : s.entries[i]? = some ei) (hj : s.entries[j]? = some ej) (hij : i < j)
    (hw : same_window ei ej) (hcf : col_frame es0 s.entries)
    (hact : (paths s.entries)[i]? = some (some p))
    (hv : verdicts_sound es0 (i + 1) s) :
    verdicts_sound es0 (i + 1) (inner_body cfg i j ei ej s).state := by
  obtain ⟨hp, hnew, -⟩ := inner_body_summary cfg i j ei ej s hi hj (Nat.ne_of_lt hij)
  have hkeep : ∀ r : Nat, r < i + 1 → ¬ retired_at s.entries r →
      ¬ retired_at (inner_body cfg i j ei ej s).state.entries r := by
    intro r hr hn hret
    apply hn
    unfold retired_at at hret ⊢
    rcases hp with hp | hp
    · rw [hp] at hret; exact hret
    · rw [hp, List.getElem?_set_ne (by omega)] at hret
      exact hret
  intro r k hk
  rcases hnew r k hk with hold | ⟨rfl, rfl, hej⟩
  · obtain ⟨a1, a2, a3, a4⟩ := hv r k hold
    exact ⟨a1, a2, hkeep r a1 a3, a4⟩
  · have hei : ei.pathname ≠ none := by
      rw [paths_getElem? s.entries r ei hi] at hact
      simp only [Option.some.injEq] at hact
      rw [hact]; simp
    obtain ⟨e0i, h0i, hsi, hpi⟩ := col_frame_get es0 s.entries hcf r ei hi
    obtain ⟨e0j, h0j, hsj, hpj⟩ := col_frame_get es0 s.entries hcf k ej hj
    refine ⟨Nat.lt_succ_self r, hij, hkeep r (Nat.lt_succ_self r) ?_, e0i, e0j, h0i, h0j, ?_, ?_, ?_⟩
    · unfold retired_at
      rw [hact]
      simp
    · unfold same_window at hw ⊢
      rw [hsi, hsj]
      exact hw
    · rw [hpi hei]; exact hei
    · rw [hpj hej]; exact hej

/-- Every merge verdict of a scan of a framed table is sound, whether the scan
completes or aborts. -/
theorem scan_verdicts (cfg : Config) (es : List entry) (fs : FS) :
    ∃ bound, verdicts_sound es bound (scan cfg (start es fs)).state := by
  have key := outer_loop_rule cfg
    (fun i s => col_frame es s.entries ∧ verdicts_sound es i s)
    (fun _ s => ∃ bound, verdicts_sound es bound s)
    (fun i s ei h _ _ => ⟨h.1, fun r k hk => by
      obtain ⟨a1, a2⟩ := h.2 r k hk
      exact ⟨Nat.lt_succ_of_lt a1, a2⟩⟩)
    (fun i s ei h hi hn => by
      obtain ⟨p, hp⟩ := Option.ne_none_iff_exists'.1 hn
      have hact : (paths s.entries)[i]? = some (some p) := by
        rw [paths_getElem? s.entries i ei hi, hp]
      have hv1 : verdicts_sound es (i + 1) s := fun r k hk => by
        obtain ⟨a1, a2⟩ := h.2 r k hk
        exact ⟨Nat.lt_succ_of_lt a1, a2⟩
      have inner := inner_loop_rule cfg i
        (fun j s => i < j ∧ col_frame es s.entries ∧ (paths s.entries)[i]? = some (some p)
          ∧ verdicts_sound es (i + 1) s)
        (fun _ s => ∃ bound, verdicts_sound es bound s)
        (fun j s1 ei1 ej1 hJ h1 h2 hw => by
          obtain ⟨hij, hcf, hact1, hv⟩ := hJ
          have hv2 := inner_body_verdicts cfg es i j ei1 ej1 s1 p h1 h2 hij hw hcf hact1 hv
          have hcf2 := inner_body_col_frame cfg es i j ei1 ej1 s1 h1 h2 (Nat.ne_of_lt hij) hcf
          have hei1 : ei1.pathname ≠ none := by
            rw [paths_getElem? s1.entries i ei1 h1] at hact1
            simp only [Option.some.injEq] at hact1
            rw [hact1]; simp
          have hkeep := (inner_body_terminal cfg i j ei1 ej1 s1 h1 h2 (Nat.ne_of_lt hij)
            hei1).choose_spec.2.2
          cases hout : inner_body cfg i j ei1 ej1 s1 with
          | done s2 =>
            rw [hout] at hv2 hcf2 hkeep
            exact ⟨Nat.lt_succ_of_lt hij, hcf2, hkeep.trans hact1, hv2⟩
          | aborted w s2 =>
            rw [hout] at hv2
            exact ⟨i + 1, hv2⟩)
        (s.entries.length - (i + 1)) (i + 1) s ⟨Nat.lt_succ_self i, h.1, hact, hv1⟩
      cases hout : inner_loop cfg i (s.entries.length - (i + 1)) (i + 1) s with
      | done s1 =>
        rw [hout] at inner
        obtain ⟨j1, ⟨-, hcf, -, hv⟩, -⟩ := inner
        exact ⟨hcf, hv⟩
      | aborted w s1 =>
        rw [hout] at inner
        exact inner)
    (es.length - 1) 0 (start es fs)
    ⟨⟨⟨rfl, fun _ => Or.inl rfl⟩, rfl⟩, fun r k hk => by simp [start] at hk⟩
  unfold scan
  cases hout : outer_loop cfg ((start es fs).entries.length - 1) 0 (start es fs) with
  | done s1 =>
    have : (start es fs).entries.length = es.length := rfl
    rw [this] at hout
    rw [hout] at key
    obtain ⟨i1, ⟨-, hv⟩, -⟩ := key
    exact ⟨i1, hv⟩
  | aborted w s1 =>
    have : (start es fs).entries.length = es.length := rfl
    rw [this] at hout
    rw [hout] at key
    exact key

/-! ## The modification-time check -/

/-- A hash-tier request aborts only on a failed `open`. -/
theorem small_tier_error (fs : FS) (e : entry) (c : Stats) (w : Abort)
    (h : small_tier fs e c = .error w) : w = Abort.cant_open := by
  cases hpp : e.partialhash_present
  · cases hfp : e.filehash_present
    · simp only [small_tier, get_small_hash, hpp, hfp, if_true] at h
      split at h
      · simp only [Except.error.injEq] at h
        exact h.symm
      · simp at h
    · simp [small_tier, get_small_hash, hpp, hfp] at h
  · simp [small_tier, hpp] at h

/-- A full-hash request aborts only on a failed `open`. -/
theorem big_tier_error (fs : FS) (e : entry) (c : Stats) (w : Abort)
    (h : big_tier fs e c = .error w) : w = Abort.cant_open := by
  cases hfp : e.filehash_present
  · simp only [big_tier, get_big_hash, hfp, if_true] at h
    split at h
    · simp only [Except.error.injEq] at h
      exact h.symm
    · split at h
      · simp only [Except.error.injEq] at h
        exact h.symm
      · simp at h
  · simp [big_tier, hfp] at h

/-- The hash cascade aborts only on a failed `open`. -/
theorem hash_cascade_error (fs : FS) (a b : entry) (c : Stats) (w : Abort)
    (h : hash_cascade fs a b c = .error w) : w = Abort.cant_open := by
  unfold hash_cascade at h
  split at h
  · rename_i w1 e1
    simp only [Except.error.injEq] at h
    rw [← h]
    exact small_tier_error fs a c w1 e1
  · split at h
    · rename_i w1 e1
      simp only [Except.error.injEq] at h
      rw [← h]
      exact small_tier_error fs b _ w1 e1
    · dsimp only at h
      split at h
      · simp at h
      · split at h
        · rename_i w1 e1
          simp only [Except.error.injEq] at h
          rw [← h]
          exact big_tier_error fs _ _ w1 e1
        · split at h
          · rename_i w1 e1
            simp only [Except.error.injEq] at h
            rw [← h]
            exact big_tier_error fs _ _ w1 e1
          · split at h <;> simp at h

/-- The oracle never ends in a failed modification-time assertion. -/
theorem comparison_equal_error (cfg : Config) (fs : FS) (a b : entry) (c : Stats) (w : Abort)
    (h : comparison_equal cfg fs a b c = .error w) :
    w = Abort.cant_open ∨ w = Abort.null_pathname := by
  unfold comparison_equal at h
  split at h
  · simp at h
  · split at h
    · simp at h
    · split at h
      · simp at h
      · split at h
        · split at h
          · split at h
            · simp at h
            · exact Or.inl (hash_cascade_error fs a b c w h)
          · simp only [Except.error.injEq] at h
            exact Or.inr h.symm
        · exact Or.inl (hash_cascade_error fs a b c w h)

/-- The last-minute checks end in the modification-time assertion only when
both paths were inspected and the first is newer than the second. -/
theorem last_minute_checks_mtime (fs : FS) (ei ej : entry)
    (h : last_minute_checks fs ei ej = some Abort.assert_mtime) :
    ∃ pi pj a b, ei.pathname = some pi ∧ ej.pathname = some pj ∧ lstat fs pi = some a
      ∧ lstat fs pj = some b ∧ ¬ a.st_mtime ≤ b.st_mtime := by
  unfold last_minute_checks at h
  cases hpi : ei.pathname with
  | none => rw [hpi] at h; simp at h
  | some pi =>
    rw [hpi] at h
    simp only [Option.some_bind] at h
    cases ha : lstat fs pi with
    | none => rw [ha] at h; simp at h
    | some a =>
      rw [ha] at h
      dsimp only at h
      cases hpj : ej.pathname with
      | none => rw [hpj] at h; simp at h
      | some pj =>
        rw [hpj] at h
        simp only [Option.some_bind] at h
        cases hb : lstat fs pj with
        | none => rw [hb] at h; simp at h
        | some b =>
          rw [hb] at h
          dsimp only at h
          split at h
          · simp at h
          · split at h
            · simp at h
            · split at h
              · simp at h
              · split at h
                · rename_i hm
                  exact ⟨pi, pj, a, b, rfl, rfl, ha, hb, hm⟩
                · simp at h

/-- The merge step aborts with what the last-minute checks found, or on a failed
`link`. -/
theorem merge_abort (cfg : Config) (i j : Nat) (ei ej : entry) (s : State) (w : Abort)
    (h : (merge cfg i j ei ej s).abort = some w) :
    last_minute_checks s.fs ei ej = some w ∨ w = Abort.cant_link := by
  unfold merge at h
  dsimp only at h
  split at h
  · rename_i w1 hc
    simp only [Outcome.abort, Option.some.injEq] at h
    rw [← h]
    exact Or.inl hc
  · split at h
    · split at h
      · simp [finish, Outcome.abort] at h
      · split at h
        · simp only [Outcome.abort, Option.some.injEq] at h
          exact Or.inr h.symm
        · simp [finish, Outcome.abort] at h
    · simp [finish, Outcome.abort] at h

/-- The loop body aborts on the modification-time assertion only out of the
last-minute checks on the two records as the oracle left them. -/
theorem inner_body_abort_mtime (cfg : Config) (i j : Nat) (ei ej : entry) (s : State)
    (h : (inner_body cfg i j ei ej s).abort = some Abort.assert_mtime) :
    ∃ ei1 ej1 c1 v, comparison_equal cfg s.fs ei ej s.stats = .ok (v, ei1, ej1, c1)
      ∧ last_minute_checks s.fs ei1 ej1 = some Abort.assert_mtime := by
  unfold inner_body at h
  split at h
  · simp [Outcome.abort] at h
  · split at h
    · simp [Outcome.abort] at h
    · split at h
      · rename_i w hce
        simp only [Outcome.abort, Option.some.injEq] at h
        rcases comparison_equal_error cfg s.fs ei ej s.stats w hce with e | e
        · rw [e] at h; cases h
        · rw [e] at h; cases h
      · rename_i v ei1 ej1 c1 hce
        dsimp only at h
        split at h
        · rcases merge_abort cfg i j ei1 ej1 _ _ h with hm | hm
          · exact ⟨ei1, ej1, c1, v, hce, hm⟩
          · cases hm
        · simp [Outcome.abort] at h

/-- A configuration is itself with its dry-run switch written out. -/
theorem config_eta (cfg : Config) : cfg = { cfg with No_do := cfg.No_do } := by
  cases cfg
  rfl

/-- The dry-run switch does not enter the comparator. -/
theorem sorted_by_no_do (cfg : Config) (b : Bool) (es : List entry) (h : sorted_by cfg es) :
    sorted_by { cfg with No_do := b } es := h

/-- On a sorted table whose key differences fit and whose `lstat` data is a snapshot of
the filesystem, a dry run never fails the modification-time assertion. -/
theorem dry_scan_mtime (cfg : Config) (hdry : cfg.No_do = true) (es : List entry) (fs : FS)
    (hs : sorted_by cfg es) (hr : differences_fit cfg es) (hsnap : snapshot_of fs es) :
    (scan cfg (start es fs)).abort ≠ some Abort.assert_mtime := by
  have key := outer_loop_rule cfg
    (fun _ s => col_frame es s.entries ∧ s.fs = fs)
    (fun w _ => w ≠ Abort.assert_mtime)
    (fun i s ei h _ _ => h)
    (fun i s ei h hi hn => by
      have inner := inner_loop_rule cfg i
        (fun j s => i < j ∧ col_frame es s.entries ∧ s.fs = fs)
        (fun w _ => w ≠ Abort.assert_mtime)
        (fun j s1 ei1 ej1 hJ h1 h2 hw => by
          obtain ⟨hij, hcf, hfs⟩ := hJ
          have hcf2 := inner_body_col_frame cfg es i j ei1 ej1 s1 h1 h2 (Nat.ne_of_lt hij) hcf
          have hfs2 := inner_body_dry_fs cfg i j ei1 ej1 s1 hdry
          cases hout : inner_body cfg i j ei1 ej1 s1 with
          | done s2 =>
            rw [hout] at hcf2 hfs2
            exact ⟨Nat.lt_succ_of_lt hij, hcf2, hfs2.trans hfs⟩
          | aborted w s2 =>
            intro hw1
            have hab : (inner_body cfg i j ei1 ej1 s1).abort = some Abort.assert_mtime := by
              rw [hout, ← hw1]; rfl
            obtain ⟨a1, b1, c1, v, hce, hm⟩ := inner_body_abort_mtime cfg i j ei1 ej1 s1 hab
            obtain ⟨pi, pj, a, b, hpi, hpj, ha, hb, hnm⟩ := last_minute_checks_mtime _ _ _ hm
            obtain ⟨⟨fp, -⟩, ⟨gp, -⟩⟩ := comparison_equal_frame cfg s1.fs ei1 ej1 a1 b1 _ c1 v hce
            rw [fp] at hpi
            rw [gp] at hpj
            rw [hfs] at ha hb
            obtain ⟨e0i, h0i, hsi, hpi0⟩ := col_frame_get es s1.entries hcf i ei1 h1
            obtain ⟨e0j, h0j, hsj, hpj0⟩ := col_frame_get es s1.entries hcf j ej1 h2
            have hpi1 : e0i.pathname = some pi := by rw [hpi0 (by rw [hpi]; simp), hpi]
            have hpj1 : e0j.pathname = some pj := by rw [hpj0 (by rw [hpj]; simp), hpj]
            obtain ⟨sa, hsa, hka⟩ := hsnap e0i (List.getElem?_mem h0i) pi hpi1
            obtain ⟨sb, hsb, hkb⟩ := hsnap e0j (List.getElem?_mem h0j) pj hpj1
            rw [ha] at hsa
            rw [hb] at hsb
            simp only [Option.some.injEq] at hsa hsb
            subst hsa hsb
            simp only [stat.key, Prod.mk.injEq] at hka hkb
            have hw0 : same_window e0i e0j := by
              unfold same_window at hw ⊢
              rw [hsi, hsj]; exact hw
            have hle := (comparison_sort_le cfg e0i e0j (by rw [hpi1]; simp) (by rw [hpj1]; simp)
              (pairwise_rel _ es hr i j e0i e0j h0i h0j hij)
              (sorted_rel cfg es hs i j e0i e0j h0i h0j hij)).2.2 hw0
            apply hnm
            rw [hka.2.2.2, hkb.2.2.2]
            exact hle)
        (s.entries.length - (i + 1)) (i + 1) s ⟨Nat.lt_succ_self i, h.1, h.2⟩
      cases hout : inner_loop cfg i (s.entries.length - (i + 1)) (i + 1) s with
      | done s1 =>
        rw [hout] at inner
        obtain ⟨j1, ⟨-, hcf, hfs⟩, -⟩ := inner
        exact ⟨hcf, hfs⟩
      | aborted w s1 =>
        rw [hout] at inner
        exact inner)
    (es.length - 1) 0 (start es fs) ⟨⟨⟨rfl, fun _ => Or.inl rfl⟩, rfl⟩, rfl⟩
  unfold scan
  have hlen : (start es fs).entries.length = es.length := rfl
  rw [hlen]
  cases hout : outer_loop cfg (es.length - 1) 0 (start es fs) with
  | done s1 => simp [Outcome.abort]
  | aborted w s1 =>
    rw [hout] at key
    simp only [Outcome.abort, ne_eq, Option.some.injEq]
    exact key

/-- On a sorted table whose key differences fit, no directory entry listed twice, whose `lstat`
data is a snapshot of the filesystem, no run fails the modification-time
assertion. -/
theorem scan_mtime (cfg : Config) (es : List entry) (fs : FS)
    (hs : sorted_by cfg es) (hr : differences_fit cfg es) (hsnap : snapshot_of fs es)
    (hdist : (((paths es).filterMap id).map fs.resolve).Nodup) :
    (scan cfg (start es fs)).abort ≠ some Abort.assert_mtime := by
  have hdry := dry_scan_mtime { cfg with No_do := true } rfl es fs
    (sorted_by_no_do cfg true es hs) hr hsnap
  cases hn : cfg.No_do with
  | true =>
    have := config_eta cfg
    rw [hn] at this
    rw [this]
    exact hdry
  | false =>
    have := config_eta cfg
    rw [hn] at this
    rw [this]
    rcases scan_sim cfg es fs (paths_distinct_of_nodup fs es hdist) with ⟨h1, -⟩ | ⟨h1, -⟩
    · rw [h1]; simp
    · rw [h1]; exact hdry

/-- C2: the files `new` (modified at 2^31, in January 2038) and `old`
(modified at 0) are identical, and `new` stands before `old`.  For the pair in
this order `comparison_sort` returns `(int)(2^31 - 0)`, which is negative, so
the table counts as sorted with the newer file first although the older one
is to come first; the scan then decides to keep `new` and retire the older
`old`, and the in-code check that the kept file's modification time is at most
that of the retired one fails on the unchanged filesystem. -/
theorem selection_keeps_newer_file :
    comparison_sort default_config (fresh "new" 1 1 10 2147483648 1 8)
        (fresh "old" 1 2 10 0 1 8) = -2147483648
      ∧ sorted_by default_config epoch_table
      ∧ snapshot_of epoch_fs epoch_table
      ∧ (scan default_config (start epoch_table epoch_fs)).state.log
          = [Event.oracle 0 1, Event.ln 0 1]
      ∧ (scan default_config (start epoch_table epoch_fs)).abort
          = some Abort.assert_mtime
      ∧ (scan { default_config with No_do := true } (start epoch_table epoch_fs)).abort
          = some Abort.assert_mtime := by
  refine ⟨by decide, by decide, ?_, by decide, by decide, by decide⟩
  intro e he p hp
  simp only [epoch_table, List.mem_cons, List.mem_singleton, List.not_mem_nil, or_false] at he
  rcases he with rfl | rfl <;>
    (simp only [fresh, Option.some.injEq] at hp
     subst hp
     exact ⟨_, rfl, rfl⟩)

/-- Where the comparator returns true differences, selection is as documented:
on a table in an order `qsort` with `comparison_sort` may leave, every merge
verdict (keep `i`, retire `j`) of a scan, dry or real, completed or aborted,
has `i` before `j` in the sorted table and `i` still active when the run ends,
both in one window, the modification time of `i` at most that of `j`, and with
equal times, when the difference of the link counts fits an `int`, the link
count of `i` at least that of `j`.  If moreover no directory entry is listed
twice and the `lstat` data of the table is a snapshot of the filesystem, the
last-minute check on the modification times never fails. -/
theorem selection_in_order (cfg : Config) (es : List entry) (fs : FS)
    (hs : sorted_by cfg es) (hr : differences_fit cfg es) :
    (∀ i j : Nat, Event.ln i j ∈ (scan cfg (start es fs)).state.log →
        i < j ∧ ¬ retired_at (scan cfg (start es fs)).state.entries i
          ∧ ∃ ei ej, es[i]? = some ei ∧ es[j]? = some ej ∧ same_window ei ej
              ∧ ei.statbuf.st_mtime ≤ ej.statbuf.st_mtime
              ∧ (ei.statbuf.st_mtime = ej.statbuf.st_mtime →
                  fits_int (ej.statbuf.st_nlink - ei.statbuf.st_nlink) →
                  ej.statbuf.st_nlink ≤ ei.statbuf.st_nlink))
      ∧ (snapshot_of fs es → (((paths es).filterMap id).map fs.resolve).Nodup →
          (scan cfg (start es fs)).abort ≠ some Abort.assert_mtime) := by
  refine ⟨fun i j hij => ?_, fun hsnap hdist => scan_mtime cfg es fs hs hr hsnap hdist⟩
  obtain ⟨bound, hv⟩ := scan_verdicts cfg es fs
  obtain ⟨-, hlt, hact, ei, ej, hi, hj, hw, hai, haj⟩ := hv i j hij
  have hord := sorted_rel cfg es hs i j ei ej hi hj hlt
  have hle := (comparison_sort_le cfg ei ej hai haj
    (pairwise_rel _ es hr i j ei ej hi hj hlt) hord).2.2 hw
  exact ⟨hlt, hact, ei, ej, hi, hj, hw, hle,
    fun hm hf => comparison_sort_links cfg ei ej hai haj hw hm hf hord⟩

/-! ## Convergence -/

/-- The hash cascade on two readable files, in full: it returns; its verdict
compares the digests of the two records; and it leaves both records with the
partial hash present and every hash present equal to the record's digest. -/
theorem hash_cascade_full (fs : FS) (a b : entry) (c : Stats) (pa pb : String)
    (ha hb ga gb : Nat)
    (hpa : a.pathname = some pa) (hpb : b.pathname = some pb)
    (hha : sha1_first_page fs pa = some ha) (hhb : sha1_first_page fs pb = some hb)
    (hga : sha1_whole_file fs pa = some ga) (hgb : sha1_whole_file fs pb = some gb)
    (hwa : a.filehash_present = true → a.partialhash_present = true)
    (hwb : b.filehash_present = true → b.partialhash_present = true) :
    ∃ v a1 b1 c1, hash_cascade fs a b c = .ok (v, a1, b1, c1)
      ∧ (v = 0 ↔ page_digest fs a = page_digest fs b ∧ whole_digest fs a = whole_digest fs b)
      ∧ (a1.partialhash_present = true ∧ some a1.partialhash = page_digest fs a
          ∧ (a1.filehash_present = true → some a1.filehash = whole_digest fs a))
      ∧ (b1.partialhash_present = true ∧ some b1.partialhash = page_digest fs b
          ∧ (b1.filehash_present = true → some b1.filehash = whole_digest fs b)) := by
  obtain ⟨a1, c1, e1, a1p, -, a1f, a1fp, a1pp, a1d, -⟩ :=
    small_tier_ok fs a c pa ha hpa hha hwa
  obtain ⟨b1, c2, e2, b1p, -, b1f, b1fp, b1pp, b1d, -⟩ :=
    small_tier_ok fs b c1 pb hb hpb hhb hwb
  obtain ⟨a2, c3, e3, -, -, a2ph, a2pp, a2fp, a2d⟩ :=
    big_tier_ok fs a1 c2 pa ga (a1p.trans hpa) hga
  obtain ⟨b2, c4, e4, -, -, b2ph, b2pp, b2fp, b2d⟩ :=
    big_tier_ok fs b1 c3 pb gb (b1p.trans hpb) hgb
  rw [whole_digest_congr fs a a1 a1p a1f a1fp] at a2d
  rw [whole_digest_congr fs b b1 b1p b1f b1fp] at b2d
  have va1 : a1.filehash_present = true → some a1.filehash = whole_digest fs a := by
    intro h
    rw [a1fp] at h
    simp [whole_digest, h, a1f]
  have vb1 : b1.filehash_present = true → some b1.filehash = whole_digest fs b := by
    intro h
    rw [b1fp] at h
    simp [whole_digest, h, b1f]
  have fa2 : a2.partialhash_present = true ∧ some a2.partialhash = page_digest fs a
      ∧ (a2.filehash_present = true → some a2.filehash = whole_digest fs a) :=
    ⟨a2pp.trans a1pp, by rw [a2ph]; exact a1d, fun _ => a2d⟩
  have fb2 : b2.partialhash_present = true ∧ some b2.partialhash = page_digest fs b
      ∧ (b2.filehash_present = true → some b2.filehash = whole_digest fs b) :=
    ⟨b2pp.trans b1pp, by rw [b2ph]; exact b1d, fun _ => b2d⟩
  unfold hash_cascade
  rw [e1]; dsimp only
  rw [e2]; dsimp only
  by_cases hm : memcmp a1.partialhash b1.partialhash = 0
  · have hpe : a1.partialhash = b1.partialhash := (memcmp_eq_zero _ _).1 hm
    have hpd : page_digest fs a = page_digest fs b := by rw [← a1d, ← b1d, hpe]
    rw [if_neg (by simpa using hm), e3]; dsimp only
    rw [e4]; dsimp only
    by_cases hm2 : memcmp a2.filehash b2.filehash = 0
    · have hwe : a2.filehash = b2.filehash := (memcmp_eq_zero _ _).1 hm2
      rw [if_neg (by simpa using hm2)]
      refine ⟨_, _, _, _, rfl, ?_, fa2, fb2⟩
      simp [hpd, ← a2d, ← b2d, hwe]
    · rw [if_pos hm2]
      refine ⟨_, _, _, _, rfl, ?_, fa2, fb2⟩
      have : a2.filehash ≠ b2.filehash := fun h => hm2 ((memcmp_eq_zero _ _).2 h)
      simp [hm2, ← a2d, ← b2d, this]
  · have hpe : a1.partialhash ≠ b1.partialhash := fun h => hm ((memcmp_eq_zero _ _).2 h)
    have hpd : page_digest fs a ≠ page_digest fs b := by
      rw [← a1d, ← b1d]; simpa using hpe
    rw [if_pos hm]
    refine ⟨_, _, _, _, rfl, ?_, ⟨a1pp, a1d, va1⟩, ⟨b1pp, b1d, vb1⟩⟩
    simp [hm, hpd]

/-- What the snapshot says about a listed path: it exists, names the object
the record holds, and can be hashed. -/
theorem snapshot_path (fs : FS) (es : List entry) (hsnap : snapshot_of fs es) (e : entry)
    (he : e ∈ es) (p : String) (hp : e.pathname = some p) :
    ∃ st f, lstat fs p = some st ∧ st.key = e.statbuf.key
      ∧ fs.dir p = some (e.statbuf.st_dev, e.statbuf.st_ino)
      ∧ fs.inode (e.statbuf.st_dev, e.statbuf.st_ino) = some f
      ∧ sha1_first_page fs p = some f.page ∧ sha1_whole_file fs p = some f.whole := by
  obtain ⟨st, hl, hk⟩ := hsnap e he p hp
  have hl0 := hl
  unfold lstat at hl
  cases hd : fs.dir p with
  | none => rw [hd] at hl; simp at hl
  | some id =>
    rw [hd] at hl
    dsimp only at hl
    cases hi : fs.inode id with
    | none => rw [hi] at hl; simp at hl
    | some f =>
      rw [hi] at hl
      simp only [Option.some.injEq] at hl
      subst hl
      simp only [stat.key, Prod.mk.injEq] at hk
      have hid : id = (e.statbuf.st_dev, e.statbuf.st_ino) := by
        rw [← hk.1, ← hk.2.1]
      rw [hid] at hi
      refine ⟨_, f, hl0, by simp [stat.key, hk], by rw [hid], hi, ?_, ?_⟩
      · simp [sha1_first_page, openFile, hd, hid, hi]
      · simp [sha1_whole_file, openFile, hd, hid, hi]

/-- The digest of an active record with a sound cache is the digest of its
file. -/
theorem page_digest_sound (fs : FS) (e0 e : entry) (p : String) (h : cache_ok fs e0 e)
    (hp : e.pathname = some p) :
    e0.pathname = some p ∧ page_digest fs e = sha1_first_page fs p
      ∧ whole_digest fs e = sha1_whole_file fs p := by
  obtain ⟨-, hpath, -, hpg, hwh⟩ := h
  have h0 : e0.pathname = some p := by
    rcases hpath with h1 | h1
    · rw [← h1]; exact hp
    · rw [hp] at h1; simp at h1
  refine ⟨h0, ?_, ?_⟩
  · unfold page_digest
    split
    · rename_i hpp
      rw [hpg hpp, h0]
      rfl
    · rw [hp]; rfl
  · unfold whole_digest
    split
    · rename_i hfp
      rw [hwh hfp, h0]
      rfl
    · rw [hp]; rfl

/-- The oracle on two active records of one window that are different on-disk
objects, with sound caches, the fast comparison switched off, on the
filesystem of the snapshot: it returns, its verdict is 0 exactly for the same
content, and it leaves both caches sound. -/
theorem oracle_sound (cfg : Config) (hfast : cfg.Fast_flag = false) (fs : FS)
    (es : List entry) (hsnap : snapshot_of fs es) (e0i e0j ei ej : entry) (c : Stats)
    (pi pj : String) (hmi : e0i ∈ es) (hmj : e0j ∈ es)
    (hci : cache_ok fs e0i ei) (hcj : cache_ok fs e0j ej)
    (hpi : ei.pathname = some pi) (hpj : ej.pathname = some pj)
    (hw : same_window ei ej)
    (hino : ¬ (ei.statbuf.st_dev = ej.statbuf.st_dev ∧ ei.statbuf.st_ino = ej.statbuf.st_ino)) :
    ∃ v a1 b1 c1, comparison_equal cfg fs ei ej c = .ok (v, a1, b1, c1)
      ∧ cache_ok fs e0i a1 ∧ cache_ok fs e0j b1
      ∧ a1.pathname = some pi ∧ b1.pathname = some pj
      ∧ (v = 0 ↔ same_content fs e0i e0j) := by
  obtain ⟨h0i, dpi, dwi⟩ := page_digest_sound fs e0i ei pi hci hpi
  obtain ⟨h0j, dpj, dwj⟩ := page_digest_sound fs e0j ej pj hcj hpj
  obtain ⟨-, fi, -, -, -, -, hhi, hgi⟩ := snapshot_path fs es hsnap e0i hmi pi h0i
  obtain ⟨-, fj, -, -, -, -, hhj, hgj⟩ := snapshot_path fs es hsnap e0j hmj pj h0j
  obtain ⟨v, a1, b1, c1, hcas, hv, ⟨app, apv, afv⟩, ⟨bpp, bpv, bfv⟩⟩ :=
    hash_cascade_full fs ei ej c pi pj fi.page fj.page fi.whole fj.whole hpi hpj hhi hhj hgi hgj
      hci.2.2.1 hcj.2.2.1
  have hce : comparison_equal cfg fs ei ej c = .ok (v, a1, b1, c1) := by
    unfold comparison_equal
    rw [if_neg hino, if_neg (by simp [hw.1]), if_neg (by simp [hw.2]),
      if_neg (by simp [hfast])]
    exact hcas
  obtain ⟨⟨fp, fst, -⟩, ⟨gp, gst, -⟩⟩ := comparison_equal_frame cfg fs ei ej a1 b1 c c1 v hce
  refine ⟨v, a1, b1, c1, hce, ?_, ?_, fp.trans hpi, gp.trans hpj, ?_⟩
  · refine ⟨fst.trans hci.1, Or.inl ((fp.trans hpi).trans h0i.symm), fun _ => app, fun _ => ?_,
      fun h => ?_⟩
    · rw [apv, dpi, h0i]; rfl
    · rw [afv h, dwi, h0i]; rfl
  · refine ⟨gst.trans hcj.1, Or.inl ((gp.trans hpj).trans h0j.symm), fun _ => bpp, fun _ => ?_,
      fun h => ?_⟩
    · rw [bpv, dpj, h0j]; rfl
    · rw [bfv h, dwj, h0j]; rfl
  · rw [hv, dpi, dpj, dwi, dwj]
    unfold same_content same_window
    rw [h0i, h0j, ← hci.1, ← hcj.1]
    simp only [Option.some_bind]
    constructor
    · intro h
      exact ⟨hw, h.1, h.2⟩
    · intro h
      exact ⟨h.2.1, h.2.2⟩

/-- The last-minute checks pass for a reference and a later candidate of its
window that are different on-disk objects, on the filesystem of the snapshot of
a sorted table whose key differences fit. -/
theorem checks_pass (cfg : Config) (fs : FS) (es : List entry) (hs : sorted_by cfg es)
    (hr : differences_fit cfg es) (hsnap : snapshot_of fs es) (i j : Nat) (e0i e0j a1 b1 : entry)
    (pi pj : String) (hi : es[i]? = some e0i) (hj : es[j]? = some e0j) (hij : i < j)
    (h0i : e0i.pathname = some pi) (h0j : e0j.pathname = some pj)
    (hpi : a1.pathname = some pi) (hpj : b1.pathname = some pj)
    (hw : same_window e0i e0j)
    (hino : ¬ (e0i.statbuf.st_dev = e0j.statbuf.st_dev
      ∧ e0i.statbuf.st_ino = e0j.statbuf.st_ino)) :
    last_minute_checks fs a1 b1 = none := by
  obtain ⟨sa, -, hla, hka, -⟩ := snapshot_path fs es hsnap e0i (List.getElem?_mem hi) pi h0i
  obtain ⟨sb, -, hlb, hkb, -⟩ := snapshot_path fs es hsnap e0j (List.getElem?_mem hj) pj h0j
  simp only [stat.key, Prod.mk.injEq] at hka hkb
  have hle := (comparison_sort_le cfg e0i e0j (by rw [h0i]; simp) (by rw [h0j]; simp)
    (pairwise_rel _ es hr i j e0i e0j hi hj hij)
    (sorted_rel cfg es hs i j e0i e0j hi hj hij)).2.2 hw
  unfold last_minute_checks
  rw [hpi, hpj]
  simp only [Option.some_bind]
  rw [hla, hlb]
  dsimp only
  rw [if_neg (by rw [hka.2.2.1, hkb.2.2.1]; simp [hw.1]),
    if_neg (by
      rw [hka.2.1, hkb.2.1]
      intro h
      exact hino ⟨hw.2, h⟩),
    if_neg (by rw [hka.1, hkb.1]; simp [hw.2]),
    if_neg (by rw [hka.2.2.2, hkb.2.2.2]; simp [hle])]

/-- A record of a sound table belongs to a record of the original table. -/
theorem entries_ok_get (fs : FS) (es ents : List entry) (h : entries_ok fs es ents) (k : Nat)
    (e : entry) (hk : ents[k]? = some e) : ∃ e0, es[k]? = some e0 ∧ cache_ok fs e0 e := by
  obtain ⟨hlt, -⟩ := List.getElem?_eq_some.1 hk
  rw [h.1] at hlt
  obtain ⟨e1, h1, hc⟩ := h.2 k es[k] (List.getElem?_eq_getElem hlt)
  rw [hk] at h1
  simp only [Option.some.injEq] at h1
  subst h1
  exact ⟨es[k], List.getElem?_eq_getElem hlt, hc⟩

/-- Writing back a record with a sound cache keeps the table sound. -/
theorem entries_ok_set (fs : FS) (es ents : List entry) (h : entries_ok fs es ents) (i : Nat)
    (e0 e a1 : entry) (h0 : es[i]? = some e0) (hi : ents[i]? = some e)
    (hc : cache_ok fs e0 a1) : entries_ok fs es (ents.set i a1) := by
  refine ⟨by rw [List.length_set]; exact h.1, fun k e0k hk => ?_⟩
  rw [getElem?_set_some ents i k e a1 hi]
  by_cases hik : i = k
  · subst hik
    rw [h0] at hk
    simp only [Option.some.injEq] at hk
    subst hk
    exact ⟨a1, by simp, hc⟩
  · rw [if_neg hik]
    exact h.2 k e0k hk

/-- Retiring a record keeps the table sound. -/
theorem entries_ok_retire (fs : FS) (es ents : List entry) (h : entries_ok fs es ents) (j : Nat) :
    entries_ok fs es (retire ents j) := by
  unfold retire
  split
  · rename_i e he
    obtain ⟨e0, h0, hc⟩ := entries_ok_get fs es ents h j e he
    exact entries_ok_set fs es ents h j e0 e _ h0 he
      ⟨hc.1, Or.inr rfl, hc.2.2.1, hc.2.2.2.1, hc.2.2.2.2⟩
  · exact h

/-- One pass through the loop body, seen from outside: what a new state must
satisfy for the inner invariant to move from `j` to `j + 1`. -/
theorem inner_inv_step (fs : FS) (es : List entry) (i : Nat) (p : String) (j : Nat)
    (s s1 : State) (hJ : inner_inv fs es i p j s) (htab : table_ok fs es s1)
    (hpaths : paths s1.entries = paths s.entries
      ∨ paths s1.entries = (paths s.entries).set j none)
    (hold : ∀ ev, ev ∈ s.log → ev ∈ s1.log)
    (hnew : ∀ r k : Nat, Event.ln r k ∈ s1.log → Event.ln r k ∈ s.log
      ∨ (r = i ∧ k = j ∧ ¬ retired_at s.entries j ∧ retired_at s1.entries j))
    (hjust : ¬ retired_at s.entries j → retired_at s1.entries j →
      ∃ e0i e0j, es[i]? = some e0i ∧ es[j]? = some e0j ∧ same_content fs e0i e0j
        ∧ (Event.ln i j ∈ s1.log
          ∨ ((e0i.statbuf.st_dev = e0j.statbuf.st_dev
                ∧ e0i.statbuf.st_ino = e0j.statbuf.st_ino)
              ∧ ∀ r1 : Nat, Event.ln r1 j ∉ s1.log)))
    (hdiff : ¬ retired_at s1.entries j → ∀ e0i e0j, es[i]? = some e0i → es[j]? = some e0j →
      ¬ same_content fs e0i e0j) :
    inner_inv fs es i p (j + 1) s1 := by
  obtain ⟨hij, -, hact, hjus, hver, hset, hbetween⟩ := hJ
  have hmono : ∀ k, retired_at s.entries k → retired_at s1.entries k := by
    intro k hk
    unfold retired_at at hk ⊢
    rcases hpaths with h | h
    · rw [h]; exact hk
    · rw [h]; exact retired_set_none _ j k hk
  have hback : ∀ k, k ≠ j → retired_at s1.entries k → retired_at s.entries k := by
    intro k hkj hk
    unfold retired_at at hk ⊢
    rcases hpaths with h | h
    · rw [h] at hk; exact hk
    · rw [h, List.getElem?_set_ne (Ne.symm hkj)] at hk
      exact hk
  refine ⟨Nat.lt_succ_of_lt hij, htab, ?_, ?_, ?_, ?_, ?_⟩
  · rcases hpaths with h | h
    · rw [h]; exact hact
    · rw [h, List.getElem?_set_ne (by omega)]; exact hact
  · intro k hk
    by_cases hks : retired_at s.entries k
    · obtain ⟨r, er, ek, hr1, hr2, h0r, h0k, hnr, hsc, hev⟩ := hjus k hks
      refine ⟨r, er, ek, hr1, hr2, h0r, h0k, fun h => hnr (hback r (by omega) h), hsc, ?_⟩
      rcases hev with hev | ⟨hino, hno⟩
      · exact Or.inl (hold _ hev)
      · refine Or.inr ⟨hino, fun r1 hr1 => ?_⟩
        rcases hnew r1 k hr1 with h | ⟨-, hkj, hn, -⟩
        · exact hno r1 h
        · rw [hkj] at hks
          exact hn hks
    · have hkj : k = j := by
        by_contra hne
        exact hks (hback k hne hk)
      subst hkj
      obtain ⟨e0i, e0j, h0i, h0j, hsc, hev⟩ := hjust hks hk
      refine ⟨i, e0i, e0j, Nat.lt_succ_self i, hij, h0i, h0j, ?_, hsc, hev⟩
      intro h
      have := hback i (by omega) h
      unfold retired_at at this
      rw [hact] at this
      simp at this
  · intro r k hk
    rcases hnew r k hk with h | ⟨-, hkj, -, hr⟩
    · exact hmono k (hver r k h)
    · rw [hkj]; exact hr
  · intro r k er ek hr1 hr2 hnr h0r h0k hsc
    exact hmono k (hset r k er ek hr1 hr2 (fun h => hnr (hmono r h)) h0r h0k hsc)
  · intro k e0i ek hik hkj h0i h0k hsc
    by_cases hlt : k < j
    · exact hmono k (hbetween k e0i ek hik hlt h0i h0k hsc)
    · have : k = j := by omega
      subst this
      by_contra hn
      exact hdiff hn e0i ek h0i h0k hsc

/-- Two listed records that are one on-disk object hold the same content. -/
theorem same_inode_same_content (fs : FS) (es : List entry) (hsnap : snapshot_of fs es)
    (a b : entry) (ha : a ∈ es) (hb : b ∈ es) (pa pb : String) (hpa : a.pathname = some pa)
    (hpb : b.pathname = some pb) (hw : same_window a b)
    (hino : a.statbuf.st_dev = b.statbuf.st_dev ∧ a.statbuf.st_ino = b.statbuf.st_ino) :
    same_content fs a b := by
  obtain ⟨-, fa, -, -, -, hia, hha, hga⟩ := snapshot_path fs es hsnap a ha pa hpa
  obtain ⟨-, fb, -, -, -, hib, hhb, hgb⟩ := snapshot_path fs es hsnap b hb pb hpb
  rw [hino.1, hino.2, hib] at hia
  simp only [Option.some.injEq] at hia
  subst hia
  refine ⟨hw, ?_, ?_⟩
  · rw [hpa, hpb]
    simp only [Option.some_bind]
    rw [hha, hhb]
  · rw [hpa, hpb]
    simp only [Option.some_bind]
    rw [hga, hgb]

/-- One pass through the loop body of a dry run, the fast comparison off, on a
sorted snapshot table: it does not abort and carries the inner invariant from
`j` to `j + 1`. -/
theorem inner_body_converges (cfg : Config) (hfast : cfg.Fast_flag = false)
    (hdry : cfg.No_do = true) (fs : FS) (es : List entry) (hs : sorted_by cfg es)
    (hr : differences_fit cfg es) (hsnap : snapshot_of fs es) (i : Nat) (p : String) (j : Nat)
    (s : State) (ei ej : entry) (hJ : inner_inv fs es i p j s)
    (hi : s.entries[i]? = some ei) (hj : s.entries[j]? = some ej) (hw : same_window ei ej) :
    (inner_body cfg i j ei ej s).holds (inner_inv fs es i p (j + 1)) (fun _ _ => False) := by
  have hij : i < j := hJ.1
  obtain ⟨hfs, hent⟩ := hJ.2.1
  have hact := hJ.2.2.1
  have hver := hJ.2.2.2.2.1
  obtain ⟨e0i, h0i, hci⟩ := entries_ok_get fs es s.entries hent i ei hi
  obtain ⟨e0j, h0j, hcj⟩ := entries_ok_get fs es s.entries hent j ej hj
  have hei : ei.pathname = some p := by
    rw [paths_getElem? s.entries i ei hi] at hact
    simpa using hact
  have hw0 : same_window e0i e0j := by
    unfold same_window at hw ⊢
    rw [← hci.1, ← hcj.1]
    exact hw
  have huniq : ∀ (a b : entry), es[i]? = some a → es[j]? = some b → a = e0i ∧ b = e0j := by
    intro a b ha hb
    rw [h0i] at ha
    rw [h0j] at hb
    simp only [Option.some.injEq] at ha hb
    exact ⟨ha.symm, hb.symm⟩
  have hretj : ∀ ents : List entry, paths ents = (paths s.entries).set j none →
      retired_at ents j := by
    intro ents h
    unfold retired_at
    rw [h]
    apply List.getElem?_set_self
    rw [paths_length]
    exact (List.getElem?_eq_some.1 hj).1
  by_cases hej : ej.pathname = none
  · have hbody : inner_body cfg i j ei ej s = .done s := by
      unfold inner_body
      rw [if_pos hej]
    rw [hbody]
    have hrj : retired_at s.entries j := by
      unfold retired_at
      rw [paths_getElem? s.entries j ej hj, hej]
    exact inner_inv_step fs es i p j s s hJ hJ.2.1 (Or.inl rfl) (fun _ h => h)
      (fun r k h => Or.inl h) (fun hn _ => absurd hrj hn) (fun hn => absurd hrj hn)
  · obtain ⟨pj, hpj⟩ := Option.ne_none_iff_exists'.1 hej
    have hnrj : ¬ retired_at s.entries j := by
      unfold retired_at
      rw [paths_getElem? s.entries j ej hj, hpj]
      simp
    have hnoln : ∀ r1 : Nat, Event.ln r1 j ∉ s.log := fun r1 h => hnrj (hver r1 j h)
    obtain ⟨hp0i, -⟩ := page_digest_sound fs e0i ei p hci hei
    obtain ⟨hp0j, -⟩ := page_digest_sound fs e0j ej pj hcj hpj
    by_cases hino : ei.statbuf.st_dev = ej.statbuf.st_dev
        ∧ ei.statbuf.st_ino = ej.statbuf.st_ino
    · have hbody : inner_body cfg i j ei ej s =
          .done { s with entries := retire s.entries j,
                         log := s.log ++ [Event.existing i j] } := by
        unfold inner_body
        rw [if_neg hej, if_pos hino]
      rw [hbody]
      have hino0 : e0i.statbuf.st_dev = e0j.statbuf.st_dev
          ∧ e0i.statbuf.st_ino = e0j.statbuf.st_ino := by
        rw [← hci.1, ← hcj.1]
        exact hino
      refine inner_inv_step fs es i p j s _ hJ ⟨hfs, entries_ok_retire fs es _ hent j⟩
        (Or.inr (paths_retire _ j)) (fun _ h => List.mem_append_left _ h)
        (fun r k h => Or.inl ?_) (fun _ _ => ⟨e0i, e0j, h0i, h0j,
          same_inode_same_content fs es hsnap e0i e0j (List.getElem?_mem h0i)
            (List.getElem?_mem h0j) p pj hp0i hp0j hw0 hino0, Or.inr ⟨hino0, fun r1 h => ?_⟩⟩)
        (fun hn => absurd (hretj _ (paths_retire _ j)) hn)
      · simpa using h
      · apply hnoln r1
        simpa using h
    · obtain ⟨v, a1, b1, c1, hce0, hca, hcb, hpa, hpb, hv⟩ :=
        oracle_sound cfg hfast fs es hsnap e0i e0j ei ej s.stats p pj (List.getElem?_mem h0i)
          (List.getElem?_mem h0j) hci hcj hei hpj hw hino
      have hce : comparison_equal cfg s.fs ei ej s.stats = .ok (v, a1, b1, c1) := by
        rw [hfs]; exact hce0
      have hj1 : (s.entries.set i a1)[j]? = some ej := by
        rw [getElem?_set_some s.entries i j ei a1 hi, if_neg (Nat.ne_of_lt hij)]; exact hj
      have hp : paths ((s.entries.set i a1).set j b1) = paths s.entries := by
        rw [paths_set_same _ j ej b1 hj1 (hpb.trans hpj.symm),
          paths_set_same _ i ei a1 hi (hpa.trans hei.symm)]
      have hent1 : entries_ok fs es ((s.entries.set i a1).set j b1) :=
        entries_ok_set fs es _ (entries_ok_set fs es _ hent i e0i ei a1 h0i hi hca) j e0j ej b1
          h0j hj1 hcb
      by_cases hv0 : v = 0
      · have hino0 : ¬ (e0i.statbuf.st_dev = e0j.statbuf.st_dev
            ∧ e0i.statbuf.st_ino = e0j.statbuf.st_ino) := by
          rw [← hci.1, ← hcj.1]
          exact hino
        have hchk : last_minute_checks s.fs a1 b1 = none := by
          rw [hfs]
          exact checks_pass cfg fs es hs hr hsnap i j e0i e0j a1 b1 p pj h0i h0j hij hp0i hp0j
            hpa hpb hw0 hino0
        have hbody : inner_body cfg i j ei ej s =
            .done ⟨retire ((s.entries.set i a1).set j b1) j, s.fs,
              { credit_blocks b1 c1 with Unlinks := (credit_blocks b1 c1).Unlinks + 1 },
              s.log ++ [Event.oracle i j] ++ [Event.ln i j]⟩ := by
          unfold inner_body
          rw [if_neg hej, if_neg hino, hce]
          dsimp only
          rw [if_pos hv0]
          unfold merge
          dsimp only
          rw [hchk]
          dsimp only
          rw [if_neg (by simp [hdry])]
          rfl
        rw [hbody]
        have hp2 : paths (retire ((s.entries.set i a1).set j b1) j)
            = (paths s.entries).set j none := by
          rw [paths_retire, hp]
        refine inner_inv_step fs es i p j s _ hJ ⟨hfs, entries_ok_retire fs es _ hent1 j⟩
          (Or.inr hp2) (fun _ h => List.mem_append_left _ (List.mem_append_left _ h))
          (fun r k h => ?_) (fun _ _ => ⟨e0i, e0j, h0i, h0j, hv.1 hv0, Or.inl ?_⟩)
          (fun hn => absurd (hretj _ hp2) hn)
        · simp only [List.mem_append, List.mem_singleton, Event.ln.injEq, reduceCtorEq,
            or_false] at h
          rcases h with h | ⟨h1, h2⟩
          · exact Or.inl h
          · exact Or.inr ⟨h1, h2, hnrj, hretj _ hp2⟩
        · simp
      · have hbody : inner_body cfg i j ei ej s =
            .done ⟨(s.entries.set i a1).set j b1, s.fs, c1, s.log ++ [Event.oracle i j]⟩ := by
          unfold inner_body
          rw [if_neg hej, if_neg hino, hce]
          dsimp only
          rw [if_neg hv0]
        rw [hbody]
        refine inner_inv_step fs es i p j s _ hJ ⟨hfs, hent1⟩ (Or.inl hp)
          (fun _ h => List.mem_append_left _ h) (fun r k h => Or.inl ?_)
          (fun hn hr1 => ?_) (fun _ a b ha hb hsc => ?_)
        · simpa using h
        · exfalso
          apply hn
          unfold retired_at at hr1 ⊢
          rw [hp] at hr1
          exact hr1
        · obtain ⟨rfl, rfl⟩ := huniq a b ha hb
          exact hv0 (hv.2 hsc)

/-- Same content is symmetric. -/
theorem same_content_symm (fs : FS) (a b : entry) (h : same_content fs a b) :
    same_content fs b a :=
  ⟨⟨h.1.1.symm, h.1.2.symm⟩, h.2.1.symm, h.2.2.symm⟩

/-- Same content is transitive. -/
theorem same_content_trans (fs : FS) (a b c : entry) (h1 : same_content fs a b)
    (h2 : same_content fs b c) : same_content fs a c :=
  ⟨⟨h1.1.1.trans h2.1.1, h1.1.2.trans h2.1.2⟩, h1.2.1.trans h2.2.1, h1.2.2.trans h2.2.2⟩

/-- A dry run, the fast comparison off, on a sorted table of active hash-free
records whose key differences fit and whose `lstat` data is a snapshot of the filesystem:
it completes; every retired record was retired under an earlier, still active
record of its content; and of two active records the later one does not have
the content of the earlier one. -/
theorem dry_scan_converges (cfg : Config) (hfast : cfg.Fast_flag = false)
    (hdry : cfg.No_do = true) (fs : FS) (es : List entry) (hs : sorted_by cfg es)
    (hr : differences_fit cfg es) (hsnap : snapshot_of fs es)
    (hall : ∀ e ∈ es, e.pathname ≠ none)
    (hfresh : ∀ e ∈ es, e.partialhash_present = false ∧ e.filehash_present = false) :
    ∃ sF bound, scan cfg (start es fs) = .done sF ∧ table_ok fs es sF
      ∧ justified fs es bound sF
      ∧ ∀ (a b : Nat) (ea eb : entry), a < b → es[a]? = some ea → es[b]? = some eb →
          ¬ retired_at sF.entries a → same_content fs ea eb → retired_at sF.entries b := by
  have key := outer_loop_rule cfg (outer_inv fs es) (fun _ _ => False)
    (fun i s ei h hi hn => by
      obtain ⟨htab, hjus, hver, hset⟩ := h
      refine ⟨htab, fun k hk => ?_, hver, fun r k er ek hr1 hr2 hnr h0r h0k hsc => ?_⟩
      · obtain ⟨r, er, ek, a1, a2⟩ := hjus k hk
        exact ⟨r, er, ek, Nat.lt_succ_of_lt a1, a2⟩
      · rcases Nat.lt_succ_iff_lt_or_eq.1 hr1 with hlt | heq
        · exact hset r k er ek hlt hr2 hnr h0r h0k hsc
        · exfalso
          apply hnr
          unfold retired_at
          rw [heq, paths_getElem? s.entries i ei hi, hn])
    (fun i s ei h hi hn => by
      obtain ⟨htab, hjus, hver, hset⟩ := h
      obtain ⟨p, hp⟩ := Option.ne_none_iff_exists'.1 hn
      have hact : (paths s.entries)[i]? = some (some p) := by
        rw [paths_getElem? s.entries i ei hi, hp]
      have hstart : inner_inv fs es i p (i + 1) s :=
        ⟨Nat.lt_succ_self i, htab, hact, fun k hk => by
            obtain ⟨r, er, ek, a1, a2⟩ := hjus k hk
            exact ⟨r, er, ek, Nat.lt_succ_of_lt a1, a2⟩,
          hver, hset, fun k _ _ h1 h2 => by omega⟩
      have inner := inner_loop_rule cfg i (inner_inv fs es i p) (fun _ _ => False)
        (fun j s1 ei1 ej1 hJ h1 h2 hw =>
          inner_body_converges cfg hfast hdry fs es hs hr hsnap i p j s1 ei1 ej1 hJ h1 h2 hw)
        (s.entries.length - (i + 1)) (i + 1) s hstart
      cases hout : inner_loop cfg i (s.entries.length - (i + 1)) (i + 1) s with
      | aborted w s1 =>
        rw [hout] at inner
        exact inner
      | done s1 =>
        rw [hout] at inner
        obtain ⟨j1, ⟨-, htab1, hact1, hjus1, hver1, hset1, hbet1⟩, hj1, hstop⟩ := inner
        refine ⟨htab1, hjus1, hver1, fun r k er ek hr1 hr2 hnr h0r h0k hsc => ?_⟩
        rcases Nat.lt_succ_iff_lt_or_eq.1 hr1 with hlt | heq
        · exact hset1 r k er ek hlt hr2 hnr h0r h0k hsc
        · subst heq
          by_cases hkj : k < j1
          · exact hbet1 k er ek hr2 hkj h0r h0k hsc
          · exfalso
            have hklt : k < es.length := (List.getElem?_eq_some.1 h0k).1
            have hlen : s.entries.length = es.length := htab.2.1
            rcases hstop with hstop | hstop
            · omega
            · have hj1lt : j1 < es.length := by omega
              obtain ⟨c1, hc1, hcc1⟩ := htab1.2.2 j1 es[j1] (List.getElem?_eq_getElem hj1lt)
              obtain ⟨ci, hci, hcci⟩ := htab1.2.2 r er h0r
              apply hstop ci c1 hci hc1
              have hwc := window_contiguous cfg es hs hr r j1 k er es[j1] ek h0r
                (List.getElem?_eq_getElem hj1lt) h0k (by omega) (by omega)
                (hall er (List.getElem?_mem h0r))
                (hall _ (List.getElem_mem hj1lt))
                (hall ek (List.getElem?_mem h0k)) hsc.1
              unfold same_window at hwc ⊢
              rw [hcci.1, hcc1.1]
              exact hwc)
    (es.length - 1) 0 (start es fs)
    ⟨⟨rfl, rfl, fun k e0 hk => ⟨e0, hk, rfl, Or.inl rfl,
        fun h => by rw [(hfresh e0 (List.getElem?_mem hk)).2] at h; exact absurd h (by decide),
        fun h => by rw [(hfresh e0 (List.getElem?_mem hk)).1] at h; exact absurd h (by decide),
        fun h => by rw [(hfresh e0 (List.getElem?_mem hk)).2] at h; exact absurd h (by decide)⟩⟩,
      fun k hk => by
        exfalso
        unfold retired_at at hk
        have hk1 : (paths es)[k]? = some none := hk
        simp only [paths, List.getElem?_map, Option.map_eq_some'] at hk1
        obtain ⟨e, he, hn⟩ := hk1
        exact hall e (List.getElem?_mem he) hn,
      fun r k hk => by simp [start] at hk,
      fun r k er ek hr1 => by omega⟩
  unfold scan
  have hlen : (start es fs).entries.length = es.length := rfl
  rw [hlen]
  cases hout : outer_loop cfg (es.length - 1) 0 (start es fs) with
  | aborted w s1 =>
    rw [hout] at key
    exact absurd key id
  | done sF =>
    rw [hout] at key
    obtain ⟨i1, ⟨htab, hjus, -, hset⟩, -, hstop⟩ := key
    refine ⟨sF, i1, rfl, htab, hjus, fun a b ea eb hab h0a h0b hna hsc => ?_⟩
    have hblt : b < es.length := (List.getElem?_eq_some.1 h0b).1
    have hai : a < i1 := by
      rcases hstop with h | h
      · omega
      · rw [List.getElem?_eq_none_iff, htab.2.1] at h
        omega
    exact hset a b ea eb hai hab hna h0a h0b hsc

/-- Same content is reflexive. -/
theorem same_content_refl (fs : FS) (a : entry) : same_content fs a a :=
  ⟨⟨rfl, rfl⟩, rfl, rfl⟩

/-- The table of `A`, `C`, `B` holds what `lstat` reports. -/
theorem trio_snapshot : snapshot_of trio_fs trio_table := by
  intro e he p hp
  simp only [trio_table, List.mem_cons, List.mem_singleton, List.not_mem_nil, or_false] at he
  rcases he with rfl | rfl | rfl <;>
    (simp only [fresh, Option.some.injEq] at hp
     subst hp
     exact ⟨_, rfl, rfl⟩)

/-- A first-tier request touches neither full-hash counter. -/
theorem small_tier_full_counters (fs : FS) (e e1 : entry) (c c1 : Stats)
    (h : small_tier fs e c = .ok (e1, c1)) :
    c1.Full_hashes_computed = c.Full_hashes_computed
      ∧ c1.Full_hash_hits = c.Full_hash_hits := by
  cases hpp : e.partialhash_present
  · cases hfp : e.filehash_present
    · simp only [small_tier, get_small_hash, hpp, hfp, if_true] at h
      split at h
      · exact absurd h (by simp)
      · simp only [Except.ok.injEq, Prod.mk.injEq] at h
        obtain ⟨rfl, rfl⟩ := h
        exact ⟨rfl, rfl⟩
    · simp [small_tier, get_small_hash, hpp, hfp] at h
      obtain ⟨rfl, rfl⟩ := h
      exact ⟨rfl, rfl⟩
  · rw [small_tier_hit fs e c hpp] at h
    simp only [Except.ok.injEq, Prod.mk.injEq] at h
    obtain ⟨rfl, rfl⟩ := h
    exact ⟨rfl, rfl⟩

/-- A full hash computation leaves `Full_hash_hits` alone. -/
theorem count_big_hash_hits (fs : FS) (p : String) (c : Stats) :
    (count_big_hash fs p c).Full_hash_hits = c.Full_hash_hits := by
  unfold count_big_hash
  split <;> rfl

/-- A second-tier request adds one to exactly one of the two full-hash
counters. -/
theorem big_tier_full_counters (fs : FS) (e e1 : entry) (c c1 : Stats)
    (h : big_tier fs e c = .ok (e1, c1)) :
    c.Full_hashes_computed ≤ c1.Full_hashes_computed
      ∧ c.Full_hash_hits ≤ c1.Full_hash_hits
      ∧ c1.Full_hashes_computed + c1.Full_hash_hits
          = c.Full_hashes_computed + c.Full_hash_hits + 1 := by
  cases hfp : e.filehash_present
  · simp only [big_tier, get_big_hash, hfp, if_true] at h
    split at h
    · exact absurd h (by simp)
    · split at h
      · exact absurd h (by simp)
      · simp only [Except.ok.injEq, Prod.mk.injEq] at h
        obtain ⟨rfl, rfl⟩ := h
        rw [count_big_hash_full, count_big_hash_hits]
        omega
  · rw [big_tier_hit fs e c hfp] at h
    simp only [Except.ok.injEq, Prod.mk.injEq] at h
    obtain ⟨rfl, rfl⟩ := h
    dsimp only
    omega

/-- What a completed hash cascade did to the full-hash counters: two requests
when the partial hashes were found equal, none otherwise. -/
theorem hash_cascade_hits (fs : FS) (a b a1 b1 : entry) (c c1 : Stats) (v : Int)
    (h : hash_cascade fs a b c = .ok (v, a1, b1, c1)) :
    c.Full_hashes_computed ≤ c1.Full_hashes_computed
      ∧ c.Full_hash_hits ≤ c1.Full_hash_hits
      ∧ c1.Full_hashes_computed + c1.Full_hash_hits
          = c.Full_hashes_computed + c.Full_hash_hits
            + 2 * bit (partial_hashes_equal fs a b c) := by
  unfold hash_cascade at h
  unfold partial_hashes_equal
  split at h
  · exact absurd h (by simp)
  · rename_i a2 c2 e2
    have fa := small_tier_full_counters fs a a2 c c2 e2
    split at h
    · exact absurd h (by simp)
    · rename_i b2 c3 e3
      have fb := small_tier_full_counters fs b b2 c2 c3 e3
      dsimp only at h ⊢
      split at h
      · rename_i hne
        simp only [Except.ok.injEq, Prod.mk.injEq] at h
        obtain ⟨-, rfl, rfl, rfl⟩ := h
        rw [decide_eq_false hne]
        have hb : bit false = 0 := rfl
        rw [hb]
        omega
      · rename_i heq
        have heq1 : memcmp a2.partialhash b2.partialhash = 0 := by
          by_contra hc
          exact heq hc
        rw [decide_eq_true heq1]
        split at h
        · exact absurd h (by simp)
        · rename_i a3 c4 e4
          have ga := big_tier_full_counters fs a2 a3 c3 c4 e4
          split at h
          · exact absurd h (by simp)
          · rename_i b3 c5 e5
            have gb := big_tier_full_counters fs b2 b3 c4 c5 e5
            have key : c.Full_hashes_computed ≤ c5.Full_hashes_computed
                ∧ c.Full_hash_hits ≤ c5.Full_hash_hits
                ∧ c5.Full_hashes_computed + c5.Full_hash_hits
                    = c.Full_hashes_computed + c.Full_hash_hits + 2 * bit true := by
              have hb : bit true = 1 := rfl
              rw [hb]
              omega
            split at h
            · simp only [Except.ok.injEq, Prod.mk.injEq] at h
              obtain ⟨-, rfl, rfl, rfl⟩ := h
              exact key
            · simp only [Except.ok.injEq, Prod.mk.injEq] at h
              obtain ⟨-, rfl, rfl, rfl⟩ := h
              exact key

/-- What a completed oracle call did to the full-hash counters: two requests
when it found the partial hashes equal, none otherwise. -/
theorem comparison_equal_hits (cfg : Config) (fs : FS) (a b a1 b1 : entry) (c c1 : Stats)
    (v : Int) (h : comparison_equal cfg fs a b c = .ok (v, a1, b1, c1)) :
    c.Full_hashes_computed ≤ c1.Full_hashes_computed
      ∧ c.Full_hash_hits ≤ c1.Full_hash_hits
      ∧ c1.Full_hashes_computed + c1.Full_hash_hits
          = c.Full_hashes_computed + c.Full_hash_hits
            + 2 * bit (partial_hit cfg fs a b c) := by
  have hb : bit false = 0 := rfl
  have same : ∀ w : Int, (Except.ok (w, a, b, c) : Except Abort _) = .ok (v, a1, b1, c1) →
      c.Full_hashes_computed ≤ c1.Full_hashes_computed
        ∧ c.Full_hash_hits ≤ c1.Full_hash_hits
        ∧ c1.Full_hashes_computed + c1.Full_hash_hits
            = c.Full_hashes_computed + c.Full_hash_hits + 2 * bit false := by
    intro w hw
    simp only [Except.ok.injEq, Prod.mk.injEq] at hw
    obtain ⟨-, rfl, rfl, rfl⟩ := hw
    rw [hb]
    omega
  unfold comparison_equal at h
  unfold partial_hit
  split at h
  · rename_i h1
    rw [if_pos h1]
    exact same _ h
  · rename_i h1
    rw [if_neg h1]
    split at h
    · rename_i h2
      rw [if_pos h2]
      exact same _ h
    · rename_i h2
      rw [if_neg h2]
      split at h
      · rename_i h3
        rw [if_pos h3]
        exact same _ h
      · rename_i h3
        rw [if_neg h3]
        split at h
        · rename_i h4
          rw [if_pos h4]
          split at h
          · split at h
            · rename_i h5
              rw [if_pos h5]
              exact same _ h
            · rename_i h5
              rw [if_neg h5]
              exact hash_cascade_hits fs a b a1 b1 c c1 v h
          · exact absurd h (by simp)
        · rename_i h4
          rw [if_neg h4]
          exact hash_cascade_hits fs a b a1 b1 c c1 v h

/-- What a completed oracle call on the table did to the full-hash counters. -/
theorem call_equal_hits (cfg : Config) (fs : FS) (es es1 : List entry) (c c1 : Stats)
    (i j : Nat) (h : call_equal cfg fs (es, c) i j = .ok (es1, c1)) :
    c.Full_hashes_computed ≤ c1.Full_hashes_computed
      ∧ c.Full_hash_hits ≤ c1.Full_hash_hits
      ∧ c1.Full_hashes_computed + c1.Full_hash_hits
          = c.Full_hashes_computed + c.Full_hash_hits
            + 2 * bit (call_hit cfg fs (es, c) i j) := by
  have hb : bit false = 0 := rfl
  unfold call_equal at h
  unfold call_hit
  split at h
  · rename_i a b hi hj
    dsimp only at hi hj ⊢
    split at h
    · rename_i heq
      simp only [Except.ok.injEq, Prod.mk.injEq] at h
      obtain ⟨rfl, rfl⟩ := h
      rw [if_pos heq, hb]
      omega
    · rename_i hne
      rw [if_neg hne]
      split at h
      · rename_i v a1 b1 c2 hce
        simp only [Except.ok.injEq, Prod.mk.injEq] at h
        obtain ⟨rfl, rfl⟩ := h
        exact comparison_equal_hits cfg fs a b a1 b1 c c2 v hce
      · exact absurd h (by simp)
  · simp only [Except.ok.injEq, Prod.mk.injEq] at h
    obtain ⟨rfl, rfl⟩ := h
    rw [hb]
    omega

/-- What a completed sequence of oracle calls did to the full-hash counters:
two requests for every call that found the partial hashes equal. -/
theorem run_calls_hits (cfg : Config) (fs : FS) (l : List (Nat × Nat)) (es es1 : List entry)
    (c c1 : Stats) (h : run_calls cfg fs l (es, c) = .ok (es1, c1)) :
    c.Full_hashes_computed ≤ c1.Full_hashes_computed
      ∧ c.Full_hash_hits ≤ c1.Full_hash_hits
      ∧ c1.Full_hashes_computed + c1.Full_hash_hits
          = c.Full_hashes_computed + c.Full_hash_hits
            + 2 * partial_hits cfg fs l (es, c) := by
  induction l generalizing es c with
  | nil =>
    simp only [run_calls, Except.ok.injEq, Prod.mk.injEq] at h
    obtain ⟨rfl, rfl⟩ := h
    simp only [partial_hits]
    omega
  | cons ij rest ih =>
    obtain ⟨i, j⟩ := ij
    simp only [run_calls] at h
    simp only [partial_hits]
    split at h
    · rename_i t1 ht
      obtain ⟨es2, c2⟩ := t1
      obtain ⟨k1, b1, f1⟩ := call_equal_hits cfg fs es es2 c c2 i j ht
      obtain ⟨k2, b2, f2⟩ := ih es2 c2 h
      omega
    · exact absurd h (by simp)

/-- C11, as stated, fails as soon as one comparison finds the partial hashes
of two records without a full hash equal: the call then computes the full hash
of both.  On the three identical files `A`, `C`, `B`, none hashed yet, the one
call on `A` and `C` leaves `Full_hashes_computed` at 2 with 1 comparison that
found the partial hashes equal; and the whole scan computes 3 full hashes
while it calls the oracle only twice. -/
theorem full_hashes_exceed_partial_matches :
    (∀ e ∈ trio_table, e.partialhash_present = false ∧ e.filehash_present = false)
      ∧ full_hashes_after default_config trio_fs [(0, 1)] (trio_table, Stats.zero) = some 2
      ∧ partial_hits default_config trio_fs [(0, 1)] (trio_table, Stats.zero) = 1
      ∧ (scan default_config (start trio_table trio_fs)).state.stats.Full_hashes_computed = 3
      ∧ oracle_calls (scan default_config (start trio_table trio_fs)).state.log = 2 := by
  decide

/-- C11, amended: over every completed sequence of `comparison_equal` calls
on a table, from any starting table (in particular one without hashes) and any
switches, `Full_hashes_computed` grows by at most twice the number of calls
that compared the two partial hashes and found them equal.  Exactly: every
such call asks for the full hash of both records, each request being either a
computation or a hit, so that `Full_hashes_computed + Full_hash_hits` grows by
twice that number; and a sequence without such a call computes no full hash.
The sequence being arbitrary, the bound holds after every call of a run. -/
theorem hash_tier_monotonicity (cfg : Config) (fs : FS) (l : List (Nat × Nat))
    (es es1 : List entry) (c c1 : Stats)
    (h : run_calls cfg fs l (es, c) = .ok (es1, c1)) :
    c1.Full_hashes_computed ≤ c.Full_hashes_computed + 2 * partial_hits cfg fs l (es, c)
      ∧ c1.Full_hashes_computed + c1.Full_hash_hits
          = c.Full_hashes_computed + c.Full_hash_hits + 2 * partial_hits cfg fs l (es, c)
      ∧ c.Full_hashes_computed ≤ c1.Full_hashes_computed
      ∧ (partial_hits cfg fs l (es, c) = 0 →
          c1.Full_hashes_computed = c.Full_hashes_computed) := by
  obtain ⟨k, b, f⟩ := run_calls_hits cfg fs l es es1 c c1 h
  refine ⟨by omega, f, k, fun h0 => ?_⟩
  rw [h0] at f
  omega

/-- C11, amended, on the two calls the scan makes on `A`, `C`, `B`: three full
hashes computed, one hit, two comparisons that found the partial hashes
equal. -/
theorem hash_tier_monotonicity_witness :
    run_calls default_config trio_fs [(0, 1), (0, 2)] (trio_table, Stats.zero)
        = .ok (trio_table.map (fun e => hashed e 7 9), ⟨0, 3, 3, 1, 1, 0, 0, 0, 0⟩)
      ∧ partial_hits default_config trio_fs [(0, 1), (0, 2)] (trio_table, Stats.zero) = 2
      ∧ (⟨0, 3, 3, 1, 1, 0, 0, 0, 0⟩ : Stats).Full_hashes_computed
          ≤ Stats.zero.Full_hashes_computed
            + 2 * partial_hits default_config trio_fs [(0, 1), (0, 2)] (trio_table, Stats.zero)
      ∧ (⟨0, 3, 3, 1, 1, 0, 0, 0, 0⟩ : Stats).Full_hashes_computed
            + (⟨0, 3, 3, 1, 1, 0, 0, 0, 0⟩ : Stats).Full_hash_hits
          = Stats.zero.Full_hashes_computed + Stats.zero.Full_hash_hits
            + 2 * partial_hits default_config trio_fs [(0, 1), (0, 2)] (trio_table, Stats.zero)
      ∧ Stats.zero.Full_hashes_computed
          ≤ (⟨0, 3, 3, 1, 1, 0, 0, 0, 0⟩ : Stats).Full_hashes_computed
      ∧ (partial_hits default_config trio_fs [(0, 1), (0, 2)] (trio_table, Stats.zero) = 0 →
          (⟨0, 3, 3, 1, 1, 0, 0, 0, 0⟩ : Stats).Full_hashes_computed
            = Stats.zero.Full_hashes_computed) :=
  ⟨rfl, by decide,
    hash_tier_monotonicity default_config trio_fs [(0, 1), (0, 2)] trio_table
      (trio_table.map (fun e => hashed e 7 9)) Stats.zero ⟨0, 3, 3, 1, 1, 0, 0, 0, 0⟩ rfl⟩

/-! ## Size or device mismatch -/

/-- The loop body keeps every oracle call inside a window. -/
theorem inner_body_oracle (cfg : Config) (es0 : List entry) (i j : Nat) (ei ej : entry)
    (s : State) (hi : s.entries[i]? = some ei) (hj : s.entries[j]? = some ej) (hij : i ≠ j)
    (hw : same_window ei ej) (hcf : col_frame es0 s.entries)
    (hv : oracle_in_window es0 s) :
    oracle_in_window es0 (inner_body cfg i j ei ej s).state := by
  obtain ⟨e0i, h0i, hsi, -⟩ := col_frame_get es0 s.entries hcf i ei hi
  obtain ⟨e0j, h0j, hsj, -⟩ := col_frame_get es0 s.entries hcf j ej hj
  have hnew : ∃ e0i e0j, es0[i]? = some e0i ∧ es0[j]? = some e0j ∧ same_window e0i e0j := by
    refine ⟨e0i, e0j, h0i, h0j, ?_⟩
    unfold same_window at hw ⊢
    rw [hsi, hsj]
    exact hw
  intro r k hk
  rcases inner_body_shape cfg i j ei ej s hi hj hij with
    ⟨hl, -⟩ | ⟨-, hl, -⟩ | ⟨-, hl, -⟩ | ⟨-, hl, -⟩
  · rw [hl] at hk
    exact hv r k hk
  · rw [hl] at hk
    rcases List.mem_append.1 hk with hk | hk
    · exact hv r k hk
    · simp at hk
  · rw [hl] at hk
    rcases List.mem_append.1 hk with hk | hk
    · exact hv r k hk
    · simp only [List.mem_singleton, Event.oracle.injEq] at hk
      rw [hk.1, hk.2]
      exact hnew
  · rw [hl] at hk
    rcases List.mem_append.1 hk with hk | hk
    · exact hv r k hk
    · simp only [List.mem_cons, Event.oracle.injEq, List.mem_singleton, List.not_mem_nil,
        or_false, reduceCtorEq] at hk
      rw [hk.1, hk.2]
      exact hnew

/-- Every call of `comparison_equal` a scan makes, whether the scan completes
or aborts, is made for two records of one window: same size, same device. -/
theorem oracle_calls_in_window (cfg : Config) (es : List entry) (fs : FS) :
    oracle_in_window es (scan cfg (start es fs)).state := by
  have key := outer_loop_rule cfg
    (fun _ s => col_frame es s.entries ∧ oracle_in_window es s)
    (fun _ s => oracle_in_window es s)
    (fun i s ei h _ _ => h)
    (fun i s ei h hi hn => by
      have inner := inner_loop_rule cfg i
        (fun j s => i < j ∧ col_frame es s.entries ∧ oracle_in_window es s)
        (fun _ s => oracle_in_window es s)
        (fun j s1 ei1 ej1 hJ h1 h2 hw => by
          obtain ⟨hij, hcf, hv⟩ := hJ
          have hv2 := inner_body_oracle cfg es i j ei1 ej1 s1 h1 h2 (Nat.ne_of_lt hij) hw hcf hv
          have hcf2 := inner_body_col_frame cfg es i j ei1 ej1 s1 h1 h2 (Nat.ne_of_lt hij) hcf
          cases hout : inner_body cfg i j ei1 ej1 s1 with
          | done s2 =>
            rw [hout] at hv2 hcf2
            exact ⟨Nat.lt_succ_of_lt hij, hcf2, hv2⟩
          | aborted w s2 =>
            rw [hout] at hv2
            exact hv2)
        (s.entries.length - (i + 1)) (i + 1) s ⟨Nat.lt_succ_self i, h.1, h.2⟩
      cases hout : inner_loop cfg i (s.entries.length - (i + 1)) (i + 1) s with
      | done s1 =>
        rw [hout] at inner
        obtain ⟨j1, ⟨-, hcf, hv⟩, -⟩ := inner
        exact ⟨hcf, hv⟩
      | aborted w s1 =>
        rw [hout] at inner
        exact inner)
    (es.length - 1) 0 (start es fs)
    ⟨⟨⟨rfl, fun _ => Or.inl rfl⟩, rfl⟩, fun r k hk => by simp [start] at hk⟩
  unfold scan
  have hlen : (start es fs).entries.length = es.length := rfl
  rw [hlen]
  cases hout : outer_loop cfg (es.length - 1) 0 (start es fs) with
  | done s1 =>
    rw [hout] at key
    obtain ⟨i1, ⟨-, hv⟩, -⟩ := key
    exact hv
  | aborted w s1 =>
    rw [hout] at key
    exact key

/-- An input that lists the file `y` also as `./y`, after the identical file
`x`: the run without `-n` replaces `y` by a link to `x`, which `./y` names
too; at `./y` its last-minute check `st_ino != st_ino` fails and it aborts,
while the dry run completes and retires both. -/
theorem second_spelling_aborts :
    ¬ (((paths alias_listed).filterMap id).map alias_fs.resolve).Nodup
      ∧ (scan { default_config with No_do := false } (start alias_listed alias_fs)).abort
          = some Abort.assert_ino
      ∧ paths (scan { default_config with No_do := false }
            (start alias_listed alias_fs)).state.entries = [some "x", none, some "./y"]
      ∧ (scan { default_config with No_do := true } (start alias_listed alias_fs)).abort = none
      ∧ paths (scan { default_config with No_do := true }
            (start alias_listed alias_fs)).state.entries = [some "x", none, none] := by
  decide

end Dupmerge
